import Mathlib

/-!
# Reviewpad configuration loader and DSL interpreter

A shallow embedding of `engine/loader.go`: import resolution (`processImports`),
inline-rule normalisation (`processInlineRules`, `processInlineRulesOnWorkflow`)
and the free-text rewrite pass (`transform`); of the built-ins `description` and
`reviewers` (`plugins/aladino/functions`); and, in the namespace `Aladino`, a model of
the DSL interpreter (`lang/aladino`), of which only the tests are at hand; followed by the
properties proved about them.

Conventions.
* Go slices are Lean lists (a `nil` slice and an empty slice are both `[]`).
* Go `error` values are strings; a function returning `(T, error)` returns
  `Except String T`.
* The Go maps `LoadEnv.Visited` and `LoadEnv.Stack` are only ever used as key sets;
  they are lists of keys with set-like insertion and deletion. Other Go maps are
  association lists.
* The collaborators that live outside the repository (HTTP client, YAML decoder,
  SHA-256, mapstructure) are the fields of `World`; the generated lexer and parser of the
  DSL are a `Grammar`. A SHA-256 digest is an array of 32 bytes and the content hash is
  its rendering in 64 hexadecimal digits.
* `processImports` recurses on fetched documents, so it carries a fuel argument that
  bounds the recursion depth; `none` means that the fuel ran out. `processImportsTrace` is
  the same function instrumented with the environment after each of its writes.
* The host platform is a `Host`: the target as it answers each successive invocation of
  host code. The evaluator counts these invocations, so that two calls of the same
  built-in may be answered differently.
-/

namespace Reviewpad

/-! ## Definitions -/

/-- Raw bytes of a document (`[]byte`). -/
abbrev Bytes := List Nat

/-- The kinds of target entity a workflow may apply to (`handler.TargetEntityKind`). -/
inductive TargetEntityKind where
  | PullRequest
  | Issue
deriving DecidableEq, Repr

/-- An import statement: a URL. -/
structure PadImport where
  Url : String
deriving DecidableEq, Repr

/-- A rule: name, kind, description and spec. -/
structure PadRule where
  Name : String
  Kind : String
  Description : String
  Spec : String
deriving DecidableEq, Repr

/-- A label specification. -/
structure PadLabel where
  Name : String
  Color : String
  Description : String
deriving DecidableEq, Repr

/-- A group of entities. -/
structure PadGroup where
  Name : String
  Description : String
  Kind : String
  Typ : String
  Spec : String
  Param : String
  Where : String
deriving DecidableEq, Repr

/-- A canonical workflow rule: the name of a rule and its extra actions. -/
structure PadWorkflowRule where
  Rule : String
  ExtraActions : List String
deriving DecidableEq, Repr

/-- A dynamically typed value as produced by the YAML decoder for an `interface{}`:
a string, a mapping with string keys, a sequence, an integer, a boolean, `nil`, or a value
of any other dynamic type (a float, a timestamp, a mapping with other keys), of which only
the Go type name matters here. -/
inductive RawValue where
  | str (s : String)
  | map (m : List (String × RawValue))
  | seq (xs : List RawValue)
  | int (n : Int)
  | bool (b : Bool)
  | null
  | other (typeName : String)

/-- The Go type name printed by the `%T` verb for a dynamic value. -/
def RawValue.goType : RawValue → String
  | .str _ => "string"
  | .map _ => "map[string]interface {}"
  | .seq _ => "[]interface {}"
  | .int _ => "int"
  | .bool _ => "bool"
  | .null => "<nil>"
  | .other typeName => typeName

/-- A workflow; `NonNormalizedRules` is the heterogeneous list read from the document. -/
structure PadWorkflow where
  Name : String
  On : List TargetEntityKind
  Description : String
  AlwaysRun : Bool
  Rules : List PadWorkflowRule
  Actions : List String
  NonNormalizedRules : List RawValue

/-- A pipeline stage. -/
structure PadStage where
  Actions : List String
  Until : String
deriving DecidableEq, Repr

/-- A pipeline. -/
structure PadPipeline where
  Name : String
  Description : String
  Trigger : String
  Stages : List PadStage
deriving DecidableEq, Repr

/-- The top-level document. -/
structure ReviewpadFile where
  Version : String
  Edition : String
  Mode : String
  IgnoreErrors : Bool
  Imports : List PadImport
  Groups : List PadGroup
  Rules : List PadRule
  Labels : List (String × PadLabel)
  Workflows : List PadWorkflow
  Pipelines : List PadPipeline

/-- The zero value `ReviewpadFile{}`. -/
def ReviewpadFile.empty : ReviewpadFile :=
  { Version := "", Edition := "", Mode := "", IgnoreErrors := false, Imports := [],
    Groups := [], Rules := [], Labels := [], Workflows := [], Pipelines := [] }

/-- The loader environment: the key sets of the maps `Visited` and `Stack`. -/
structure LoadEnv where
  Visited : List String
  Stack : List String
deriving DecidableEq, Repr

/-- Map assignment `m[k] = true` on a key set. -/
def setKey (m : List String) (k : String) : List String :=
  if k ∈ m then m else k :: m

/-- Map deletion `delete(m, k)` on a key set. -/
def deleteKey (m : List String) (k : String) : List String :=
  m.filter (fun x => x ≠ k)

/-- The value of `sha256.Sum256`, an array of 32 bytes (`[32]byte`). -/
abbrev Digest := Mathlib.Vector (Fin 256) 32

/-- The hexadecimal digits, in lower case. -/
def hexDigits : List Char :=
  ['0', '1', '2', '3', '4', '5', '6', '7', '8', '9', 'a', 'b', 'c', 'd', 'e', 'f']

/-- The two hexadecimal digits that the verb `%x` prints for a byte. -/
def hexByte (b : Fin 256) : List Char :=
  [hexDigits.getD (b.val / 16) '0', hexDigits.getD (b.val % 16) '0']

/-- The rendering `fmt.Sprintf("%x", dataHash)` of a digest: 64 hexadecimal digits. -/
def sprintfHex (dataHash : Digest) : String :=
  String.mk (dataHash.toList.flatMap hexByte)

/-- The collaborators outside the repository. -/
structure World where
  /-- The body served for a URL (`http.Get` followed by `ioutil.ReadAll`). -/
  httpGet : String → Except String Bytes
  /-- The decoder `yaml.Unmarshal` into a `ReviewpadFile`. -/
  yamlUnmarshal : Bytes → Except String ReviewpadFile
  /-- The digest function `sha256.Sum256`. -/
  sha256Sum256 : Bytes → Digest
  /-- The decoder `mapstructure.Decode` into a `PadWorkflowRule`. -/
  mapstructureDecode : List (String × RawValue) → Except String PadWorkflowRule
  /-- The expression rewrite `transformAladinoExpression`. -/
  transformAladinoExpression : String → String

/-- The result of a fuel-bounded computation: `none` when the fuel ran out. -/
abbrev Outcome (α : Type) := Option (Except String α)

/-- Modelled from the spec: `appendLabels` is not part of the sources at hand; the
sub-document's labels are merged into the current mapping, a later label replacing an
earlier one with the same id. -/
def ReviewpadFile.appendLabels (r o : ReviewpadFile) : ReviewpadFile :=
  let merged := o.Labels.foldl (fun acc kv => acc.filter (fun x => x.1 ≠ kv.1) ++ [kv]) r.Labels
  { r with Labels := merged }

/-- Modelled from the spec: `appendGroups` is not part of the sources at hand; the
sub-document's groups are appended, order preserved. -/
def ReviewpadFile.appendGroups (r o : ReviewpadFile) : ReviewpadFile :=
  { r with Groups := r.Groups ++ o.Groups }

/-- Modelled from the spec: `appendRules` is not part of the sources at hand; the
sub-document's rules are appended, order preserved. -/
def ReviewpadFile.appendRules (r o : ReviewpadFile) : ReviewpadFile :=
  { r with Rules := r.Rules ++ o.Rules }

/-- Modelled from the spec: `appendWorkflows` is not part of the sources at hand; the
sub-document's workflows are appended, order preserved. -/
def ReviewpadFile.appendWorkflows (r o : ReviewpadFile) : ReviewpadFile :=
  { r with Workflows := r.Workflows ++ o.Workflows }

/-- Modelled from the spec: `findRule` is not part of the sources at hand; it looks up
a rule by name ("only if no Rule with that name already exists"). -/
def findRule (rules : List PadRule) (name : String) : Option PadRule :=
  rules.find? (fun r => r.Name = name)

/-- The content hash of a document. -/
def hash (w : World) (data : Bytes) : String :=
  let dataHash := w.sha256Sum256 data
  let dHash := sprintfHex dataHash
  dHash

/-- Decoding of a document. -/
def parse (w : World) (data : Bytes) : Except String ReviewpadFile :=
  match w.yamlUnmarshal data with
  | .error err => .error err
  | .ok file => .ok file

/-- Fetches an import and returns the decoded document with its content hash. -/
def loadImport (w : World) (reviewpadImport : PadImport) : Except String (ReviewpadFile × String) :=
  match w.httpGet reviewpadImport.Url with
  | .error err => .error err
  | .ok content =>
    match parse w content with
    | .error err => .error err
    | .ok file => .ok (file, hash w content)

/-- The body of the `for` loop of `processImports` over the remaining imports; `recur`
is the recursive call on a sub-document. -/
def importsLoop (w : World) (recur : ReviewpadFile → LoadEnv → Outcome (ReviewpadFile × LoadEnv)) :
    List PadImport → ReviewpadFile → LoadEnv → Outcome (ReviewpadFile × LoadEnv)
  | [], file, env => some (.ok (file, env))
  | reviewpadImport :: rest, file, env =>
    match loadImport w reviewpadImport with
    | .error err => some (.error err)
    | .ok (iFile, idHash) =>
      -- check for cycles
      if idHash ∈ env.Stack then some (.error "loader: cyclic dependency")
      -- optimize visits
      else if idHash ∈ env.Visited then importsLoop w recur rest file env
      else
        -- DFS call inline imports, update the environment
        let env1 : LoadEnv :=
          { Stack := setKey env.Stack idHash, Visited := setKey env.Visited idHash }
        match recur iFile env1 with
        | none => none
        | some (.error err) => some (.error err)
        | some (.ok (subTreeFile, env2)) =>
          -- remove from the stack
          let env3 : LoadEnv := { env2 with Stack := deleteKey env2.Stack idHash }
          -- append labels, rules and workflows
          let file1 := (((file.appendLabels subTreeFile).appendGroups subTreeFile).appendRules
            subTreeFile).appendWorkflows subTreeFile
          importsLoop w recur rest file1 env3

/-- Inlines the imported files into the current file. -/
def processImports (w : World) : Nat → ReviewpadFile → LoadEnv → Outcome (ReviewpadFile × LoadEnv)
  | 0, _, _ => none
  | fuel + 1, file, env =>
    match importsLoop w (processImports w fuel) file.Imports file env with
    | none => none
    | some (.error err) => some (.error err)
    | some (.ok (file1, env1)) =>
      -- reset all imports
      some (.ok ({ file1 with Imports := [] }, env1))

/-- The rule materialised for an inline rule. -/
def decodeRule (rule : String) : PadRule :=
  { Name := rule, Spec := rule, Kind := "patch", Description := "" }

/-- Decoding of a mapping entry into a workflow rule. -/
def decodeWorkflowRule (decode : List (String × RawValue) → Except String PadWorkflowRule)
    (rule : List (String × RawValue)) : Except String PadWorkflowRule :=
  decode rule

/-- The `for` loop of `processInlineRulesOnWorkflow` over the remaining raw entries;
`wfRules` is `wf.Rules` and `rules` the rules materialised so far. -/
def inlineRulesLoop (decode : List (String × RawValue) → Except String PadWorkflowRule)
    (currentRules : List PadRule) :
    List RawValue → List PadWorkflowRule → List PadRule →
      Except String (List PadWorkflowRule × List PadRule)
  | [], wfRules, rules => .ok (wfRules, rules)
  | rawRule :: rest, wfRules, rules =>
    match rawRule with
    | .str r =>
      let rule := decodeRule r
      let workflowRule : PadWorkflowRule := { Rule := rule.Name, ExtraActions := [] }
      let rules1 := if (findRule currentRules rule.Name).isSome then rules else rules ++ [rule]
      inlineRulesLoop decode currentRules rest (wfRules ++ [workflowRule]) rules1
    | .map r =>
      match decodeWorkflowRule decode r with
      | .error err => .error err
      | .ok decodedWorkflowRule =>
        let workflowRule := decodedWorkflowRule
        let rule := decodeRule decodedWorkflowRule.Rule
        let rules1 := if (findRule currentRules rule.Name).isSome then rules else rules ++ [rule]
        inlineRulesLoop decode currentRules rest (wfRules ++ [workflowRule]) rules1
    | r => .error ("unknown rule type " ++ r.goType)

/-- Normalises the raw rule entries of one workflow. -/
def processInlineRulesOnWorkflow (decode : List (String × RawValue) → Except String PadWorkflowRule)
    (workflow : PadWorkflow) (currentRules : List PadRule) :
    Except String (PadWorkflow × List PadRule) :=
  match inlineRulesLoop decode currentRules workflow.NonNormalizedRules workflow.Rules [] with
  | .error err => .error err
  | .ok (wfRules, rules) =>
    -- `wf` is built without `NonNormalizedRules`: the field keeps its zero value
    .ok ({ Name := workflow.Name, Description := workflow.Description,
           AlwaysRun := workflow.AlwaysRun, Rules := wfRules, Actions := workflow.Actions,
           On := workflow.On, NonNormalizedRules := [] }, rules)

/-- The `for` loop of `processInlineRules`: `done` are the workflows already replaced,
`rules` is `reviewpadFile.Rules`. -/
def inlineWorkflowsLoop (decode : List (String × RawValue) → Except String PadWorkflowRule) :
    List PadWorkflow → List PadWorkflow → List PadRule →
      Except String (List PadWorkflow × List PadRule)
  | [], done, rules => .ok (done, rules)
  | workflow :: rest, done, rules =>
    match processInlineRulesOnWorkflow decode workflow rules with
    | .error err => .error err
    | .ok (processedWorkflow, newRules) =>
      inlineWorkflowsLoop decode rest (done ++ [processedWorkflow]) (rules ++ newRules)

/-- Normalises the inline rules of the file. -/
def processInlineRules (decode : List (String × RawValue) → Except String PadWorkflowRule)
    (file : ReviewpadFile) : Except String ReviewpadFile :=
  match inlineWorkflowsLoop decode file.Workflows [] file.Rules with
  | .error err => .error err
  | .ok (workflows, rules) =>
    -- the struct literal of `reviewpadFile` sets no `Pipelines`: the field keeps its zero value
    .ok { Version := file.Version, Edition := file.Edition, Mode := file.Mode,
          IgnoreErrors := file.IgnoreErrors, Imports := file.Imports, Groups := file.Groups,
          Rules := rules, Labels := file.Labels, Workflows := workflows, Pipelines := [] }

/-- The rewrite pass over the canonical document; `f` is `transformAladinoExpression`.
The transformed workflows are built without `NonNormalizedRules`; pipeline triggers and
stage `until` conditions are copied as they are. -/
def transform (f : String → String) (file : ReviewpadFile) : ReviewpadFile :=
  let transformedRules : List PadRule := file.Rules.map fun rule =>
    { Name := rule.Name
      Kind := if rule.Kind = "" then "patch" else rule.Kind
      Description := rule.Description
      Spec := f rule.Spec }
  let transformedWorkflows : List PadWorkflow := file.Workflows.map fun workflow =>
    { Name := workflow.Name
      On := if workflow.On.length > 0 then workflow.On else [TargetEntityKind.PullRequest]
      Description := workflow.Description
      Rules := workflow.Rules.map fun rule =>
        { Rule := rule.Rule, ExtraActions := rule.ExtraActions.map f }
      Actions := workflow.Actions.map f
      AlwaysRun := workflow.AlwaysRun
      NonNormalizedRules := [] }
  let transformedPipelines : List PadPipeline := file.Pipelines.map fun pipeline =>
    { Name := pipeline.Name
      Description := pipeline.Description
      Trigger := pipeline.Trigger
      Stages := pipeline.Stages.map fun stage =>
        { Actions := stage.Actions.map f, Until := stage.Until } }
  { Version := file.Version, Edition := file.Edition, Mode := file.Mode,
    IgnoreErrors := file.IgnoreErrors, Imports := file.Imports, Groups := file.Groups,
    Rules := transformedRules, Labels := file.Labels, Workflows := transformedWorkflows,
    Pipelines := transformedPipelines }

/-- Loads a document: decode, resolve imports, normalise inline rules, transform. -/
def Load (w : World) (fuel : Nat) (data : Bytes) : Outcome ReviewpadFile :=
  match parse w data with
  | .error err => some (.error err)
  | .ok file =>
    let dHash := hash w data
    let env : LoadEnv := { Visited := setKey [] dHash, Stack := setKey [] dHash }
    match processImports w fuel file env with
    | none => none
    | some (.error err) => some (.error err)
    | some (.ok (file1, _)) =>
      match processInlineRules w.mapstructureDecode file1 with
      | .error err => some (.error err)
      | .ok file2 => some (.ok (transform w.transformAladinoExpression file2))

/-- An edge of the import graph: `c` decodes and one of its imports serves `c'`. -/
def Edge (w : World) (c c' : Bytes) : Prop :=
  ∃ file, parse w c = .ok file ∧ ∃ imp ∈ file.Imports, w.httpGet imp.Url = .ok c'

/-- The documents reachable from `root` along imports, `root` included. -/
def Reach (w : World) (root c : Bytes) : Prop :=
  Relation.ReflTransGen (Edge w) root c

/-- The reachable import graph has a cycle, nodes being identified by their hash. -/
def HasCycle (w : World) (root : Bytes) : Prop :=
  ∃ c c', Reach w root c ∧ Relation.TransGen (Edge w) c c' ∧ hash w c' = hash w c

/-- Every reachable document decodes and every import of it can be fetched. -/
def AllLoadsSucceed (w : World) (root : Bytes) : Prop :=
  ∀ c, Reach w root c → ∃ file, parse w c = .ok file ∧
    ∀ imp ∈ file.Imports, ∃ c', w.httpGet imp.Url = .ok c'

/-- The hash identifies the reachable documents: no two of them collide. -/
def HashFaithful (w : World) (root : Bytes) : Prop :=
  ∀ a b, Reach w root a → Reach w root b → hash w a = hash w b → a = b

/-- The merge of a resolved sub-document into the current document. -/
def mergeSub (file subTreeFile : ReviewpadFile) : ReviewpadFile :=
  (((file.appendLabels subTreeFile).appendGroups subTreeFile).appendRules
    subTreeFile).appendWorkflows subTreeFile

/-- The environment on descent into the import with hash `h`. -/
def pushEnv (env : LoadEnv) (h : String) : LoadEnv :=
  { Stack := setKey env.Stack h, Visited := setKey env.Visited h }

/-- The environment on return from the import with hash `h`. -/
def popEnv (env : LoadEnv) (h : String) : LoadEnv :=
  { env with Stack := deleteKey env.Stack h }

/-- Big-step description of the import loop, one constructor per path through the
loop body. -/
inductive LoopRun (w : World) :
    List PadImport → ReviewpadFile → LoadEnv → Except String (ReviewpadFile × LoadEnv) → Prop
  | done (file env) : LoopRun w [] file env (.ok (file, env))
  | loadFail {imp rest file env err} :
      loadImport w imp = .error err → LoopRun w (imp :: rest) file env (.error err)
  | cyclic {imp rest file env iFile h} :
      loadImport w imp = .ok (iFile, h) → h ∈ env.Stack →
      LoopRun w (imp :: rest) file env (.error "loader: cyclic dependency")
  | skip {imp rest file env iFile h r} :
      loadImport w imp = .ok (iFile, h) → h ∉ env.Stack → h ∈ env.Visited →
      LoopRun w rest file env r → LoopRun w (imp :: rest) file env r
  | subFail {imp rest file env iFile h err} :
      loadImport w imp = .ok (iFile, h) → h ∉ env.Stack → h ∉ env.Visited →
      LoopRun w iFile.Imports iFile (pushEnv env h) (.error err) →
      LoopRun w (imp :: rest) file env (.error err)
  | descend {imp rest file env iFile h sub env2 r} :
      loadImport w imp = .ok (iFile, h) → h ∉ env.Stack → h ∉ env.Visited →
      LoopRun w iFile.Imports iFile (pushEnv env h) (.ok (sub, env2)) →
      LoopRun w rest (mergeSub file sub) (popEnv env2 h) r →
      LoopRun w (imp :: rest) file env r

/-- The last step of `processImports`: the import list is reset. -/
def resetImports : Except String (ReviewpadFile × LoadEnv) → Except String (ReviewpadFile × LoadEnv)
  | .ok (file, env) => .ok ({ file with Imports := [] }, env)
  | .error err => .error err

/-- Every import of `c` serves a document whose hash is in `hs`. -/
def importsLead (w : World) (c : Bytes) (hs : List String) : Prop :=
  ∃ file, parse w c = .ok file ∧
    ∀ imp ∈ file.Imports, ∃ c', w.httpGet imp.Url = .ok c' ∧ hash w c' ∈ hs

/-- Documents in finishing order, latest first: the imports of each lead to documents
finished before it. -/
def TopoClosed (w : World) : List Bytes → Prop
  | [] => True
  | c :: D => importsLead w c (D.map (hash w)) ∧ TopoClosed w D

/-- The finished documents `D` account for the visited hashes that are off the stack. -/
def DoneInv (w : World) (root : Bytes) (env : LoadEnv) (D : List Bytes) : Prop :=
  TopoClosed w D ∧
  (∀ x ∈ env.Visited, x ∈ env.Stack ∨ x ∈ D.map (hash w)) ∧
  (∀ d ∈ D, hash w d ∈ env.Visited ∧ hash w d ∉ env.Stack ∧ Reach w root d)

/-- The rules a document declares itself. -/
def docRules (w : World) (c : Bytes) : List PadRule :=
  match parse w c with
  | .ok file => file.Rules
  | .error _ => []

/-- The groups a document declares itself. -/
def docGroups (w : World) (c : Bytes) : List PadGroup :=
  match parse w c with
  | .ok file => file.Groups
  | .error _ => []

/-- The workflows a document declares itself. -/
def docWorkflows (w : World) (c : Bytes) : List PadWorkflow :=
  match parse w c with
  | .ok file => file.Workflows
  | .error _ => []

/-- The number of hashes of `U` not yet visited. -/
def unvisited (U : List String) (env : LoadEnv) : Nat :=
  (U.filter (fun x => x ∉ env.Visited)).length

/-- The documents served by the imports of `c`. -/
def importTargets (w : World) (c : Bytes) : List Bytes :=
  match parse w c with
  | .ok file => file.Imports.filterMap fun imp =>
      match w.httpGet imp.Url with
      | .ok c' => some c'
      | .error _ => none
  | .error _ => []

/-- The document `c` decodes and all its imports can be fetched. -/
def loadsOk (w : World) (c : Bytes) : Bool :=
  match parse w c with
  | .ok file => file.Imports.all fun imp =>
      match w.httpGet imp.Url with
      | .ok _ => true
      | .error _ => false
  | .error _ => false

/-- A rule named `name` with a spec calling a built-in of that name. -/
def demoRule (name : String) : PadRule :=
  { Name := name, Kind := "", Description := "", Spec := "$" ++ name ++ "()" }

/-- A workflow `name` whose raw rule list names the rules `rules`. -/
def demoWorkflow (name : String) (rules : List String) : PadWorkflow :=
  { Name := name, On := [], Description := "", AlwaysRun := false, Rules := [],
    Actions := ["$merge()"], NonNormalizedRules := rules.map RawValue.str }

/-- A document importing `urls` and declaring the rules `rules`, one group and one workflow. -/
def demoFile (name : String) (urls : List String) (rules : List String) : ReviewpadFile :=
  { ReviewpadFile.empty with
    Imports := urls.map PadImport.mk
    Rules := rules.map demoRule
    Groups := [{ Name := "group-" ++ name, Description := "", Kind := "developer",
                 Typ := "static", Spec := "[]", Param := "", Where := "" }]
    Workflows := [demoWorkflow ("wf-" ++ name) rules] }

/-- A decoder for mapping entries: reads the keys `rule` and `extra-actions`. -/
def demoDecode (m : List (String × RawValue)) : Except String PadWorkflowRule :=
  match m.lookup "rule" with
  | some (.str r) =>
    match m.lookup "extra-actions" with
    | some (.seq xs) =>
      .ok { Rule := r, ExtraActions := xs.filterMap fun x =>
              match x with
              | .str s => some s
              | _ => none }
    | _ => .ok { Rule := r, ExtraActions := [] }
  | some _ => .error "'rule' expected type 'string'"
  | none => .ok { Rule := "", ExtraActions := [] }

/-- The world of the scenarios: the diamond A→{B,C}, B→D, C→D (D being served under two
URLs), the cycle X→Y→X, a document without imports that declares the rule `dup` twice, and
a document without imports whose workflow names its declared rule `ruleE` twice. The digest
of each document is the SHA-256 of its bytes. -/
def demoWorld : World where
  httpGet u :=
    if u = "https://host/b" then .ok [2]
    else if u = "https://host/c" then .ok [3]
    else if u = "https://host/d" then .ok [4]
    else if u = "https://mirror/d" then .ok [4]
    else if u = "https://host/x" then .ok [5]
    else if u = "https://host/y" then .ok [6]
    else .error "404 Not Found"
  yamlUnmarshal c :=
    match c with
    | [1] => .ok (demoFile "a" ["https://host/b", "https://host/c"] ["ruleA"])
    | [2] => .ok (demoFile "b" ["https://host/d"] ["ruleB"])
    | [3] => .ok (demoFile "c" ["https://mirror/d"] ["ruleC"])
    | [4] => .ok (demoFile "d" [] ["ruleD"])
    | [5] => .ok (demoFile "x" ["https://host/y"] ["ruleX"])
    | [6] => .ok (demoFile "y" ["https://host/x"] ["ruleY"])
    | [8] => .ok { ReviewpadFile.empty with Rules := [demoRule "dup", demoRule "dup"] }
    | [9] => .ok { ReviewpadFile.empty with
                   Rules := [demoRule "ruleE"]
                   Workflows := [demoWorkflow "wf-e" ["ruleE", "ruleE"]] }
    | _ => .error "yaml: unmarshal errors"
  sha256Sum256 c :=
    match c with
    | [1] => ⟨[0x4b, 0xf5, 0x12, 0x2f, 0x34, 0x45, 0x54, 0xc5, 0x3b, 0xde, 0x2e, 0xbb, 0x8c, 0xd2,
               0xb7, 0xe3, 0xd1, 0x60, 0x0a, 0xd6, 0x31, 0xc3, 0x85, 0xa5, 0xd7, 0xcc, 0xe2, 0x3c,
               0x77, 0x85, 0x45, 0x9a], rfl⟩
    | [2] => ⟨[0xdb, 0xc1, 0xb4, 0xc9, 0x00, 0xff, 0xe4, 0x8d, 0x57, 0x5b, 0x5d, 0xa5, 0xc6, 0x38,
               0x04, 0x01, 0x25, 0xf6, 0x5d, 0xb0, 0xfe, 0x3e, 0x24, 0x49, 0x4b, 0x76, 0xea, 0x98,
               0x64, 0x57, 0xd9, 0x86], rfl⟩
    | [3] => ⟨[0x08, 0x4f, 0xed, 0x08, 0xb9, 0x78, 0xaf, 0x4d, 0x7d, 0x19, 0x6a, 0x74, 0x46, 0xa8,
               0x6b, 0x58, 0x00, 0x9e, 0x63, 0x6b, 0x61, 0x1d, 0xb1, 0x62, 0x11, 0xb6, 0x5a, 0x9a,
               0xad, 0xff, 0x29, 0xc5], rfl⟩
    | [4] => ⟨[0xe5, 0x2d, 0x9c, 0x50, 0x8c, 0x50, 0x23, 0x47, 0x34, 0x4d, 0x8c, 0x07, 0xad, 0x91,
               0xcb, 0xd6, 0x06, 0x8a, 0xfc, 0x75, 0xff, 0x62, 0x92, 0xf0, 0x62, 0xa0, 0x9c, 0xa3,
               0x81, 0xc8, 0x9e, 0x71], rfl⟩
    | [5] => ⟨[0xe7, 0x7b, 0x9a, 0x9a, 0xe9, 0xe3, 0x0b, 0x0d, 0xbd, 0xb6, 0xf5, 0x10, 0xa2, 0x64,
               0xef, 0x9d, 0xe7, 0x81, 0x50, 0x1d, 0x7b, 0x6b, 0x92, 0xae, 0x89, 0xeb, 0x05, 0x9c,
               0x5a, 0xb7, 0x43, 0xdb], rfl⟩
    | [6] => ⟨[0x67, 0x58, 0x6e, 0x98, 0xfa, 0xd2, 0x7d, 0xa0, 0xb9, 0x96, 0x8b, 0xc0, 0x39, 0xa1,
               0xef, 0x34, 0xc9, 0x39, 0xb9, 0xb8, 0xe5, 0x23, 0xa8, 0xbe, 0xf8, 0x9d, 0x47, 0x86,
               0x08, 0xc5, 0xec, 0xf6], rfl⟩
    | [8] => ⟨[0xbe, 0xea, 0xd7, 0x79, 0x94, 0xcf, 0x57, 0x33, 0x41, 0xec, 0x17, 0xb5, 0x8b, 0xbf,
               0x7e, 0xb3, 0x4d, 0x27, 0x11, 0xc9, 0x93, 0xc1, 0xd9, 0x76, 0xb1, 0x28, 0xb3, 0x18,
               0x8d, 0xc1, 0x82, 0x9a], rfl⟩
    | [9] => ⟨[0x2b, 0x4c, 0x34, 0x2f, 0x54, 0x33, 0xeb, 0xe5, 0x91, 0xa1, 0xda, 0x77, 0xe0, 0x13,
               0xd1, 0xb7, 0x24, 0x75, 0x56, 0x2d, 0x48, 0x57, 0x8d, 0xca, 0x8b, 0x84, 0xba, 0xc6,
               0x65, 0x1c, 0x3c, 0xb9], rfl⟩
    | _ => ⟨[0xe3, 0xb0, 0xc4, 0x42, 0x98, 0xfc, 0x1c, 0x14, 0x9a, 0xfb, 0xf4, 0xc8, 0x99, 0x6f,
             0xb9, 0x24, 0x27, 0xae, 0x41, 0xe4, 0x64, 0x9b, 0x93, 0x4c, 0xa4, 0x95, 0x99, 0x1b,
             0x78, 0x52, 0xb8, 0x55], rfl⟩
  mapstructureDecode := demoDecode
  transformAladinoExpression s := s

/-- The documents of the diamond. -/
def diamondDocs : List Bytes := [[1], [2], [3], [4]]

/-- The documents of the cycle. -/
def cycleDocs : List Bytes := [[5], [6]]

/-- The workflow rule that a raw entry stands for: a bare string `s` stands for
`{rule = s, extra-actions = []}`, a mapping for its decoded form. -/
inductive Emits (decode : List (String × RawValue) → Except String PadWorkflowRule) :
    RawValue → PadWorkflowRule → Prop
  | str (s : String) : Emits decode (.str s) { Rule := s, ExtraActions := [] }
  | map (m : List (String × RawValue)) (e : PadWorkflowRule) :
      decode m = .ok e → Emits decode (.map m) e

/-- The rule names a raw rule list refers to. -/
def rawRuleNames (decode : List (String × RawValue) → Except String PadWorkflowRule) :
    List RawValue → List String
  | [] => []
  | .str s :: rest => s :: rawRuleNames decode rest
  | .map m :: rest =>
    match decode m with
    | .ok e => e.Rule :: rawRuleNames decode rest
    | .error _ => rawRuleNames decode rest
  | _ :: rest => rawRuleNames decode rest

/-- The rules materialised for the emitted workflow rules `em` whose rule is absent from
`currentRules`. -/
def materialized (currentRules : List PadRule) (em : List PadWorkflowRule) : List PadRule :=
  (em.filter fun e => (findRule currentRules e.Rule).isNone).map fun e => decodeRule e.Rule

/-- Some workflow of the list names twice, in its raw rule list, a rule that is absent when
the workflow is normalised: a name that is neither in `known`, the names of the rules of
the document, nor among the names of the raw lists of the workflows before it. -/
def namesAbsentRuleTwice (decode : List (String × RawValue) → Except String PadWorkflowRule) :
    List String → List PadWorkflow → Bool
  | _, [] => false
  | known, wf :: rest =>
    let names := rawRuleNames decode wf.NonNormalizedRules
    names.any (fun name => decide (name ∉ known) && decide (1 < names.count name)) ||
      namesAbsentRuleTwice decode (known ++ names) rest

/-- A workflow whose raw rule list holds a bare string naming a declared rule, a bare
string naming a new rule, and a mapping; it already carries one canonical entry. -/
def inlineWorkflow : PadWorkflow :=
  { Name := "wf", On := [], Description := "", AlwaysRun := false,
    Rules := [{ Rule := "declared", ExtraActions := ["$comment()"] }],
    Actions := ["$merge()"],
    NonNormalizedRules :=
      [.str "declared", .str "$size() > 10",
       .map [("rule", .str "$isDraft()"), ("extra-actions", .seq [.str "$close()"])]] }

/-- A document with one declared rule and the workflow `inlineWorkflow`. -/
def inlineFile : ReviewpadFile :=
  { ReviewpadFile.empty with
    Rules := [demoRule "declared"]
    Workflows := [inlineWorkflow] }

/-- A document whose workflow carries a canonical entry naming a rule that the document
does not declare, and no raw entries. -/
def danglingFile : ReviewpadFile :=
  { ReviewpadFile.empty with
    Workflows :=
      [{ Name := "wf", On := [], Description := "", AlwaysRun := false,
         Rules := [{ Rule := "ghost", ExtraActions := [] }], Actions := [],
         NonNormalizedRules := [] }] }

/-- A workflow whose second raw entry is an integer. -/
def badWorkflow : PadWorkflow :=
  { Name := "bad", On := [], Description := "", AlwaysRun := false, Rules := [],
    Actions := [], NonNormalizedRules := [.str "first", .int 42, .str "last"] }

/-- A rewrite in the style of `transformAladinoExpression`: the call `$size()` gets its
default argument. -/
def demoRewrite (s : String) : String :=
  if s = "$size() > 10" then "$size([]) > 10" else s

/-- A document with one rule and one pipeline whose trigger and `until` use `$size()`. -/
def pipelineFile : ReviewpadFile :=
  { ReviewpadFile.empty with
    Rules := [{ Name := "big", Kind := "", Description := "", Spec := "$size() > 10" }]
    Pipelines :=
      [{ Name := "p", Description := "", Trigger := "$size() > 10",
         Stages := [{ Actions := ["$size() > 10"], Until := "$size() > 10" }] }] }

/-- The statements of `processImports` that write to the environment. -/
inductive EnvWrite where
  /-- The assignment `env.Stack[idHash] = true`. -/
  | stackSet
  /-- The assignment `env.Visited[idHash] = true`. -/
  | visitedSet
  /-- The deletion `delete(env.Stack, idHash)`. -/
  | stackDelete
deriving DecidableEq, Repr

/-- The environment after each write of a run, in order. -/
abbrev EnvTrace := List (EnvWrite × LoadEnv)

/-- The loop of `processImports` instrumented with its writes to the environment: the
result of `importsLoop` together with the environment after each of the statements
`env.Stack[idHash] = true`, `env.Visited[idHash] = true` and `delete(env.Stack, idHash)`,
in the order in which the run executes them, the writes of the recursive calls included.
Between two writes the environment does not change. -/
def importsLoopTrace (w : World)
    (recur : ReviewpadFile → LoadEnv → Outcome (ReviewpadFile × LoadEnv) × EnvTrace) :
    List PadImport → ReviewpadFile → LoadEnv → Outcome (ReviewpadFile × LoadEnv) × EnvTrace
  | [], file, env => (some (.ok (file, env)), [])
  | reviewpadImport :: rest, file, env =>
    match loadImport w reviewpadImport with
    | .error err => (some (.error err), [])
    | .ok (iFile, idHash) =>
      if idHash ∈ env.Stack then (some (.error "loader: cyclic dependency"), [])
      else if idHash ∈ env.Visited then importsLoopTrace w recur rest file env
      else
        let envA : LoadEnv := { env with Stack := setKey env.Stack idHash }
        let envB : LoadEnv := { envA with Visited := setKey envA.Visited idHash }
        let pushed : EnvTrace := [(EnvWrite.stackSet, envA), (EnvWrite.visitedSet, envB)]
        match recur iFile envB with
        | (none, tr) => (none, pushed ++ tr)
        | (some (.error err), tr) => (some (.error err), pushed ++ tr)
        | (some (.ok (subTreeFile, env2)), tr) =>
          let env3 : LoadEnv := { env2 with Stack := deleteKey env2.Stack idHash }
          let file1 := (((file.appendLabels subTreeFile).appendGroups subTreeFile).appendRules
            subTreeFile).appendWorkflows subTreeFile
          let res := importsLoopTrace w recur rest file1 env3
          (res.1, pushed ++ tr ++ (EnvWrite.stackDelete, env3) :: res.2)

/-- The function `processImports` instrumented with its writes to the environment. -/
def processImportsTrace (w : World) :
    Nat → ReviewpadFile → LoadEnv → Outcome (ReviewpadFile × LoadEnv) × EnvTrace
  | 0, _, _ => (none, [])
  | fuel + 1, file, env =>
    match importsLoopTrace w (processImportsTrace w fuel) file.Imports file env with
    | (none, tr) => (none, tr)
    | (some (.error err), tr) => (some (.error err), tr)
    | (some (.ok (file1, env1)), tr) => (some (.ok ({ file1 with Imports := [] }, env1)), tr)

/-- The environment at the end of a trace that starts in `env`. -/
def lastEnv : LoadEnv → EnvTrace → LoadEnv
  | env, [] => env
  | _, p :: tr => lastEnv p.2 tr

/-- The effect of a write: the environment `e1` after it is the environment `e` before
it with some hash added to the stack, added to the visited set, or deleted from the
stack. -/
def EnvWrite.relates : EnvWrite → LoadEnv → LoadEnv → Prop
  | .stackSet, e, e1 => ∃ h, e1 = { e with Stack := setKey e.Stack h }
  | .visitedSet, e, e1 => ∃ h, e1 = { e with Visited := setKey e.Visited h }
  | .stackDelete, e, e1 => ∃ h, e1 = { e with Stack := deleteKey e.Stack h }

/-- The trace is a sequence of writes that starts in `env`: each entry holds the
environment that its write yields from the environment before it. -/
def IsTrace : LoadEnv → EnvTrace → Prop
  | _, [] => True
  | env, p :: tr => p.1.relates env p.2 ∧ IsTrace p.2 tr

/-- The stack is part of the visited set. -/
def StackVisited (e : LoadEnv) : Prop :=
  ∀ x ∈ e.Stack, x ∈ e.Visited

/-- What holds of the environment after a write: after the assignment to `Stack` of a push
the pushed hash is on the stack without being visited, and the rest of the stack is part of
the visited set; after every other write the stack is part of the visited set. -/
def PointOk (p : EnvWrite × LoadEnv) : Prop :=
  (p.1 ≠ EnvWrite.stackSet → StackVisited p.2) ∧
  (p.1 = EnvWrite.stackSet → ∃ h, h ∈ p.2.Stack ∧ h ∉ p.2.Visited ∧
    ∀ x ∈ p.2.Stack, x ≠ h → x ∈ p.2.Visited)

/-- What a run of the instrumented loop that starts in `env` satisfies: its trace is a
sequence of writes that starts in `env`; when it succeeds, the environment it returns is
the one at the end of its trace, holds the visited hashes of `env` and has its stack within
its visited set if `env` has; and every environment of its trace holds the visited hashes
of `env` and, if `env` has its stack within its visited set, is as `PointOk` says. -/
def TraceInv (env : LoadEnv) (r : Outcome (ReviewpadFile × LoadEnv) × EnvTrace) : Prop :=
  IsTrace env r.2 ∧
  (∀ out env1, r.1 = some (.ok (out, env1)) →
    env1 = lastEnv env r.2 ∧ (∀ x ∈ env.Visited, x ∈ env1.Visited) ∧
    (StackVisited env → StackVisited env1)) ∧
  (∀ p ∈ r.2, (∀ x ∈ env.Visited, x ∈ p.2.Visited) ∧ (StackVisited env → PointOk p))

/-- An error `err` of a run from `env` with trace `tr` is the cyclic-dependency error,
raised for an import of a document reachable from `root` whose content has been fetched
and has its hash on the stack of the environment in which the run ends. -/
def CycleOnStack (w : World) (root : Bytes) (env : LoadEnv) (tr : EnvTrace) (err : String) :
    Prop :=
  err = "loader: cyclic dependency" ∧
  ∃ d f imp iFile h, Reach w root d ∧ parse w d = .ok f ∧ imp ∈ f.Imports ∧
    loadImport w imp = .ok (iFile, h) ∧ h ∈ (lastEnv env tr).Stack

/-- A document without rules whose workflow names the same inline rule twice. -/
def twiceFile : ReviewpadFile :=
  { ReviewpadFile.empty with
    Workflows :=
      [{ Name := "wf", On := [], Description := "", AlwaysRun := false, Rules := [],
         Actions := ["$merge()"],
         NonNormalizedRules := [.str "$isDraft()", .str "$isDraft()"] }] }

namespace Aladino

/-- Modelled from the spec: the types of the DSL, `String`, `Int`, `Bool`, `Array(T)`,
`Dict(K,V)`, `Fun([T...],R)`, `Lambda([T...],R)` and `Dynamic`; the type declarations of
the interpreter are not part of the sources at hand. The return type of a function type is
absent for an action, as in `BuildFunctionType(params, nil)` of the tests. -/
inductive AType where
  | StringType
  | IntType
  | BoolType
  | ArrayOfType (elemType : AType)
  | DictionaryType (keyType valueType : AType)
  | FunctionType (paramTypes : List AType) (returnType : Option AType)
  | LambdaType (paramTypes : List AType) (returnType : AType)
  | DynamicType

/-- The binary operators of the DSL. -/
inductive BinaryOperator where
  | Eq
  | Neq
  | Lt
  | Le
  | Gt
  | Ge
  | And
  | Or
deriving DecidableEq, Repr

/-- Modelled from the spec: the tagged AST emitted by the parser, `Var | StringConst |
IntConst | BoolConst | Array | Dict | FunCall | Lambda | TypedExpr | BinOp | UnOp`; the AST
declarations are not part of the sources at hand. The only unary operator is `!`. -/
inductive Expr where
  | Variable (ident : String)
  | StringConst (value : String)
  | IntConst (value : Int)
  | BoolConst (value : Bool)
  | Array (elems : List Expr)
  | Dictionary (entries : List (String × Expr))
  | FunctionCall (name : Expr) (arguments : List Expr)
  | Lambda (parameters : List Expr) (body : Expr)
  | TypedExpr (expr : Expr) (typeOf : AType)
  | BinaryOp (lhs : Expr) (op : BinaryOperator) (rhs : Expr)
  | UnaryOp (expr : Expr)

/-- Modelled from the spec: the runtime values, scalars, arrays and dictionaries with
string keys; the value declarations are not part of the sources at hand. Lambda instances
and function references, which only reach built-ins after the desugaring of a filter
group, are left out of the model. -/
inductive Value where
  | IntValue (val : Int)
  | StringValue (val : String)
  | BoolValue (val : Bool)
  | ArrayValue (vals : List Value)
  | DictionaryValue (vals : List (String × Value))

/-- The string type. -/
def BuildStringType : AType := .StringType

/-- The type of arrays of `elemType`. -/
def BuildArrayOfType (elemType : AType) : AType := .ArrayOfType elemType

/-- The type of a function or, without return type, of an action. -/
def BuildFunctionType (paramTypes : List AType) (returnType : Option AType) : AType :=
  .FunctionType paramTypes returnType

/-- The AST of an identifier. -/
def BuildVariable (ident : String) : Expr := .Variable ident

/-- The AST of a string literal. -/
def BuildStringConst (value : String) : Expr := .StringConst value

/-- The AST of an array literal. -/
def BuildArray (elems : List Expr) : Expr := .Array elems

/-- The AST of a call. -/
def BuildFunctionCall (name : Expr) (arguments : List Expr) : Expr :=
  .FunctionCall name arguments

/-- The AST of a lambda. -/
def BuildLambda (parameters : List Expr) (body : Expr) : Expr := .Lambda parameters body

/-- The AST of a typed expression. -/
def BuildTypedExpr (expr : Expr) (typeOf : AType) : Expr := .TypedExpr expr typeOf

/-- The string value. -/
def BuildStringValue (val : String) : Value := .StringValue val

/-- The array value. -/
def BuildArrayValue (vals : List Value) : Value := .ArrayValue vals

mutual
/-- Modelled from the spec: structural equality of types. -/
def AType.equals : AType → AType → Bool
  | .StringType, .StringType => true
  | .IntType, .IntType => true
  | .BoolType, .BoolType => true
  | .DynamicType, .DynamicType => true
  | .ArrayOfType a, .ArrayOfType b => AType.equals a b
  | .DictionaryType k v, .DictionaryType k1 v1 => AType.equals k k1 && AType.equals v v1
  | .FunctionType ps (some r), .FunctionType qs (some s) =>
    AType.equalsList ps qs && AType.equals r s
  | .FunctionType ps none, .FunctionType qs none => AType.equalsList ps qs
  | .LambdaType ps r, .LambdaType qs s => AType.equalsList ps qs && AType.equals r s
  | _, _ => false
termination_by structural a => a
/-- Structural equality of lists of types. -/
def AType.equalsList : List AType → List AType → Bool
  | [], [] => true
  | a :: rest, b :: rest1 => AType.equals a b && AType.equalsList rest rest1
  | _, _ => false
termination_by structural a => a
end

/-- The type `Dynamic`. -/
def AType.isDynamic : AType → Bool
  | .DynamicType => true
  | _ => false

/-- Modelled from the spec: "two types unify iff structurally equal (Dynamic unifies with
anything)". -/
def unify (a b : AType) : Bool :=
  a.isDynamic || b.isDynamic || a.equals b

mutual
/-- Modelled from the spec: structural equality of values: scalars by value, arrays
elementwise, dictionaries by their set of entries (the keys of a dictionary being
distinct, two dictionaries have the same entries when they have as many and every entry
of the first is an entry of the second). -/
def Value.equals : Value → Value → Bool
  | .IntValue a, .IntValue b => a == b
  | .StringValue a, .StringValue b => a == b
  | .BoolValue a, .BoolValue b => a == b
  | .ArrayValue xs, .ArrayValue ys => Value.equalsList xs ys
  | .DictionaryValue xs, .DictionaryValue ys =>
    xs.length == ys.length && Value.subEntries xs ys
  | _, _ => false
termination_by structural a => a
/-- Elementwise equality of lists of values. -/
def Value.equalsList : List Value → List Value → Bool
  | [], [] => true
  | x :: xs, y :: ys => Value.equals x y && Value.equalsList xs ys
  | _, _ => false
termination_by structural a => a
/-- Every entry of the first list is an entry of the second. -/
def Value.subEntries : List (String × Value) → List (String × Value) → Bool
  | [], _ => true
  | (k, v) :: xs, ys =>
    ys.any (fun e => k == e.1 && Value.equals v e.2) && Value.subEntries xs ys
termination_by structural a => a
end

/-- A requested reviewer of the forge (`github.User`); `Login` may be absent. -/
structure User where
  Login : Option String
deriving DecidableEq, Repr

/-- A requested team of the forge (`github.Team`); `Slug` may be absent. -/
structure Team where
  Slug : Option String
deriving DecidableEq, Repr

/-- The pull request behind a pull-request target. -/
structure PullRequest where
  RequestedReviewers : List User
  RequestedTeams : List Team
deriving DecidableEq, Repr

/-- Modelled from the spec: the target collaborator, the facade of the pull request or
issue under evaluation, as it answers at the time of one call; its declaration is not part
of the sources at hand. `GetDescription` is the outcome of the host call of that name;
`PullRequest` is the pull request of a pull-request target and absent for an issue. -/
structure Target where
  GetDescription : Except String String
  PullRequest : Option PullRequest

/-- The report entry of one workflow: its name, the rules that fired (a Go map from rule
name to `true`) and the actions executed, in order. -/
structure ReportWorkflowDetails where
  Name : String
  Rules : List (String × Bool)
  Actions : List String
deriving DecidableEq, Repr

/-- Modelled from the spec: the report, a map from workflow name to its details; its
declaration is not part of the sources at hand. -/
structure Report where
  WorkflowDetails : List (String × ReportWorkflowDetails)
deriving DecidableEq, Repr

/-- Modelled from the spec: the environment seen by the host code of a built-in: the
target, the register map and the report. The table of built-ins, which the Go environment
also carries, is passed next to the environment in this model, because the host code of a
built-in takes the environment as an argument. -/
structure Env where
  Target : Target
  RegisterMap : List (String × Value)
  Report : Report

/-- Modelled from the spec: the host platform behind the target. The host code of the
built-ins reaches it through blocking calls, whose answers can change from one call to the
next and which return an error once the run has been cancelled; `host k`, for a host
`host`, is the target as it answers to the host code invoked as the `k`-th of a run,
counting from zero. -/
abbrev Host := Nat → Target

/-- The environment as the host code invoked as the `k`-th of a run sees it: the target it
refers to answers as the host does then. -/
def Env.atCall (env : Env) (host : Host) (k : Nat) : Env :=
  { env with Target := host k }

/-- A built-in function: its type, its host code and the kinds of target it declares to
support. The host code is given the environment as it is when the call is made
(`Env.atCall`); what it learns from the host is what the target of that environment
answers. The tests call built-ins that declare no kind, so the evaluator of this model
does not look at `SupportedKinds`. -/
structure BuiltInFunction where
  Typ : AType
  Code : Env → List Value → Except String Value
  SupportedKinds : List TargetEntityKind

/-- A built-in action: its type, its host code, which returns an error or nothing, and
the kinds of target it declares to support. -/
structure BuiltInAction where
  Typ : AType
  Code : Env → List Value → Except String Unit
  SupportedKinds : List TargetEntityKind

/-- The table of built-ins, keyed by name. -/
structure BuiltIns where
  Functions : List (String × BuiltInFunction)
  Actions : List (String × BuiltInAction)

/-- The lexer and parser of the DSL, which are generated code outside the sources at hand:
the AST of a source text, or nothing when the tokens do not form a valid expression. -/
abbrev Grammar := String → Option Expr

/-- Modelled from the spec: `Parse` fails with the error of kind `parse-error`, `failed to
build AST on input <source>`, when the tokens do not form a valid expression; the text of
the error is spelled as `TestBuildGroupAST_WhenGroupTypeFilterIsSetAndParseFails` asserts
it. -/
def Parse (g : Grammar) (input : String) : Except String Expr :=
  match g input with
  | some e => .ok e
  | none => .error ("parse error: failed to build AST on input " ++ input)

/-- The types of the built-ins, functions first. -/
def typeEnv (b : BuiltIns) : List (String × AType) :=
  b.Functions.map (fun f => (f.1, f.2.Typ)) ++ b.Actions.map (fun a => (a.1, a.2.Typ))

/-- The binding introduced by a lambda parameter, a typed variable. -/
def paramBinding : Expr → Option (String × AType)
  | .TypedExpr (.Variable x) t => some (x, t)
  | _ => none

/-- The types of operands of an order comparison: numerics and strings. -/
def ordered : AType → AType → Bool
  | .IntType, .IntType => true
  | .StringType, .StringType => true
  | _, _ => false

/-- The type `Bool`. -/
def AType.isBool : AType → Bool
  | .BoolType => true
  | _ => false

/-- The type of a binary operation on operands of types `tl` and `tr`. -/
def typeinferBinaryOp (op : BinaryOperator) (tl tr : AType) : Except String AType :=
  match op with
  | .Eq | .Neq => if unify tl tr then .ok .BoolType else .error "type inference failed"
  | .Lt | .Le | .Gt | .Ge =>
    if ordered tl tr then .ok .BoolType else .error "type inference failed"
  | .And | .Or =>
    if tl.isBool && tr.isBool then .ok .BoolType else .error "type inference failed"

/-- The type of a sequence of elements of types `ts`: the type of the first when all
unify with it; an empty sequence has elements of type `Dynamic`. -/
def elemType : List AType → Except String AType
  | [] => .ok .DynamicType
  | t :: rest => if rest.all (unify t) then .ok t else .error "type inference failed"

/-- The type of a call of a callee of type `tf` on arguments of types `targs`. -/
def typeinferCall (tf : AType) (targs : List AType) : Except String (Option AType) :=
  match tf with
  | .FunctionType ps r =>
    if ps.length = targs.length && (ps.zip targs).all (fun p => unify p.1 p.2) then .ok r
    else .error "type inference failed"
  | _ => .error "type inference failed"

mutual
/-- Modelled from the spec: bottom-up type inference in a type environment `tenv` that
holds the signatures of the built-ins (and the parameters of an enclosing lambda). A name
without a type fails with `no type for built-in <name>`; any other failure is
`type inference failed`. The call of an action, which has no return type, has no type as
an expression; it is checked as a statement by `typeCheckExec`. -/
def typeinfer (tenv : List (String × AType)) : Expr → Except String AType
  | .Variable x =>
    match tenv.lookup x with
    | some t => .ok t
    | none => .error ("no type for built-in " ++ x ++
        ". Please check if the mode in the reviewpad.yml file supports it.")
  | .StringConst _ => .ok .StringType
  | .IntConst _ => .ok .IntType
  | .BoolConst _ => .ok .BoolType
  | .Array elems =>
    match typeinferList tenv elems with
    | .error err => .error err
    | .ok ts =>
      match elemType ts with
      | .error err => .error err
      | .ok t => .ok (.ArrayOfType t)
  | .Dictionary entries =>
    match typeinferEntries tenv entries with
    | .error err => .error err
    | .ok ts =>
      match elemType ts with
      | .error err => .error err
      | .ok t => .ok (.DictionaryType .StringType t)
  | .FunctionCall name arguments =>
    match typeinfer tenv name with
    | .error err => .error err
    | .ok tf =>
      match typeinferList tenv arguments with
      | .error err => .error err
      | .ok targs =>
        match typeinferCall tf targs with
        | .error err => .error err
        | .ok (some t) => .ok t
        | .ok none => .error "type inference failed"
  | .Lambda parameters body =>
    match parameters.mapM paramBinding with
    | none => .error "type inference failed"
    | some bindings =>
      match typeinfer (bindings ++ tenv) body with
      | .error err => .error err
      | .ok t => .ok (.LambdaType (bindings.map Prod.snd) t)
  | .TypedExpr _ t => .ok t
  | .BinaryOp lhs op rhs =>
    match typeinfer tenv lhs with
    | .error err => .error err
    | .ok tl =>
      match typeinfer tenv rhs with
      | .error err => .error err
      | .ok tr => typeinferBinaryOp op tl tr
  | .UnaryOp e =>
    match typeinfer tenv e with
    | .error err => .error err
    | .ok t => if t.isBool then .ok .BoolType else .error "type inference failed"
termination_by structural e => e
/-- The types of a list of expressions, left to right. -/
def typeinferList (tenv : List (String × AType)) : List Expr → Except String (List AType)
  | [] => .ok []
  | e :: rest =>
    match typeinfer tenv e with
    | .error err => .error err
    | .ok t =>
      match typeinferList tenv rest with
      | .error err => .error err
      | .ok ts => .ok (t :: ts)
termination_by structural es => es
/-- The types of the values of dictionary entries, left to right. -/
def typeinferEntries (tenv : List (String × AType)) :
    List (String × Expr) → Except String (List AType)
  | [] => .ok []
  | (_, e) :: rest =>
    match typeinfer tenv e with
    | .error err => .error err
    | .ok t =>
      match typeinferEntries tenv rest with
      | .error err => .error err
      | .ok ts => .ok (t :: ts)
termination_by structural es => es
end

/-- The value of an order comparison; the operands are integers or strings. -/
def evalOrder (op : BinaryOperator) (l r : Value) : Except String Value :=
  match l, r with
  | .IntValue a, .IntValue b =>
    match op with
    | .Lt => .ok (.BoolValue (decide (a < b)))
    | .Le => .ok (.BoolValue (decide (a ≤ b)))
    | .Gt => .ok (.BoolValue (decide (b < a)))
    | _ => .ok (.BoolValue (decide (b ≤ a)))
  | .StringValue a, .StringValue b =>
    match op with
    | .Lt => .ok (.BoolValue (decide (a < b)))
    | .Le => .ok (.BoolValue (!decide (b < a)))
    | .Gt => .ok (.BoolValue (decide (b < a)))
    | _ => .ok (.BoolValue (!decide (a < b)))
  | _, _ => .error "type mismatch"

mutual
/-- Modelled from the spec: strict, left-to-right evaluation. The last argument counts the
invocations of host code made so far in the run, and the result carries the count
afterwards. A variable is looked up in the register map; a call evaluates its arguments in
order and then invokes the host code of the built-in, whose error is returned as it is;
`&&` and `||` evaluate their right operand only if necessary; `==` is structural equality.
Lambdas and typed expressions have no value in this model. -/
def eval (fs : List (String × BuiltInFunction)) (host : Host) (env : Env) :
    Expr → Nat → Except String Value × Nat
  | .Variable x, k =>
    match env.RegisterMap.lookup x with
    | some v => (.ok v, k)
    | none => (.error ("lookup: " ++ x ++ " not found"), k)
  | .StringConst s, k => (.ok (.StringValue s), k)
  | .IntConst n, k => (.ok (.IntValue n), k)
  | .BoolConst b, k => (.ok (.BoolValue b), k)
  | .Array elems, k =>
    let res := evalList fs host env elems k
    match res.1 with
    | .error err => (.error err, res.2)
    | .ok vs => (.ok (.ArrayValue vs), res.2)
  | .Dictionary entries, k =>
    let res := evalEntries fs host env entries k
    match res.1 with
    | .error err => (.error err, res.2)
    | .ok vs => (.ok (.DictionaryValue vs), res.2)
  | .FunctionCall name arguments, k =>
    let res := evalList fs host env arguments k
    match res.1 with
    | .error err => (.error err, res.2)
    | .ok args =>
      match name with
      | .Variable x =>
        match fs.lookup x with
        | some f => (f.Code (env.atCall host res.2) args, res.2 + 1)
        | none => (.error ("built-in " ++ x ++ " not found"), res.2)
      | _ => (.error "type mismatch", res.2)
  | .Lambda _ _, k => (.error "eval: lambda outside the value model", k)
  | .TypedExpr _ _, k => (.error "eval: typed expression outside the value model", k)
  | .BinaryOp lhs op rhs, k =>
    let resl := eval fs host env lhs k
    match resl.1 with
    | .error err => (.error err, resl.2)
    | .ok l =>
      match op with
      | .And =>
        match l with
        | .BoolValue false => (.ok (.BoolValue false), resl.2)
        | .BoolValue true =>
          let resr := eval fs host env rhs resl.2
          match resr.1 with
          | .error err => (.error err, resr.2)
          | .ok (.BoolValue r) => (.ok (.BoolValue r), resr.2)
          | .ok _ => (.error "type mismatch", resr.2)
        | _ => (.error "type mismatch", resl.2)
      | .Or =>
        match l with
        | .BoolValue true => (.ok (.BoolValue true), resl.2)
        | .BoolValue false =>
          let resr := eval fs host env rhs resl.2
          match resr.1 with
          | .error err => (.error err, resr.2)
          | .ok (.BoolValue r) => (.ok (.BoolValue r), resr.2)
          | .ok _ => (.error "type mismatch", resr.2)
        | _ => (.error "type mismatch", resl.2)
      | .Eq =>
        let resr := eval fs host env rhs resl.2
        match resr.1 with
        | .error err => (.error err, resr.2)
        | .ok r => (.ok (.BoolValue (l.equals r)), resr.2)
      | .Neq =>
        let resr := eval fs host env rhs resl.2
        match resr.1 with
        | .error err => (.error err, resr.2)
        | .ok r => (.ok (.BoolValue (!l.equals r)), resr.2)
      | op =>
        let resr := eval fs host env rhs resl.2
        match resr.1 with
        | .error err => (.error err, resr.2)
        | .ok r => (evalOrder op l r, resr.2)
  | .UnaryOp e, k =>
    let res := eval fs host env e k
    match res.1 with
    | .error err => (.error err, res.2)
    | .ok (.BoolValue b) => (.ok (.BoolValue (!b)), res.2)
    | .ok _ => (.error "type mismatch", res.2)
termination_by structural e => e
/-- The values of a list of expressions, left to right. -/
def evalList (fs : List (String × BuiltInFunction)) (host : Host) (env : Env) :
    List Expr → Nat → Except String (List Value) × Nat
  | [], k => (.ok [], k)
  | e :: rest, k =>
    let res := eval fs host env e k
    match res.1 with
    | .error err => (.error err, res.2)
    | .ok v =>
      let ress := evalList fs host env rest res.2
      match ress.1 with
      | .error err => (.error err, ress.2)
      | .ok vs => (.ok (v :: vs), ress.2)
termination_by structural es => es
/-- The values of dictionary entries, left to right. -/
def evalEntries (fs : List (String × BuiltInFunction)) (host : Host) (env : Env) :
    List (String × Expr) → Nat → Except String (List (String × Value)) × Nat
  | [], k => (.ok [], k)
  | (key, e) :: rest, k =>
    let res := eval fs host env e k
    match res.1 with
    | .error err => (.error err, res.2)
    | .ok v =>
      let ress := evalEntries fs host env rest res.2
      match ress.1 with
      | .error err => (.error err, ress.2)
      | .ok vs => (.ok ((key, v) :: vs), ress.2)
termination_by structural es => es
end

/-- Modelled from the spec: `EvalExpr(kind, src)`: parse, type-check (the type must be
`Bool`, otherwise `expression <src> is not a condition`), evaluate, unwrap the boolean;
the interpreter facade is not part of the sources at hand. -/
def EvalExpr (g : Grammar) (b : BuiltIns) (host : Host) (env : Env) (_kind : String)
    (expr : String) (k : Nat) : Except String Bool × Nat :=
  match Parse g expr with
  | .error err => (.error err, k)
  | .ok exprAST =>
    match typeinfer (typeEnv b) exprAST with
    | .error err => (.error err, k)
    | .ok t =>
      if t.isBool then
        let res := eval b.Functions host env exprAST k
        match res.1 with
        | .error err => (.error err, res.2)
        | .ok (.BoolValue v) => (.ok v, res.2)
        | .ok _ => (.error "type mismatch", res.2)
      else (.error ("expression " ++ expr ++ " is not a condition"), k)

mutual
/-- The expression invokes no host code: it contains no call. -/
def Expr.callFree : Expr → Bool
  | .Variable _ => true
  | .StringConst _ => true
  | .IntConst _ => true
  | .BoolConst _ => true
  | .Array elems => Expr.callFreeList elems
  | .Dictionary entries => Expr.callFreeEntries entries
  | .FunctionCall _ _ => false
  | .Lambda parameters body => Expr.callFreeList parameters && body.callFree
  | .TypedExpr e _ => e.callFree
  | .BinaryOp lhs _ rhs => lhs.callFree && rhs.callFree
  | .UnaryOp e => e.callFree
termination_by structural e => e
/-- No expression of the list contains a call. -/
def Expr.callFreeList : List Expr → Bool
  | [] => true
  | e :: rest => e.callFree && Expr.callFreeList rest
termination_by structural es => es
/-- No value of the dictionary entries contains a call. -/
def Expr.callFreeEntries : List (String × Expr) → Bool
  | [] => true
  | (_, e) :: rest => e.callFree && Expr.callFreeEntries rest
termination_by structural es => es
end

/-- What a statement was triggered by: its workflow and the rules that fired
(`engine.Metadata`). -/
structure Metadata where
  Workflow : PadWorkflow
  TriggeredBy : List PadWorkflowRule

/-- A statement of a program: the source of an action and its metadata
(`engine.Statement`). The Go field `Metadata` is a pointer; a statement without metadata
is outside this model. -/
structure Statement where
  Code : String
  Metadata : Metadata

/-- A program: its statements in order (`engine.Program`). -/
structure Program where
  Statements : List Statement

/-- Map assignment `m[k] = v` on a Go map held as an association list. -/
def mapPut {α : Type} (m : List (String × α)) (k : String) (v : α) : List (String × α) :=
  if (m.lookup k).isSome then m.map (fun e => if e.1 = k then (k, v) else e) else m ++ [(k, v)]

/-- Modelled from the spec: the report update after a successful statement: "ensure
`WorkflowDetails[metadata.workflow.name]` exists with `Name`, insert every
`metadata.triggered-by[*].rule` into its `Rules` set (value `true`), and append `code` to
`Actions`". -/
def addToReport (report : Report) (statement : Statement) : Report :=
  let workflowName := statement.Metadata.Workflow.Name
  let details : ReportWorkflowDetails :=
    match report.WorkflowDetails.lookup workflowName with
    | some d => d
    | none => { Name := workflowName, Rules := [], Actions := [] }
  let rules := statement.Metadata.TriggeredBy.foldl (fun m r => mapPut m r.Rule true)
    details.Rules
  let updated : ReportWorkflowDetails :=
    { Name := workflowName, Rules := rules, Actions := details.Actions ++ [statement.Code] }
  { WorkflowDetails := mapPut report.WorkflowDetails workflowName updated }

/-- The type check of a statement: a call whose callee has a function type that accepts
the arguments; an action has no return type. -/
def typeCheckExec (tenv : List (String × AType)) : Expr → Except String Unit
  | .FunctionCall name arguments =>
    match typeinfer tenv name with
    | .error err => .error err
    | .ok tf =>
      match typeinferList tenv arguments with
      | .error err => .error err
      | .ok targs =>
        match typeinferCall tf targs with
        | .error err => .error err
        | .ok _ => .ok ()
  | _ => .error "type inference failed"

/-- The execution of a statement: its arguments are evaluated in order, then the host code
of the built-in action is invoked; its error is returned as it is. -/
def execAction (b : BuiltIns) (host : Host) (env : Env) : Expr → Nat → Except String Unit × Nat
  | .FunctionCall (.Variable x) arguments, k =>
    let res := evalList b.Functions host env arguments k
    match res.1 with
    | .error err => (.error err, res.2)
    | .ok args =>
      match b.Actions.lookup x with
      | some a => (a.Code (env.atCall host res.2) args, res.2 + 1)
      | none => (.error ("built-in " ++ x ++ " not found"), res.2)
  | _, k => (.error "type mismatch", k)

/-- Modelled from the spec: one statement of `ExecProgram`: "parse+type-check+evaluate; on
success, update the Report"; the interpreter facade is not part of the sources at hand. -/
def ExecStatement (g : Grammar) (b : BuiltIns) (host : Host) (env : Env)
    (statement : Statement) (k : Nat) : Except String Env × Nat :=
  match Parse g statement.Code with
  | .error err => (.error err, k)
  | .ok statAST =>
    match typeCheckExec (typeEnv b) statAST with
    | .error err => (.error err, k)
    | .ok _ =>
      let res := execAction b host env statAST k
      match res.1 with
      | .error err => (.error err, res.2)
      | .ok _ => (.ok { env with Report := addToReport env.Report statement }, res.2)

/-- The loop of `ExecProgram` over the remaining statements: the environment afterwards
and the failures, in order. -/
def execStatements (g : Grammar) (b : BuiltIns) (host : Host) (ignoreErrors : Bool) :
    Env → List Statement → Nat → Env × List String
  | env, [], _ => (env, [])
  | env, statement :: rest, k =>
    let res := ExecStatement g b host env statement k
    match res.1 with
    | .ok env1 => execStatements g b host ignoreErrors env1 rest res.2
    | .error err =>
      if ignoreErrors then
        let more := execStatements g b host ignoreErrors env rest res.2
        (more.1, err :: more.2)
      else (env, [err])

/-- Modelled from the spec: `ExecProgram(program)`: "a failed statement aborts the program
unless `ignore-errors` is set at the document level, in which case the failure is recorded
and execution continues". The result is the environment afterwards and the failures; the
program succeeded when there is none. -/
def ExecProgram (g : Grammar) (b : BuiltIns) (host : Host) (ignoreErrors : Bool) (env : Env)
    (program : Program) (k : Nat) : Env × List String :=
  execStatements g b host ignoreErrors env program.Statements k

/-- The group type `filter` (`engine.GroupTypeFilter`). -/
def GroupTypeFilter : String := "filter"

/-- The group type `static` (`engine.GroupTypeStatic`). -/
def GroupTypeStatic : String := "static"

/-- Modelled from the spec: `buildGroupAST` is not part of the sources at hand. "A filter
group is desugared at AST-build time into `filter(<spec>, lambda(param:string) → <where>)`":
a call of `filter` on the parsed spec and a one-parameter lambda over the parsed `where`; a
parse failure of `where`, and after it of the spec, is returned as it is; any other group
is the parse of its spec. `TestBuildGroupAST_WhenGroupTypeFilterIsSet` expects the call
`organization()` in the place of the parsed spec; the definition follows the words of the
spec. -/
def buildGroupAST (g : Grammar) (typeOf : String) (expr paramExpr whereExpr : String) :
    Except String Expr :=
  if typeOf = GroupTypeFilter then
    match Parse g whereExpr with
    | .error err => .error err
    | .ok whereExprAST =>
      match Parse g expr with
      | .error err => .error err
      | .ok exprAST =>
        .ok (BuildFunctionCall (BuildVariable "filter")
          [exprAST,
           BuildLambda [BuildTypedExpr (BuildVariable paramExpr) BuildStringType] whereExprAST])
  else Parse g expr

/-- The host code of the built-in `description` (`plugins/aladino/functions`). -/
def descriptionCode (e : Env) (_args : List Value) : Except String Value :=
  match e.Target.GetDescription with
  | .error err => .error err
  | .ok description => .ok (BuildStringValue description)

/-- The built-in `description`. -/
def Description : BuiltInFunction :=
  { Typ := BuildFunctionType [] (some BuildStringType)
    Code := descriptionCode
    SupportedKinds := [TargetEntityKind.PullRequest, TargetEntityKind.Issue] }

/-- The parses of the sources used by the tests of the interpreter and by the scenarios of
the spec; every other source is taken not to parse. -/
def demoGrammar : Grammar := fun src =>
  if src = "1 == 1" then some (.BinaryOp (.IntConst 1) .Eq (.IntConst 1))
  else if src = "1 == \"a\"" then some (.BinaryOp (.IntConst 1) .Eq (.StringConst "a"))
  else if src = "1" then some (.IntConst 1)
  else if src = "true" then some (.BoolConst true)
  else if src = "[\"jane\"]" then some (.Array [.StringConst "jane"])
  else if src = "$group(\"senior-developers\")" then
    some (.FunctionCall (.Variable "group") [.StringConst "senior-developers"])
  else if src = "$group(\"seniors\")" then
    some (.FunctionCall (.Variable "group") [.StringConst "seniors"])
  else if src = "$hasFileExtensions([\".ts\"])" then
    some (.FunctionCall (.Variable "hasFileExtensions") [.Array [.StringConst ".ts"]])
  else if src = "$action()" then some (.FunctionCall (.Variable "action") [])
  else if src = "$addLabel(\"test\")" then
    some (.FunctionCall (.Variable "addLabel") [.StringConst "test"])
  else if src = "$description()" then some (.FunctionCall (.Variable "description") [])
  else if src = "$description() == $description()" then
    some (.BinaryOp (.FunctionCall (.Variable "description") []) .Eq
      (.FunctionCall (.Variable "description") []))
  else none

/-- An environment with an empty register map and an empty report whose target answers
`GetDescription` with `description`. -/
def demoEnv (description : Except String String) : Env :=
  { Target := { GetDescription := description, PullRequest := none }
    RegisterMap := []
    Report := { WorkflowDetails := [] } }

/-- A host that answers the successive calls of `GetDescription` with the entries of
`descriptions`, and with the error of a cancelled run once they are used up. -/
def demoHost (descriptions : List (Except String String)) : Host := fun k =>
  { GetDescription := descriptions.getD k (.error "context canceled"), PullRequest := none }

/-- A host whose target answers every call alike. -/
def constHost (target : Target) : Host := fun _ => target

/-- The built-ins of the tests: the function `description` and the action `addLabel`, whose
host code succeeds. -/
def demoBuiltIns : BuiltIns :=
  { Functions := [("description", Description)]
    Actions := [("addLabel",
      { Typ := BuildFunctionType [BuildStringType] none
        Code := fun _ _ => .ok ()
        SupportedKinds := [] })] }

/-- The statement of `TestExecProgram`. -/
def demoStatement : Statement :=
  { Code := "$addLabel(\"test\")"
    Metadata :=
      { Workflow := { Name := "test", On := [], Description := "", AlwaysRun := false,
                      Rules := [], Actions := [], NonNormalizedRules := [] }
        TriggeredBy := [{ Rule := "testRule", ExtraActions := [] }] } }

end Aladino

namespace Aladino

/-- The accessor `GetLogin` of the forge client: the login, or the empty string when there
is none. -/
def User.GetLogin (u : User) : String := u.Login.getD ""

/-- The accessor `GetSlug` of the forge client: the slug, or the empty string when there
is none. -/
def Team.GetSlug (t : Team) : String := t.Slug.getD ""

/-- Slice assignment `s[i] = v` on a slice whose slots are `nil` until written; `none` is
the index-out-of-range panic. -/
def sliceSet (s : List (Option Value)) (i : Nat) (v : Value) : Option (List (Option Value)) :=
  if i < s.length then some (s.set i (some v)) else none

/-- The assignments `s[index i] = f x` of a loop `for i, x := range xs`, in order, `i`
being the position of `x`; the second argument is the position of the head of the list. -/
def rangeWrites {α : Type} (f : α → Value) (index : Nat → Nat) :
    List α → Nat → List (Nat × Value)
  | [], _ => []
  | x :: rest, i => (index i, f x) :: rangeWrites f index rest (i + 1)

/-- The assignments made by the two loops of `reviewersCode`, in order: the slot `i` gets
the login of the `i`-th user, the slot `i + len(usersReviewers)` the slug of the `i`-th
team. -/
def reviewersWrites (pullRequest : PullRequest) : List (Nat × Value) :=
  rangeWrites (fun userReviewer => BuildStringValue userReviewer.GetLogin) (fun i => i)
      pullRequest.RequestedReviewers 0 ++
    rangeWrites (fun teamReviewer => BuildStringValue teamReviewer.GetSlug)
      (fun i => i + pullRequest.RequestedReviewers.length) pullRequest.RequestedTeams 0

/-- A sequence of slice assignments carried out in order. -/
def applyWrites : List (Nat × Value) → List (Option Value) → Option (List (Option Value))
  | [], s => some s
  | (i, v) :: rest, s =>
    match sliceSet s i v with
    | none => none
    | some s1 => applyWrites rest s1

/-- The values of a slice all of whose slots have been written. -/
def writtenValues : List (Option Value) → Option (List Value)
  | [] => some []
  | none :: _ => none
  | some v :: rest =>
    match writtenValues rest with
    | none => none
    | some vs => some (v :: vs)

/-- The host code of the built-in `reviewers` (`plugins/aladino/functions`). The Go
function panics when the target is not a pull request (type assertion) or when a slice
index is out of range, and would hand a `nil` value to `BuildArrayValue` for a slot left
unwritten; the three are errors here. -/
def reviewersCode (e : Env) (_args : List Value) : Except String Value :=
  match e.Target.PullRequest with
  | none => .error "panic: interface conversion: target is not *target.PullRequestTarget"
  | some pullRequest =>
    let usersReviewers := pullRequest.RequestedReviewers
    let teamReviewers := pullRequest.RequestedTeams
    let totalReviewers := usersReviewers.length + teamReviewers.length
    let reviewersLogin : List (Option Value) := List.replicate totalReviewers none
    match applyWrites (reviewersWrites pullRequest) reviewersLogin with
    | none => .error "panic: runtime error: index out of range"
    | some written =>
      match writtenValues written with
      | none => .error "nil value in the array"
      | some vals => .ok (BuildArrayValue vals)

/-- The built-in `reviewers`. -/
def Reviewers : BuiltInFunction :=
  { Typ := BuildFunctionType [] (some (BuildArrayOfType BuildStringType))
    Code := reviewersCode
    SupportedKinds := [TargetEntityKind.PullRequest] }

/-- A pull-request target with two requested reviewers, one of them without login, and one
requested team. -/
def demoPullRequestEnv : Env :=
  { Target :=
      { GetDescription := .ok ""
        PullRequest := some
          { RequestedReviewers := [{ Login := some "jane" }, { Login := none }]
            RequestedTeams := [{ Slug := some "security" }] } }
    RegisterMap := []
    Report := { WorkflowDetails := [] } }

end Aladino

/-! ## Theorems -/

theorem processImports_succ (w : World) (n : Nat) (file : ReviewpadFile) (env : LoadEnv) :
    processImports w (n + 1) file env =
      (importsLoop w (processImports w n) file.Imports file env).map resetImports := by
  rw [processImports]
  cases h : importsLoop w (processImports w n) file.Imports file env with
  | none => rfl
  | some r =>
    cases r with
    | error e => rfl
    | ok p => cases p; rfl

theorem mergeSub_resetImports (file sub : ReviewpadFile) :
    mergeSub file { sub with Imports := [] } = mergeSub file sub := rfl

/-- Every result of `processImports` is described by a run of the loop. -/
theorem processImports_run (w : World) :
    ∀ (n : Nat) (file : ReviewpadFile) (env : LoadEnv) (r : Except String (ReviewpadFile × LoadEnv)),
      processImports w n file env = some r →
      ∃ r0, LoopRun w file.Imports file env r0 ∧ r = resetImports r0 := by
  intro n
  induction n with
  | zero => intro file env r h; simp [processImports] at h
  | succ n ih =>
    have loop : ∀ (imports : List PadImport) (file : ReviewpadFile) (env : LoadEnv)
        (r : Except String (ReviewpadFile × LoadEnv)),
        importsLoop w (processImports w n) imports file env = some r →
        LoopRun w imports file env r := by
      intro imports
      induction imports with
      | nil =>
        intro file env r h
        simp only [importsLoop, Option.some.injEq] at h
        subst h
        exact LoopRun.done file env
      | cons imp rest ihl =>
        intro file env r h
        rw [importsLoop] at h
        cases hl : loadImport w imp with
        | error e =>
          simp only [hl, Option.some.injEq] at h
          subst h
          exact LoopRun.loadFail hl
        | ok p =>
          obtain ⟨iFile, idHash⟩ := p
          simp only [hl] at h
          by_cases hs : idHash ∈ env.Stack
          · simp only [hs, if_true, Option.some.injEq] at h
            subst h
            exact LoopRun.cyclic hl hs
          · simp only [hs, if_false] at h
            by_cases hv : idHash ∈ env.Visited
            · simp only [hv, if_true] at h
              exact LoopRun.skip hl hs hv (ihl _ _ _ h)
            · simp only [hv, if_false] at h
              cases hr : processImports w n iFile ⟨setKey env.Visited idHash, setKey env.Stack idHash⟩ with
              | none => simp [hr] at h
              | some rs =>
                obtain ⟨r0, hrun, hr0⟩ := ih _ _ _ hr
                cases rs with
                | error e =>
                  simp only [hr, Option.some.injEq] at h
                  subst h
                  cases r0 with
                  | error e0 =>
                    simp only [resetImports, Except.error.injEq] at hr0
                    subst hr0
                    exact LoopRun.subFail hl hs hv hrun
                  | ok p0 => cases p0; simp [resetImports] at hr0
                | ok ps =>
                  obtain ⟨sub, env2⟩ := ps
                  simp only [hr] at h
                  cases r0 with
                  | error e0 => simp [resetImports] at hr0
                  | ok p0 =>
                    obtain ⟨sub0, env0⟩ := p0
                    simp only [resetImports, Except.ok.injEq, Prod.mk.injEq] at hr0
                    obtain ⟨hsub, henv⟩ := hr0
                    subst hsub henv
                    have := ihl _ _ _ h
                    exact LoopRun.descend hl hs hv hrun this
    intro file env r h
    rw [processImports_succ] at h
    cases hl : importsLoop w (processImports w n) file.Imports file env with
    | none => simp [hl] at h
    | some r0 =>
      simp only [hl, Option.map_some', Option.some.injEq] at h
      exact ⟨r0, loop _ _ _ _ hl, h.symm⟩

theorem mem_setKey {m : List String} {k x : String} : x ∈ setKey m k ↔ x = k ∨ x ∈ m := by
  unfold setKey
  by_cases h : k ∈ m
  · simp only [h, if_true]
    constructor
    · exact Or.inr
    · rintro (rfl | hx)
      · exact h
      · exact hx
  · simp [h]

theorem setKey_of_not_mem {m : List String} {k : String} (h : k ∉ m) : setKey m k = k :: m := by
  simp [setKey, h]

theorem mem_deleteKey {m : List String} {k x : String} : x ∈ deleteKey m k ↔ x ∈ m ∧ x ≠ k := by
  simp [deleteKey]

theorem deleteKey_setKey {m : List String} {k : String} (h : k ∉ m) :
    deleteKey (setKey m k) k = m := by
  rw [setKey_of_not_mem h]
  unfold deleteKey
  rw [List.filter_cons_of_neg (by simp)]
  rw [List.filter_eq_self]
  intro a ha
  have : a ≠ k := fun e => h (e ▸ ha)
  simpa using this

/-- A successful run restores the stack and only adds to the visited set. -/
theorem LoopRun.env_ok {w : World} {imports file env r} (h : LoopRun w imports file env r) :
    ∀ file1 env1, r = .ok (file1, env1) →
      env1.Stack = env.Stack ∧ ∀ x, x ∈ env.Visited → x ∈ env1.Visited := by
  induction h with
  | done file env =>
    intro file1 env1 h
    simp only [Except.ok.injEq, Prod.mk.injEq] at h
    obtain ⟨-, rfl⟩ := h
    exact ⟨rfl, fun x hx => hx⟩
  | loadFail _ => intro _ _ h; cases h
  | cyclic _ _ => intro _ _ h; cases h
  | skip _ _ _ _ ih => exact ih
  | subFail _ _ _ _ _ => intro _ _ h; cases h
  | descend hl hs hv _ _ ih1 ih2 =>
    intro file1 env1 h
    obtain ⟨hs1, hv1⟩ := ih1 _ _ rfl
    obtain ⟨hs2, hv2⟩ := ih2 _ _ h
    refine ⟨?_, ?_⟩
    · rw [hs2]
      simp only [popEnv]
      rw [hs1]
      simp only [pushEnv]
      exact deleteKey_setKey hs
    · intro x hx
      apply hv2
      simp only [popEnv]
      apply hv1
      simp only [pushEnv]
      exact mem_setKey.2 (Or.inr hx)

theorem loadImport_ok {w : World} {imp : PadImport} {iFile : ReviewpadFile} {h : String}
    (hl : loadImport w imp = .ok (iFile, h)) :
    ∃ c, w.httpGet imp.Url = .ok c ∧ parse w c = .ok iFile ∧ h = hash w c := by
  unfold loadImport at hl
  cases hg : w.httpGet imp.Url with
  | error e => simp [hg] at hl
  | ok c =>
    simp only [hg] at hl
    cases hp : parse w c with
    | error e => simp [hp] at hl
    | ok f =>
      simp only [hp, Except.ok.injEq, Prod.mk.injEq] at hl
      exact ⟨c, rfl, by rw [← hl.1, hp], hl.2.symm⟩

theorem LoopRun.topo {w : World} {imports file env r} (h : LoopRun w imports file env r) :
    ∀ file1 env1, r = .ok (file1, env1) → ∀ root D, DoneInv w root env D →
      (∀ imp ∈ imports, ∀ c, w.httpGet imp.Url = .ok c → Reach w root c) →
      ∃ P, DoneInv w root env1 (P ++ D) ∧
        ∀ imp ∈ imports, ∃ c, w.httpGet imp.Url = .ok c ∧ hash w c ∈ (P ++ D).map (hash w) := by
  induction h with
  | done file env =>
    intro file1 env1 h root D hD _
    simp only [Except.ok.injEq, Prod.mk.injEq] at h
    obtain ⟨-, rfl⟩ := h
    exact ⟨[], hD, fun imp hi => by cases hi⟩
  | loadFail _ => intro _ _ h; cases h
  | cyclic _ _ => intro _ _ h; cases h
  | subFail _ _ _ _ _ => intro _ _ h; cases h
  | @skip imp rest file env iFile hh r hl hs hv _ ih =>
    intro file1 env1 h root D hD himp
    obtain ⟨c, hg, hp, rfl⟩ := loadImport_ok hl
    obtain ⟨P, hP, hrest⟩ := ih _ _ h root D hD
      (fun i hi => himp i (List.mem_cons_of_mem _ hi))
    refine ⟨P, hP, ?_⟩
    intro i hi
    rcases List.mem_cons.1 hi with rfl | hi
    · refine ⟨c, hg, ?_⟩
      rcases hD.2.1 _ hv with h1 | h1
      · exact absurd h1 hs
      · simp only [List.map_append, List.mem_append]
        exact Or.inr h1
    · exact hrest i hi
  | @descend imp rest file env iFile hh sub env2 r hl hs hv hsub _ ih1 ih2 =>
    intro file1 env1 h root D hD himp
    obtain ⟨c, hg, hp, rfl⟩ := loadImport_ok hl
    have hc : Reach w root c := himp imp (List.mem_cons_self _ _) c hg
    obtain ⟨hstk, hvis⟩ := hsub.env_ok _ _ rfl
    -- the invariant on descent
    have hD1 : DoneInv w root (pushEnv env (hash w c)) D := by
      refine ⟨hD.1, ?_, ?_⟩
      · intro x hx
        rcases mem_setKey.1 hx with rfl | hx
        · exact Or.inl (mem_setKey.2 (Or.inl rfl))
        · rcases hD.2.1 x hx with h1 | h1
          · exact Or.inl (mem_setKey.2 (Or.inr h1))
          · exact Or.inr h1
      · intro d hd
        obtain ⟨h1, h2, h3⟩ := hD.2.2 d hd
        refine ⟨mem_setKey.2 (Or.inr h1), ?_, h3⟩
        intro hmem
        rcases mem_setKey.1 hmem with e | hmem
        · exact hv (e ▸ h1)
        · exact h2 hmem
    have himp1 : ∀ i ∈ iFile.Imports, ∀ c', w.httpGet i.Url = .ok c' → Reach w root c' :=
      fun i hi c' hc' => Relation.ReflTransGen.tail hc ⟨iFile, hp, i, hi, hc'⟩
    obtain ⟨P1, hP1, hlead⟩ := ih1 _ _ rfl root D hD1 himp1
    have hpop : (popEnv env2 (hash w c)).Stack = env.Stack := by
      simp only [popEnv]
      rw [hstk]
      exact deleteKey_setKey hs
    -- the invariant on return, the fetched document now being finished
    have hD2 : DoneInv w root (popEnv env2 (hash w c)) (c :: (P1 ++ D)) := by
      refine ⟨⟨⟨iFile, hp, hlead⟩, hP1.1⟩, ?_, ?_⟩
      · intro x hx
        rw [hpop]
        rcases hP1.2.1 x hx with h1 | h1
        · rw [hstk] at h1
          rcases mem_setKey.1 h1 with rfl | h1
          · exact Or.inr (List.mem_map_of_mem _ (List.mem_cons_self _ _))
          · exact Or.inl h1
        · exact Or.inr (by
            rw [List.map_cons]
            exact List.mem_cons_of_mem _ h1)
      · intro d hd
        rw [hpop]
        rcases List.mem_cons.1 hd with rfl | hd
        · exact ⟨hvis _ (mem_setKey.2 (Or.inl rfl)), hs, hc⟩
        · obtain ⟨h1, h2, h3⟩ := hP1.2.2 d hd
          rw [hstk] at h2
          exact ⟨h1, fun hm => h2 (mem_setKey.2 (Or.inr hm)), h3⟩
    obtain ⟨P2, hP2, hrest⟩ := ih2 _ _ h root (c :: (P1 ++ D)) hD2
      (fun i hi => himp i (List.mem_cons_of_mem _ hi))
    refine ⟨P2 ++ c :: P1, ?_, ?_⟩
    · have e : (P2 ++ c :: P1) ++ D = P2 ++ c :: (P1 ++ D) := by simp
      rw [e]
      exact hP2
    · have e : (P2 ++ c :: P1) ++ D = P2 ++ c :: (P1 ++ D) := by simp
      rw [e]
      intro i hi
      rcases List.mem_cons.1 hi with rfl | hi
      · refine ⟨c, hg, ?_⟩
        simp
      · exact hrest i hi

theorem TopoClosed.closed {w : World} {root : Bytes} (hf : HashFaithful w root) :
    ∀ D, TopoClosed w D → (∀ d ∈ D, Reach w root d) → ∀ c c', Reach w root c →
      hash w c ∈ D.map (hash w) → Edge w c c' → hash w c' ∈ D.map (hash w) := by
  intro D
  induction D with
  | nil => intro _ _ c c' _ hc; simp at hc
  | cons d D ih =>
    intro hD hreach c c' hc hmem hedge
    by_cases hin : hash w c ∈ D.map (hash w)
    · have := ih hD.2 (fun x hx => hreach x (List.mem_cons_of_mem _ hx)) c c' hc hin hedge
      rw [List.map_cons]
      exact List.mem_cons_of_mem _ this
    · have hcd : hash w c = hash w d := by
        rw [List.map_cons] at hmem
        rcases List.mem_cons.1 hmem with e | e
        · exact e
        · exact absurd e hin
      have e : c = d := hf c d hc (hreach d (List.mem_cons_self _ _)) hcd
      subst e
      obtain ⟨file, hp, imp, himp, hg⟩ := hedge
      obtain ⟨file0, hp0, hlead⟩ := hD.1
      have ef : file0 = file := by
        rw [hp] at hp0
        exact (Except.ok.inj hp0).symm
      subst ef
      obtain ⟨c1, hg1, hc1⟩ := hlead imp himp
      have ec : c1 = c' := by
        rw [hg] at hg1
        exact (Except.ok.inj hg1).symm
      subst ec
      rw [List.map_cons]
      exact List.mem_cons_of_mem _ hc1

theorem TopoClosed.closed_star {w : World} {root : Bytes} (hf : HashFaithful w root)
    (D : List Bytes) (hD : TopoClosed w D) (hreach : ∀ d ∈ D, Reach w root d) (c c' : Bytes)
    (hc : Reach w root c) (hmem : hash w c ∈ D.map (hash w))
    (hpath : Relation.ReflTransGen (Edge w) c c') : hash w c' ∈ D.map (hash w) := by
  induction hpath with
  | refl => exact hmem
  | tail hcb hbc ih =>
    exact TopoClosed.closed hf D hD hreach _ _ (Relation.ReflTransGen.trans hc hcb) ih hbc

theorem TopoClosed.acyclic {w : World} {root : Bytes} (hf : HashFaithful w root) :
    ∀ D, TopoClosed w D → (∀ d ∈ D, Reach w root d) → ∀ c c', Reach w root c →
      hash w c ∈ D.map (hash w) → Relation.TransGen (Edge w) c c' → hash w c' ≠ hash w c := by
  intro D
  induction D with
  | nil => intro _ _ c c' _ hc; simp at hc
  | cons d D ih =>
    intro hD hreach c c' hc hmem hpath
    have hreach1 : ∀ x ∈ D, Reach w root x := fun x hx => hreach x (List.mem_cons_of_mem _ hx)
    by_cases hin : hash w c ∈ D.map (hash w)
    · exact ih hD.2 hreach1 c c' hc hin hpath
    · have hcd : hash w c = hash w d := by
        rw [List.map_cons] at hmem
        rcases List.mem_cons.1 hmem with e | e
        · exact e
        · exact absurd e hin
      have e : c = d := hf c d hc (hreach d (List.mem_cons_self _ _)) hcd
      subst e
      obtain ⟨b, hedge, hstar⟩ := Relation.TransGen.head'_iff.1 hpath
      obtain ⟨file, hp, imp, himp, hg⟩ := hedge
      obtain ⟨file0, hp0, hlead⟩ := hD.1
      have ef : file0 = file := by
        rw [hp] at hp0
        exact (Except.ok.inj hp0).symm
      subst ef
      obtain ⟨c1, hg1, hc1⟩ := hlead imp himp
      have ec : c1 = b := by
        rw [hg] at hg1
        exact (Except.ok.inj hg1).symm
      subst ec
      have hb : Reach w root c1 := Relation.ReflTransGen.tail hc ⟨file0, hp, imp, himp, hg⟩
      have := TopoClosed.closed_star hf D hD.2 hreach1 c1 c' hb hc1 hstar
      intro e
      exact hin (e ▸ this)

/-- A successful import resolution started as in `Load` proves the graph acyclic. -/
theorem LoopRun.acyclic_of_ok {w : World} {data : Bytes} {file0 file1 : ReviewpadFile}
    {env1 : LoadEnv} (hf : HashFaithful w data) (hp : parse w data = .ok file0)
    (h : LoopRun w file0.Imports file0 ⟨[hash w data], [hash w data]⟩ (.ok (file1, env1))) :
    ¬ HasCycle w data := by
  have hD0 : DoneInv w data ⟨[hash w data], [hash w data]⟩ [] :=
    ⟨trivial, fun x hx => Or.inl hx, fun d hd => by cases hd⟩
  have himp : ∀ imp ∈ file0.Imports, ∀ c, w.httpGet imp.Url = .ok c → Reach w data c :=
    fun imp hi c hc => Relation.ReflTransGen.single ⟨file0, hp, imp, hi, hc⟩
  obtain ⟨P, hP, hlead⟩ := h.topo _ _ rfl data [] hD0 himp
  obtain ⟨hstk, -⟩ := h.env_ok _ _ rfl
  rw [List.append_nil] at hP hlead
  have hreach : ∀ d ∈ P, Reach w data d := fun d hd => (hP.2.2 d hd).2.2
  -- every document reached in at least one step is a finished one
  have hplus : ∀ c, Relation.TransGen (Edge w) data c → hash w c ∈ P.map (hash w) := by
    intro c hc
    obtain ⟨b, hedge, hstar⟩ := Relation.TransGen.head'_iff.1 hc
    obtain ⟨file, hpf, imp, himp1, hg⟩ := hedge
    have ef : file = file0 := by
      rw [hpf] at hp
      exact Except.ok.inj hp
    subst ef
    obtain ⟨c1, hg1, hc1⟩ := hlead imp himp1
    have ec : c1 = b := by
      rw [hg] at hg1
      exact (Except.ok.inj hg1).symm
    subst ec
    exact TopoClosed.closed_star hf P hP.1 hreach c1 c (himp imp himp1 c1 hg) hc1 hstar
  have hroot : hash w data ∉ P.map (hash w) := by
    intro hmem
    obtain ⟨d, hd, hde⟩ := List.mem_map.1 hmem
    have := (hP.2.2 d hd).2.1
    rw [hstk, hde] at this
    exact this (List.mem_singleton.2 rfl)
  rintro ⟨c, c', hc, hpath, heq⟩
  rcases Relation.reflTransGen_iff_eq_or_transGen.1 hc with e | hc1
  · subst e
    exact hroot (heq ▸ hplus c' hpath)
  · exact TopoClosed.acyclic hf P hP.1 hreach c c' hc (hplus c hc1) hpath heq

/-- When every load succeeds, a failing run has met a hash that is on the stack, and the
stack holds the hashes of the documents being descended into. -/
theorem LoopRun.error_cycle {w : World} {imports file env r} (h : LoopRun w imports file env r) :
    ∀ err, r = .error err → ∀ root cur f, AllLoadsSucceed w root → Reach w root cur →
      parse w cur = .ok f → (∀ imp ∈ imports, imp ∈ f.Imports) →
      (∀ x ∈ env.Stack, ∃ a, Reach w root a ∧ hash w a = x ∧
        Relation.ReflTransGen (Edge w) a cur) →
      err = "loader: cyclic dependency" ∧ HasCycle w root := by
  induction h with
  | done file env => intro _ h; cases h
  | @loadFail imp rest file env err hl =>
    intro err1 _ root cur f hall hcur hpf hsub _
    exfalso
    obtain ⟨f1, hpf1, hfetch⟩ := hall cur hcur
    have ef : f1 = f := by
      rw [hpf] at hpf1
      exact (Except.ok.inj hpf1).symm
    subst ef
    obtain ⟨c, hg⟩ := hfetch imp (hsub imp (List.mem_cons_self _ _))
    have hc : Reach w root c :=
      Relation.ReflTransGen.tail hcur ⟨f1, hpf, imp, hsub imp (List.mem_cons_self _ _), hg⟩
    obtain ⟨fc, hpc, -⟩ := hall c hc
    simp [loadImport, hg, hpc] at hl
  | @cyclic imp rest file env iFile hh hl hs =>
    intro err1 he root cur f hall hcur hpf hsub hstack
    obtain ⟨c, hg, hp, rfl⟩ := loadImport_ok hl
    obtain ⟨a, ha, hae, hpath⟩ := hstack _ hs
    refine ⟨(Except.error.inj he).symm, a, c, ha, ?_, hae.symm⟩
    exact Relation.TransGen.tail' hpath ⟨f, hpf, imp, hsub imp (List.mem_cons_self _ _), hg⟩
  | skip _ _ _ _ ih =>
    intro err1 he root cur f hall hcur hpf hsub hstack
    exact ih err1 he root cur f hall hcur hpf
      (fun i hi => hsub i (List.mem_cons_of_mem _ hi)) hstack
  | @subFail imp rest file env iFile hh err hl hs hv _ ih =>
    intro err1 he root cur f hall hcur hpf hsub hstack
    obtain ⟨c, hg, hp, rfl⟩ := loadImport_ok hl
    have hedge : Edge w cur c := ⟨f, hpf, imp, hsub imp (List.mem_cons_self _ _), hg⟩
    refine ih err1 he root c iFile hall (Relation.ReflTransGen.tail hcur hedge) hp
      (fun i hi => hi) ?_
    intro x hx
    rcases mem_setKey.1 hx with rfl | hx
    · exact ⟨c, Relation.ReflTransGen.tail hcur hedge, rfl, Relation.ReflTransGen.refl⟩
    · obtain ⟨a, ha, hae, hpath⟩ := hstack x hx
      exact ⟨a, ha, hae, Relation.ReflTransGen.tail hpath hedge⟩
  | @descend imp rest file env iFile hh sub env2 r hl hs hv hsubrun _ _ ih2 =>
    intro err1 he root cur f hall hcur hpf hsub hstack
    obtain ⟨hstk, -⟩ := hsubrun.env_ok _ _ rfl
    refine ih2 err1 he root cur f hall hcur hpf
      (fun i hi => hsub i (List.mem_cons_of_mem _ hi)) ?_
    intro x hx
    apply hstack
    simp only [popEnv] at hx
    rw [hstk] at hx
    simp only [pushEnv] at hx
    rwa [deleteKey_setKey hs] at hx

/-- A successful run appends the content of the newly visited documents `L`, each once,
in the order of first visit. -/
theorem LoopRun.merged {w : World} {imports file env r} (h : LoopRun w imports file env r) :
    ∀ file1 env1, r = .ok (file1, env1) → ∀ root,
      (∀ imp ∈ imports, ∀ c, w.httpGet imp.Url = .ok c → Reach w root c) →
      ∃ L : List Bytes,
        file1.Rules = file.Rules ++ L.flatMap (docRules w) ∧
        file1.Groups = file.Groups ++ L.flatMap (docGroups w) ∧
        file1.Workflows = file.Workflows ++ L.flatMap (docWorkflows w) ∧
        (∀ x, x ∈ env1.Visited ↔ x ∈ env.Visited ∨ x ∈ L.map (hash w)) ∧
        (L.map (hash w)).Nodup ∧
        (∀ c ∈ L, hash w c ∉ env.Visited ∧ Reach w root c) := by
  induction h with
  | done file env =>
    intro file1 env1 h root _
    simp only [Except.ok.injEq, Prod.mk.injEq] at h
    obtain ⟨rfl, rfl⟩ := h
    exact ⟨[], by simp, by simp, by simp, by simp, by simp, by simp⟩
  | loadFail _ => intro _ _ h; cases h
  | cyclic _ _ => intro _ _ h; cases h
  | subFail _ _ _ _ _ => intro _ _ h; cases h
  | skip _ _ _ _ ih =>
    intro file1 env1 h root himp
    exact ih _ _ h root (fun i hi => himp i (List.mem_cons_of_mem _ hi))
  | @descend imp rest file env iFile hh sub env2 r hl hs hv hsubrun _ ih1 ih2 =>
    intro file1 env1 h root himp
    obtain ⟨c, hg, hp, rfl⟩ := loadImport_ok hl
    have hc : Reach w root c := himp imp (List.mem_cons_self _ _) c hg
    have himp1 : ∀ i ∈ iFile.Imports, ∀ c', w.httpGet i.Url = .ok c' → Reach w root c' :=
      fun i hi c' hc' => Relation.ReflTransGen.tail hc ⟨iFile, hp, i, hi, hc'⟩
    obtain ⟨L1, hr1, hg1, hw1, hv1, hn1, hm1⟩ := ih1 _ _ rfl root himp1
    obtain ⟨L2, hr2, hg2, hw2, hv2, hn2, hm2⟩ := ih2 _ _ h root
      (fun i hi => himp i (List.mem_cons_of_mem _ hi))
    have hpv : ∀ x, x ∈ (popEnv env2 (hash w c)).Visited ↔
        x ∈ env.Visited ∨ x = hash w c ∨ x ∈ L1.map (hash w) := by
      intro x
      simp only [popEnv]
      rw [hv1 x]
      simp only [pushEnv]
      rw [mem_setKey]
      tauto
    refine ⟨c :: (L1 ++ L2), ?_, ?_, ?_, ?_, ?_, ?_⟩
    · rw [hr2]
      simp only [mergeSub, ReviewpadFile.appendWorkflows, ReviewpadFile.appendRules,
        ReviewpadFile.appendGroups, ReviewpadFile.appendLabels]
      rw [hr1]
      simp [docRules, hp, List.flatMap_append]
    · rw [hg2]
      simp only [mergeSub, ReviewpadFile.appendWorkflows, ReviewpadFile.appendRules,
        ReviewpadFile.appendGroups, ReviewpadFile.appendLabels]
      rw [hg1]
      simp [docGroups, hp, List.flatMap_append]
    · rw [hw2]
      simp only [mergeSub, ReviewpadFile.appendWorkflows, ReviewpadFile.appendRules,
        ReviewpadFile.appendGroups, ReviewpadFile.appendLabels]
      rw [hw1]
      simp [docWorkflows, hp, List.flatMap_append]
    · intro x
      rw [hv2 x, hpv x]
      simp only [List.map_cons, List.map_append, List.mem_cons, List.mem_append]
      tauto
    · rw [List.map_cons, List.nodup_cons, List.map_append, List.nodup_append]
      refine ⟨?_, hn1, hn2, ?_⟩
      · intro hmem
        rcases List.mem_append.1 hmem with hmem | hmem
        · obtain ⟨d, hd, hde⟩ := List.mem_map.1 hmem
          apply (hm1 d hd).1
          rw [hde]
          simp only [pushEnv]
          exact mem_setKey.2 (Or.inl rfl)
        · obtain ⟨d, hd, hde⟩ := List.mem_map.1 hmem
          apply (hm2 d hd).1
          rw [hde]
          exact (hpv _).2 (Or.inr (Or.inl rfl))
      · intro x hx1 hx2
        obtain ⟨d, hd, hde⟩ := List.mem_map.1 hx2
        apply (hm2 d hd).1
        rw [hde]
        exact (hpv _).2 (Or.inr (Or.inr hx1))
    · intro d hd
      rcases List.mem_cons.1 hd with rfl | hd
      · exact ⟨hv, hc⟩
      · rcases List.mem_append.1 hd with hd | hd
        · refine ⟨fun hm => (hm1 d hd).1 ?_, (hm1 d hd).2⟩
          simp only [pushEnv]
          exact mem_setKey.2 (Or.inr hm)
        · exact ⟨fun hm => (hm2 d hd).1 ((hpv _).2 (Or.inl hm)), (hm2 d hd).2⟩

theorem unvisited_mono {U : List String} {env env1 : LoadEnv}
    (h : ∀ x, x ∈ env.Visited → x ∈ env1.Visited) : unvisited U env1 ≤ unvisited U env := by
  unfold unvisited
  induction U with
  | nil => simp
  | cons u U ih =>
    simp only [List.filter_cons]
    by_cases h1 : u ∈ env1.Visited
    · by_cases h0 : u ∈ env.Visited
      · simpa [h0, h1] using ih
      · simp only [h0, h1, not_true_eq_false, not_false_eq_true, decide_True, decide_False,
          if_true, List.length_cons]
        simp only [Bool.false_eq_true, ↓reduceIte]
        omega
    · have h0 : u ∉ env.Visited := fun h0 => h1 (h u h0)
      simpa [h0, h1] using ih

theorem unvisited_push {U : List String} {env : LoadEnv} {k : String} (hk : k ∈ U)
    (hv : k ∉ env.Visited) : unvisited U (pushEnv env k) < unvisited U env := by
  unfold unvisited
  induction U with
  | nil => cases hk
  | cons u U ih =>
    simp only [List.filter_cons]
    by_cases e : u = k
    · subst e
      have h1 : u ∈ (pushEnv env u).Visited := mem_setKey.2 (Or.inl rfl)
      have hle := @unvisited_mono U env (pushEnv env u)
        (fun x hx => mem_setKey.2 (Or.inr hx))
      unfold unvisited at hle
      simp only [h1, hv, not_true_eq_false, not_false_eq_true, decide_True, decide_False,
        if_true, List.length_cons]
      simp only [Bool.false_eq_true, ↓reduceIte]
      omega
    · have hk1 : k ∈ U := by
        rcases List.mem_cons.1 hk with e1 | e1
        · exact absurd e1.symm e
        · exact e1
      have := ih hk1
      by_cases h0 : u ∈ env.Visited
      · have h1 : u ∈ (pushEnv env k).Visited := mem_setKey.2 (Or.inr h0)
        simpa [h0, h1] using this
      · have h1 : u ∉ (pushEnv env k).Visited := by
          intro hm
          rcases mem_setKey.1 hm with e1 | e1
          · exact e e1
          · exact h0 e1
        simpa [h0, h1] using this

/-- With more fuel than unvisited hashes, import resolution returns. -/
theorem processImports_returns (w : World) (root : Bytes) (U : List String)
    (hU : ∀ c, Reach w root c → hash w c ∈ U) :
    ∀ (n : Nat) (file : ReviewpadFile) (env : LoadEnv),
      (∀ imp ∈ file.Imports, ∀ c, w.httpGet imp.Url = .ok c → Reach w root c) →
      unvisited U env < n → ∃ r, processImports w n file env = some r := by
  intro n
  induction n with
  | zero => intro _ _ _ h; omega
  | succ n ih =>
    have loop : ∀ (imports : List PadImport) (file : ReviewpadFile) (env : LoadEnv),
        (∀ imp ∈ imports, ∀ c, w.httpGet imp.Url = .ok c → Reach w root c) →
        unvisited U env ≤ n →
        ∃ r, importsLoop w (processImports w n) imports file env = some r := by
      intro imports
      induction imports with
      | nil => intro file env _ _; exact ⟨_, rfl⟩
      | cons imp rest ihl =>
        intro file env himp hm
        rw [importsLoop]
        cases hl : loadImport w imp with
        | error e => exact ⟨_, rfl⟩
        | ok p =>
          obtain ⟨iFile, idHash⟩ := p
          obtain ⟨c, hg, hp, rfl⟩ := loadImport_ok hl
          have hc : Reach w root c := himp imp (List.mem_cons_self _ _) c hg
          have hrest : ∀ i ∈ rest, ∀ c, w.httpGet i.Url = .ok c → Reach w root c :=
            fun i hi => himp i (List.mem_cons_of_mem _ hi)
          simp only []
          by_cases hs : hash w c ∈ env.Stack
          · simp only [hs, if_true]
            exact ⟨_, rfl⟩
          · simp only [hs, if_false]
            by_cases hv : hash w c ∈ env.Visited
            · simp only [hv, if_true]
              exact ihl file env hrest hm
            · simp only [hv, if_false]
              have hlt : unvisited U (pushEnv env (hash w c)) < n :=
                lt_of_lt_of_le (unvisited_push (hU c hc) hv) hm
              obtain ⟨rs, hrs⟩ := ih iFile (pushEnv env (hash w c))
                (fun i hi c' hc' => Relation.ReflTransGen.tail hc ⟨iFile, hp, i, hi, hc'⟩) hlt
              simp only [pushEnv] at hrs
              cases rs with
              | error e =>
                simp only [hrs]
                exact ⟨_, rfl⟩
              | ok ps =>
                obtain ⟨sub, env2⟩ := ps
                simp only [hrs]
                obtain ⟨r0, hrun, hr0⟩ := processImports_run w _ _ _ _ hrs
                cases r0 with
                | error e0 => simp [resetImports] at hr0
                | ok p0 =>
                  obtain ⟨sub0, env0⟩ := p0
                  simp only [resetImports, Except.ok.injEq, Prod.mk.injEq] at hr0
                  obtain ⟨-, henv⟩ := hr0
                  subst henv
                  obtain ⟨-, hvis⟩ := hrun.env_ok _ _ rfl
                  apply ihl
                  · exact hrest
                  · refine le_trans (unvisited_mono ?_) hm
                    intro x hx
                    exact hvis x (mem_setKey.2 (Or.inr hx))
    intro file env himp hm
    rw [processImports_succ]
    obtain ⟨r, hr⟩ := loop file.Imports file env himp (by omega)
    exact ⟨_, by rw [hr]; rfl⟩

theorem unvisited_init {U : List String} {k : String} (hk : k ∈ U) :
    unvisited U ⟨[k], [k]⟩ < U.length := by
  have h := @unvisited_push U ⟨[], []⟩ k hk (by simp)
  have e : unvisited U ⟨[], []⟩ = U.length := by simp [unvisited]
  rw [e] at h
  exact h

theorem processImports_ok_run {w : World} {n : Nat} {file : ReviewpadFile} {env : LoadEnv}
    {out : ReviewpadFile} {env1 : LoadEnv}
    (h : processImports w n file env = some (.ok (out, env1))) :
    ∃ out0, LoopRun w file.Imports file env (.ok (out0, env1)) ∧
      out = { out0 with Imports := [] } := by
  obtain ⟨r0, hrun, hr0⟩ := processImports_run w _ _ _ _ h
  cases r0 with
  | error e0 => simp [resetImports] at hr0
  | ok p0 =>
    obtain ⟨out0, env0⟩ := p0
    simp only [resetImports, Except.ok.injEq, Prod.mk.injEq] at hr0
    obtain ⟨h1, h2⟩ := hr0
    subst h2
    exact ⟨out0, hrun, h1⟩

theorem processImports_error_run {w : World} {n : Nat} {file : ReviewpadFile} {env : LoadEnv}
    {err : String} (h : processImports w n file env = some (.error err)) :
    LoopRun w file.Imports file env (.error err) := by
  obtain ⟨r0, hrun, hr0⟩ := processImports_run w _ _ _ _ h
  cases r0 with
  | error e0 =>
    simp only [resetImports, Except.error.injEq] at hr0
    subst hr0
    exact hrun
  | ok p0 => cases p0; simp [resetImports] at hr0

theorem root_imports_reach {w : World} {data : Bytes} {file0 : ReviewpadFile}
    (hp : parse w data = .ok file0) :
    ∀ imp ∈ file0.Imports, ∀ c, w.httpGet imp.Url = .ok c → Reach w data c :=
  fun imp hi _ hc => Relation.ReflTransGen.single ⟨file0, hp, imp, hi, hc⟩

theorem processImports_error_cycle {w : World} {data : Bytes} {file0 : ReviewpadFile}
    (hp : parse w data = .ok file0) (hall : AllLoadsSucceed w data) {n : Nat} {err : String}
    (h : processImports w n file0 ⟨[hash w data], [hash w data]⟩ = some (.error err)) :
    err = "loader: cyclic dependency" ∧ HasCycle w data := by
  refine (processImports_error_run h).error_cycle err rfl data data file0 hall
    Relation.ReflTransGen.refl hp (fun _ hi => hi) ?_
  intro x hx
  rw [List.mem_singleton.1 hx]
  exact ⟨data, Relation.ReflTransGen.refl, rfl, Relation.ReflTransGen.refl⟩

theorem Load_of_none {w : World} {n : Nat} {data : Bytes} {file0 : ReviewpadFile}
    (hp : parse w data = .ok file0)
    (h : processImports w n file0 ⟨[hash w data], [hash w data]⟩ = none) :
    Load w n data = none := by
  simp only [Load, hp, setKey, List.not_mem_nil, if_false, h]

theorem Load_of_error {w : World} {n : Nat} {data : Bytes} {file0 : ReviewpadFile} {err : String}
    (hp : parse w data = .ok file0)
    (h : processImports w n file0 ⟨[hash w data], [hash w data]⟩ = some (.error err)) :
    Load w n data = some (.error err) := by
  simp only [Load, hp, setKey, List.not_mem_nil, if_false, h]

theorem Load_of_ok {w : World} {n : Nat} {data : Bytes} {file0 file1 file2 : ReviewpadFile}
    {env1 : LoadEnv} (hp : parse w data = .ok file0)
    (h : processImports w n file0 ⟨[hash w data], [hash w data]⟩ = some (.ok (file1, env1)))
    (hn : processInlineRules w.mapstructureDecode file1 = .ok file2) :
    Load w n data = some (.ok (transform w.transformAladinoExpression file2)) := by
  simp only [Load, hp, setKey, List.not_mem_nil, if_false, h, hn]

/-- A successful `Load` decomposes into its three successful stages. -/
theorem Load_ok_inv {w : World} {n : Nat} {data : Bytes} {res : ReviewpadFile}
    (h : Load w n data = some (.ok res)) :
    ∃ file0 file1 env1 file2, parse w data = .ok file0 ∧
      processImports w n file0 ⟨[hash w data], [hash w data]⟩ = some (.ok (file1, env1)) ∧
      processInlineRules w.mapstructureDecode file1 = .ok file2 ∧
      res = transform w.transformAladinoExpression file2 := by
  cases hp : parse w data with
  | error e => simp [Load, hp] at h
  | ok file0 =>
    cases hi : processImports w n file0 ⟨[hash w data], [hash w data]⟩ with
    | none => rw [Load_of_none hp hi] at h; cases h
    | some r =>
      cases r with
      | error e => rw [Load_of_error hp hi] at h; cases h
      | ok p =>
        obtain ⟨file1, env1⟩ := p
        cases hn : processInlineRules w.mapstructureDecode file1 with
        | error e => simp [Load, hp, setKey, hi, hn] at h
        | ok file2 =>
          rw [Load_of_ok hp hi hn] at h
          simp only [Option.some.injEq, Except.ok.injEq] at h
          exact ⟨file0, file1, env1, file2, rfl, hi, hn, h.symm⟩

/-- The rendering of a digest has 64 characters. -/
theorem sprintfHex_length (d : Digest) : (sprintfHex d).length = 64 := by
  obtain ⟨l, hl⟩ := d
  have h : ∀ l : List (Fin 256), (l.flatMap hexByte).length = 2 * l.length := by
    intro l
    induction l with
    | nil => rfl
    | cons b l ih =>
      rw [List.flatMap_cons, List.length_append, ih]
      simp only [hexByte, List.length_cons, List.length_nil]
      omega
  show (List.flatMap l hexByte).length = 64
  rw [h, hl]

/-- The content hash takes its values in a list of `256 ^ 32` strings: the renderings of
the digests. -/
theorem hash_finite (w : World) :
    ∃ U : List String, U.length = 256 ^ 32 ∧ ∀ c, hash w c ∈ U := by
  refine ⟨(Finset.univ : Finset Digest).toList.map sprintfHex, ?_, ?_⟩
  · rw [List.length_map, Finset.length_toList, Finset.card_univ, card_vector, Fintype.card_fin]
  · intro c
    have h : w.sha256Sum256 c ∈ (Finset.univ : Finset Digest).toList := by simp
    exact List.mem_map_of_mem _ h

/-- With a cycle in the import graph, `Load` returns the cyclic-dependency error once the
fuel covers the hashes of the reachable documents. -/
theorem Load_cyclic_of_bound {w : World} {data : Bytes} {U : List String}
    (hall : AllLoadsSucceed w data) (hfaith : HashFaithful w data)
    (hfin : ∀ c, Reach w data c → hash w c ∈ U) (hcyc : HasCycle w data) :
    ∀ n, U.length ≤ n → Load w n data = some (.error "loader: cyclic dependency") := by
  intro n hn
  obtain ⟨file0, hp, -⟩ := hall data Relation.ReflTransGen.refl
  obtain ⟨r, hr⟩ := processImports_returns w data U hfin n file0 ⟨[hash w data], [hash w data]⟩
    (root_imports_reach hp)
    (lt_of_lt_of_le (unvisited_init (hfin data Relation.ReflTransGen.refl)) hn)
  cases r with
  | error e =>
    obtain ⟨he, -⟩ := processImports_error_cycle hp hall hr
    subst he
    exact Load_of_error hp hr
  | ok p =>
    obtain ⟨file1, env1⟩ := p
    obtain ⟨out0, hrun, -⟩ := processImports_ok_run hr
    exact absurd hcyc (hrun.acyclic_of_ok hfaith hp)

/-- On an acyclic import graph, `processImports` started as in `Load` succeeds once the
fuel covers the hashes of the reachable documents. -/
theorem processImports_ok_of_bound {w : World} {data : Bytes} {U : List String}
    {file0 : ReviewpadFile} (hp : parse w data = .ok file0) (hall : AllLoadsSucceed w data)
    (hfin : ∀ c, Reach w data c → hash w c ∈ U) (hac : ¬ HasCycle w data) :
    ∀ n, U.length ≤ n → ∃ out env1,
      processImports w n file0 ⟨[hash w data], [hash w data]⟩ = some (.ok (out, env1)) := by
  intro n hn
  obtain ⟨r, hr⟩ := processImports_returns w data U hfin n file0 ⟨[hash w data], [hash w data]⟩
    (root_imports_reach hp)
    (lt_of_lt_of_le (unvisited_init (hfin data Relation.ReflTransGen.refl)) hn)
  cases r with
  | error e => exact absurd (processImports_error_cycle hp hall hr).2 hac
  | ok p => exact ⟨p.1, p.2, hr⟩

/-- C1: when all loads succeed and the hash identifies the reachable documents, a cycle
in the import graph reachable from the root makes `Load` fail with the cyclic-dependency
error: `Load` returns that error for every fuel of at least `256 ^ 32`, the number of
digests, and already for every fuel of at least the length of any list `U` that holds the
hashes of the reachable documents; whatever the fuel, it returns no document. -/
theorem cycle_detection_complete (w : World) (data : Bytes)
    (hall : AllLoadsSucceed w data) (hfaith : HashFaithful w data) (hcyc : HasCycle w data) :
    (∀ n, 256 ^ 32 ≤ n → Load w n data = some (.error "loader: cyclic dependency")) ∧
    (∀ U : List String, (∀ c, Reach w data c → hash w c ∈ U) →
      ∀ n, U.length ≤ n → Load w n data = some (.error "loader: cyclic dependency")) ∧
    (∀ n res, Load w n data ≠ some (.ok res)) := by
  refine ⟨?_, fun U hfin => Load_cyclic_of_bound hall hfaith hfin hcyc, ?_⟩
  · obtain ⟨U, hlen, hU⟩ := hash_finite w
    intro n hn
    exact Load_cyclic_of_bound hall hfaith (fun c _ => hU c) hcyc n (hlen ▸ hn)
  · intro n res hload
    obtain ⟨file0, file1, env1, file2, hp, hi, -, -⟩ := Load_ok_inv hload
    obtain ⟨out0, hrun, -⟩ := processImports_ok_run hi
    exact hrun.acyclic_of_ok hfaith hp hcyc

/-- C3: when `Load` succeeds, the result is the normalised and transformed form of the
document `merged` left by import resolution, and there is a list `L` of imported documents,
all reachable from the root, such that the hashes of the root and of `L` are pairwise
distinct and the rules, groups and workflows of `merged` are the concatenation of those of
the root and of the documents of `L`, each taken once, however many imports lead to it.
When the hash identifies the reachable documents, every reachable document is among
them. -/
theorem dedup_by_content_hash (w : World) (data : Bytes) (n : Nat) (res : ReviewpadFile)
    (hload : Load w n data = some (.ok res)) :
    ∃ (L : List Bytes) (file0 merged normalized : ReviewpadFile) (env1 : LoadEnv),
      parse w data = .ok file0 ∧
      processImports w n file0 ⟨[hash w data], [hash w data]⟩ = some (.ok (merged, env1)) ∧
      processInlineRules w.mapstructureDecode merged = .ok normalized ∧
      res = transform w.transformAladinoExpression normalized ∧
      ((data :: L).map (hash w)).Nodup ∧
      (∀ c ∈ data :: L, Reach w data c) ∧
      (HashFaithful w data → ∀ c, Reach w data c → c ∈ data :: L) ∧
      merged.Rules = (data :: L).flatMap (docRules w) ∧
      merged.Groups = (data :: L).flatMap (docGroups w) ∧
      merged.Workflows = (data :: L).flatMap (docWorkflows w) := by
  obtain ⟨file0, file1, env1, file2, hp, hi, hn, hres⟩ := Load_ok_inv hload
  obtain ⟨out0, hrun, hout⟩ := processImports_ok_run hi
  obtain ⟨L, hr, hg, hw, hv, hnd, hm⟩ := hrun.merged _ _ rfl data (root_imports_reach hp)
  have hD0 : DoneInv w data ⟨[hash w data], [hash w data]⟩ [] :=
    ⟨trivial, fun x hx => Or.inl hx, fun d hd => by cases hd⟩
  obtain ⟨P, hP, hlead⟩ := hrun.topo _ _ rfl data [] hD0 (root_imports_reach hp)
  rw [List.append_nil] at hP hlead
  have hreachP : ∀ d ∈ P, Reach w data d := fun d hd => (hP.2.2 d hd).2.2
  have hreachL : ∀ c ∈ data :: L, Reach w data c := by
    intro c hc
    rcases List.mem_cons.1 hc with e | hc
    · rw [e]
      exact Relation.ReflTransGen.refl
    · exact (hm c hc).2
  -- every reachable document has a visited hash
  have hcover : HashFaithful w data → ∀ c, Reach w data c →
      hash w c ∈ (data :: L).map (hash w) := by
    intro hfaith c hc
    rcases Relation.reflTransGen_iff_eq_or_transGen.1 hc with e | hc1
    · subst e
      simp
    · obtain ⟨b, hedge, hstar⟩ := Relation.TransGen.head'_iff.1 hc1
      obtain ⟨file, hpf, imp, himp1, hgt⟩ := hedge
      have ef : file = file0 := by
        rw [hpf] at hp
        exact Except.ok.inj hp
      subst ef
      obtain ⟨c1, hg1, hc1m⟩ := hlead imp himp1
      have ec : c1 = b := by
        rw [hgt] at hg1
        exact (Except.ok.inj hg1).symm
      subst ec
      have hmem := TopoClosed.closed_star hfaith P hP.1 hreachP c1 c
        (root_imports_reach hpf imp himp1 c1 hgt) hc1m hstar
      obtain ⟨d, hd, hde⟩ := List.mem_map.1 hmem
      have hdv := (hP.2.2 d hd).1
      rw [hde] at hdv
      rcases (hv _).1 hdv with h1 | h1
      · rw [List.map_cons]
        rw [List.mem_singleton.1 h1]
        exact List.mem_cons_self _ _
      · rw [List.map_cons]
        exact List.mem_cons_of_mem _ h1
  refine ⟨L, file0, file1, file2, env1, hp, hi, hn, hres, ?_, hreachL, ?_, ?_, ?_, ?_⟩
  · rw [List.map_cons, List.nodup_cons]
    refine ⟨?_, hnd⟩
    intro hmem
    obtain ⟨d, hd, hde⟩ := List.mem_map.1 hmem
    apply (hm d hd).1
    rw [hde]
    exact List.mem_singleton.2 rfl
  · intro hfaith c hc
    obtain ⟨d, hd, hde⟩ := List.mem_map.1 (hcover hfaith c hc)
    rw [← hfaith d c (hreachL d hd) hc hde]
    exact hd
  · rw [hout]
    simp only [List.flatMap_cons]
    rw [hr]
    simp [docRules, hp]
  · rw [hout]
    simp only [List.flatMap_cons]
    rw [hg]
    simp [docGroups, hp]
  · rw [hout]
    simp only [List.flatMap_cons]
    rw [hw]
    simp [docWorkflows, hp]

theorem edge_iff_mem_importTargets {w : World} {c c' : Bytes} :
    Edge w c c' ↔ c' ∈ importTargets w c := by
  unfold Edge importTargets
  cases hp : parse w c with
  | error e => simp
  | ok file =>
    simp only [Except.ok.injEq, exists_eq_left', List.mem_filterMap]
    constructor
    · rintro ⟨imp, hi, hg⟩
      exact ⟨imp, hi, by rw [hg]⟩
    · rintro ⟨imp, hi, hg⟩
      refine ⟨imp, hi, ?_⟩
      cases hg1 : w.httpGet imp.Url with
      | error e => simp [hg1] at hg
      | ok c1 =>
        simp only [hg1, Option.some.injEq] at hg
        rw [hg]

theorem reach_mem_of_closed {w : World} {root : Bytes} (S : List Bytes) (hroot : root ∈ S)
    (hclosed : ∀ c ∈ S, ∀ c' ∈ importTargets w c, c' ∈ S) :
    ∀ c, Reach w root c → c ∈ S := by
  intro c hc
  induction hc with
  | refl => exact hroot
  | tail _ hedge ih => exact hclosed _ ih _ (edge_iff_mem_importTargets.1 hedge)

theorem allLoadsSucceed_of_check {w : World} {root : Bytes} (S : List Bytes) (hroot : root ∈ S)
    (hclosed : ∀ c ∈ S, ∀ c' ∈ importTargets w c, c' ∈ S)
    (hok : ∀ c ∈ S, loadsOk w c = true) : AllLoadsSucceed w root := by
  intro c hc
  have h := hok c (reach_mem_of_closed S hroot hclosed c hc)
  unfold loadsOk at h
  cases hp : parse w c with
  | error e => simp [hp] at h
  | ok file =>
    refine ⟨file, rfl, ?_⟩
    intro imp hi
    simp only [hp, List.all_eq_true] at h
    have h1 := h imp hi
    cases hg : w.httpGet imp.Url with
    | error e => simp [hg] at h1
    | ok c1 => exact ⟨c1, rfl⟩

theorem hashFaithful_of_check {w : World} {root : Bytes} (S : List Bytes) (hroot : root ∈ S)
    (hclosed : ∀ c ∈ S, ∀ c' ∈ importTargets w c, c' ∈ S)
    (hinj : ∀ a ∈ S, ∀ b ∈ S, hash w a = hash w b → a = b) : HashFaithful w root :=
  fun a b ha hb he => hinj a (reach_mem_of_closed S hroot hclosed a ha) b
    (reach_mem_of_closed S hroot hclosed b hb) he

theorem finiteHashes_of_check {w : World} {root : Bytes} (S : List Bytes) (hroot : root ∈ S)
    (hclosed : ∀ c ∈ S, ∀ c' ∈ importTargets w c, c' ∈ S) :
    ∀ c, Reach w root c → hash w c ∈ S.map (hash w) :=
  fun c hc => List.mem_map_of_mem _ (reach_mem_of_closed S hroot hclosed c hc)

theorem diamond_closed : ∀ c ∈ diamondDocs, ∀ c' ∈ importTargets demoWorld c, c' ∈ diamondDocs := by
  decide

theorem cycle_closed : ∀ c ∈ cycleDocs, ∀ c' ∈ importTargets demoWorld c, c' ∈ cycleDocs := by
  decide

theorem demo_cycle : HasCycle demoWorld [5] :=
  ⟨[5], [5], Relation.ReflTransGen.refl,
    Relation.TransGen.tail
      (Relation.TransGen.single
        (show Edge demoWorld [5] [6] from edge_iff_mem_importTargets.2 (by decide)))
      (show Edge demoWorld [6] [5] from edge_iff_mem_importTargets.2 (by decide)), rfl⟩

/-- Witness of C1: the cycle X→Y→X makes `Load` fail. -/
theorem cycle_detection_complete_witness :
    HasCycle demoWorld [5] ∧
      (∀ n, 2 ≤ n → Load demoWorld n [5] = some (.error "loader: cyclic dependency")) ∧
      (∀ n, 256 ^ 32 ≤ n → Load demoWorld n [5] = some (.error "loader: cyclic dependency")) :=
  ⟨demo_cycle,
    (cycle_detection_complete demoWorld [5]
      (allLoadsSucceed_of_check cycleDocs (by decide) cycle_closed (by decide))
      (hashFaithful_of_check cycleDocs (by decide) cycle_closed (by decide))
      demo_cycle).2.1 (cycleDocs.map (hash demoWorld))
      (finiteHashes_of_check cycleDocs (by decide) cycle_closed),
    (cycle_detection_complete demoWorld [5]
      (allLoadsSucceed_of_check cycleDocs (by decide) cycle_closed (by decide))
      (hashFaithful_of_check cycleDocs (by decide) cycle_closed (by decide))
      demo_cycle).1⟩

theorem findRule_isSome {rules : List PadRule} {name : String} :
    (findRule rules name).isSome ↔ name ∈ rules.map PadRule.Name := by
  unfold findRule
  rw [List.find?_isSome]
  simp only [decide_eq_true_eq, List.mem_map]

theorem findRule_isNone {rules : List PadRule} {name : String} :
    (findRule rules name).isNone ↔ name ∉ rules.map PadRule.Name := by
  rw [← findRule_isSome]
  cases findRule rules name <;> simp

theorem materialized_nil (cur : List PadRule) : materialized cur [] = [] := rfl

theorem materialized_cons (cur : List PadRule) (e : PadWorkflowRule) (em : List PadWorkflowRule) :
    materialized cur (e :: em) =
      (if (findRule cur e.Rule).isSome then [] else [decodeRule e.Rule]) ++ materialized cur em := by
  unfold materialized
  cases h : findRule cur e.Rule <;> simp [List.filter_cons, h]

theorem inlineRulesLoop_ok (decode : List (String × RawValue) → Except String PadWorkflowRule)
    (cur : List PadRule) :
    ∀ (raw : List RawValue) (wfRules : List PadWorkflowRule) (rules : List PadRule)
      (wfRules1 : List PadWorkflowRule) (rules1 : List PadRule),
      inlineRulesLoop decode cur raw wfRules rules = .ok (wfRules1, rules1) →
      ∃ em, List.Forall₂ (Emits decode) raw em ∧ wfRules1 = wfRules ++ em ∧
        rules1 = rules ++ materialized cur em := by
  intro raw
  induction raw with
  | nil =>
    intro wfRules rules wfRules1 rules1 h
    simp only [inlineRulesLoop, Except.ok.injEq, Prod.mk.injEq] at h
    obtain ⟨rfl, rfl⟩ := h
    exact ⟨[], List.Forall₂.nil, by simp, by simp [materialized_nil]⟩
  | cons r rest ih =>
    intro wfRules rules wfRules1 rules1 h
    cases r with
    | str s =>
      rw [inlineRulesLoop] at h
      obtain ⟨em, hem, h1, h2⟩ := ih _ _ _ _ h
      refine ⟨{ Rule := s, ExtraActions := [] } :: em, List.Forall₂.cons (Emits.str s) hem, ?_, ?_⟩
      · rw [h1]
        simp [decodeRule]
      · rw [h2, materialized_cons]
        simp only [decodeRule]
        split <;> simp
    | map m =>
      rw [inlineRulesLoop] at h
      simp only [decodeWorkflowRule] at h
      cases hd : decode m with
      | error e => simp [hd] at h
      | ok e =>
        simp only [hd] at h
        obtain ⟨em, hem, h1, h2⟩ := ih _ _ _ _ h
        refine ⟨e :: em, List.Forall₂.cons (Emits.map m e hd) hem, ?_, ?_⟩
        · rw [h1]
          simp
        · rw [h2, materialized_cons]
          simp only [decodeRule]
          split <;> simp
    | seq xs => simp [inlineRulesLoop] at h
    | int n => simp [inlineRulesLoop] at h
    | bool b => simp [inlineRulesLoop] at h
    | null => simp [inlineRulesLoop] at h
    | other t => simp [inlineRulesLoop] at h

theorem processInlineRulesOnWorkflow_ok
    {decode : List (String × RawValue) → Except String PadWorkflowRule}
    {workflow : PadWorkflow} {cur : List PadRule} {wf : PadWorkflow} {rules : List PadRule}
    (h : processInlineRulesOnWorkflow decode workflow cur = .ok (wf, rules)) :
    ∃ em, List.Forall₂ (Emits decode) workflow.NonNormalizedRules em ∧
      rules = materialized cur em ∧
      wf = { Name := workflow.Name, Description := workflow.Description,
             AlwaysRun := workflow.AlwaysRun, Rules := workflow.Rules ++ em,
             Actions := workflow.Actions, On := workflow.On, NonNormalizedRules := [] } := by
  unfold processInlineRulesOnWorkflow at h
  cases hl : inlineRulesLoop decode cur workflow.NonNormalizedRules workflow.Rules [] with
  | error e => simp [hl] at h
  | ok p =>
    obtain ⟨wfRules, rules0⟩ := p
    simp only [hl, Except.ok.injEq, Prod.mk.injEq] at h
    obtain ⟨em, hem, h1, h2⟩ := inlineRulesLoop_ok decode cur _ _ _ _ _ hl
    refine ⟨em, hem, ?_, ?_⟩
    · rw [← h.2, h2]
      simp
    · rw [← h.1, h1]

theorem forall₂_emits_mem {decode : List (String × RawValue) → Except String PadWorkflowRule} :
    ∀ {raw : List RawValue} {em : List PadWorkflowRule}, List.Forall₂ (Emits decode) raw em →
      ∀ e ∈ em, ∃ r ∈ raw, Emits decode r e := by
  intro raw em h
  induction h with
  | nil => intro e he; cases he
  | cons hr _ ih =>
    intro e he
    rcases List.mem_cons.1 he with rfl | he
    · exact ⟨_, List.mem_cons_self _ _, hr⟩
    · obtain ⟨r, hr1, hr2⟩ := ih e he
      exact ⟨r, List.mem_cons_of_mem _ hr1, hr2⟩

theorem forall₂_emits_names {decode : List (String × RawValue) → Except String PadWorkflowRule} :
    ∀ {raw : List RawValue} {em : List PadWorkflowRule}, List.Forall₂ (Emits decode) raw em →
      rawRuleNames decode raw = em.map PadWorkflowRule.Rule := by
  intro raw em h
  induction h with
  | nil => rfl
  | cons hr _ ih =>
    cases hr with
    | str s => simp [rawRuleNames, ih]
    | map m e hd => simp [rawRuleNames, hd, ih]

theorem mem_materialized {cur : List PadRule} {em : List PadWorkflowRule} {m : PadRule} :
    m ∈ materialized cur em ↔
      ∃ e ∈ em, e.Rule ∉ cur.map PadRule.Name ∧ m = decodeRule e.Rule := by
  unfold materialized
  simp only [List.mem_map, List.mem_filter, findRule_isNone]
  constructor
  · rintro ⟨e, ⟨he, hn⟩, rfl⟩
    exact ⟨e, he, hn, rfl⟩
  · rintro ⟨e, he, hn, rfl⟩
    exact ⟨e, ⟨he, hn⟩, rfl⟩

theorem materialized_names_sublist (cur : List PadRule) (em : List PadWorkflowRule) :
    ((materialized cur em).map PadRule.Name).Sublist (em.map PadWorkflowRule.Rule) := by
  induction em with
  | nil => simp [materialized_nil]
  | cons e em ih =>
    rw [materialized_cons]
    split
    · simpa using ih.trans (List.sublist_cons_self _ _)
    · simpa [decodeRule] using ih

theorem processInlineRules_ok {decode : List (String × RawValue) → Except String PadWorkflowRule}
    {file out : ReviewpadFile} (h : processInlineRules decode file = .ok out) :
    ∃ workflows rules,
      inlineWorkflowsLoop decode file.Workflows [] file.Rules = .ok (workflows, rules) ∧
      out = { Version := file.Version, Edition := file.Edition, Mode := file.Mode,
              IgnoreErrors := file.IgnoreErrors, Imports := file.Imports,
              Groups := file.Groups, Rules := rules, Labels := file.Labels,
              Workflows := workflows, Pipelines := [] } := by
  unfold processInlineRules at h
  cases hl : inlineWorkflowsLoop decode file.Workflows [] file.Rules with
  | error e => simp [hl] at h
  | ok p =>
    obtain ⟨workflows, rules⟩ := p
    simp only [hl, Except.ok.injEq] at h
    exact ⟨workflows, rules, rfl, h.symm⟩

theorem inlineWorkflowsLoop_cons_ok
    {decode : List (String × RawValue) → Except String PadWorkflowRule}
    {workflow : PadWorkflow} {rest done : List PadWorkflow} {rules : List PadRule}
    {done1 : List PadWorkflow} {rules1 : List PadRule}
    (h : inlineWorkflowsLoop decode (workflow :: rest) done rules = .ok (done1, rules1)) :
    ∃ wf new, processInlineRulesOnWorkflow decode workflow rules = .ok (wf, new) ∧
      inlineWorkflowsLoop decode rest (done ++ [wf]) (rules ++ new) = .ok (done1, rules1) := by
  rw [inlineWorkflowsLoop] at h
  cases hw : processInlineRulesOnWorkflow decode workflow rules with
  | error e => simp [hw] at h
  | ok p =>
    obtain ⟨wf, new⟩ := p
    simp only [hw] at h
    exact ⟨wf, new, rfl, h⟩

/-- The rules after the loop are the rules before it followed by materialised rules, each
named by a raw entry and absent from the rules before the loop. -/
theorem inlineWorkflowsLoop_rules
    (decode : List (String × RawValue) → Except String PadWorkflowRule) :
    ∀ (wfs done : List PadWorkflow) (rules : List PadRule) (done1 : List PadWorkflow)
      (rules1 : List PadRule),
      inlineWorkflowsLoop decode wfs done rules = .ok (done1, rules1) →
      ∃ M, rules1 = rules ++ M ∧ ∀ m ∈ M, ∃ n, m = decodeRule n ∧
        n ∉ rules.map PadRule.Name ∧
        ∃ wf ∈ wfs, ∃ r ∈ wf.NonNormalizedRules, ∃ e, Emits decode r e ∧ e.Rule = n := by
  intro wfs
  induction wfs with
  | nil =>
    intro done rules done1 rules1 h
    simp only [inlineWorkflowsLoop, Except.ok.injEq, Prod.mk.injEq] at h
    exact ⟨[], by simp [h.2], fun m hm => by cases hm⟩
  | cons workflow rest ih =>
    intro done rules done1 rules1 h
    obtain ⟨wf, new, hw, hrest⟩ := inlineWorkflowsLoop_cons_ok h
    obtain ⟨em, hem, hnew, -⟩ := processInlineRulesOnWorkflow_ok hw
    obtain ⟨M, hM, hprop⟩ := ih _ _ _ _ hrest
    refine ⟨new ++ M, by rw [hM, List.append_assoc], ?_⟩
    intro m hm
    rcases List.mem_append.1 hm with hm | hm
    · rw [hnew] at hm
      obtain ⟨e, he, hn, rfl⟩ := mem_materialized.1 hm
      obtain ⟨r, hr, hre⟩ := forall₂_emits_mem hem e he
      exact ⟨e.Rule, rfl, hn, workflow, List.mem_cons_self _ _, r, hr, e, hre, rfl⟩
    · obtain ⟨n, hmn, hn, wf1, hwf1, r, hr, e, hre, hen⟩ := hprop m hm
      refine ⟨n, hmn, ?_, wf1, List.mem_cons_of_mem _ hwf1, r, hr, e, hre, hen⟩
      intro hmem
      apply hn
      rw [List.map_append]
      exact List.mem_append_left _ hmem

/-- Every workflow rule of the processed workflows names a rule of the final rule list,
provided the entries present before normalisation did. -/
theorem inlineWorkflowsLoop_refs
    (decode : List (String × RawValue) → Except String PadWorkflowRule) :
    ∀ (wfs done : List PadWorkflow) (rules : List PadRule) (done1 : List PadWorkflow)
      (rules1 : List PadRule),
      inlineWorkflowsLoop decode wfs done rules = .ok (done1, rules1) →
      (∀ wf ∈ done, ∀ e ∈ wf.Rules, e.Rule ∈ rules.map PadRule.Name) →
      (∀ wf ∈ wfs, ∀ e ∈ wf.Rules, e.Rule ∈ rules.map PadRule.Name) →
      ∀ wf ∈ done1, ∀ e ∈ wf.Rules, e.Rule ∈ rules1.map PadRule.Name := by
  intro wfs
  induction wfs with
  | nil =>
    intro done rules done1 rules1 h hdone _
    simp only [inlineWorkflowsLoop, Except.ok.injEq, Prod.mk.injEq] at h
    rw [← h.1, ← h.2]
    exact hdone
  | cons workflow rest ih =>
    intro done rules done1 rules1 h hdone hwfs
    obtain ⟨wf, new, hw, hrest⟩ := inlineWorkflowsLoop_cons_ok h
    obtain ⟨em, hem, hnew, hwf⟩ := processInlineRulesOnWorkflow_ok hw
    have hmono : ∀ x, x ∈ rules.map PadRule.Name → x ∈ (rules ++ new).map PadRule.Name := by
      intro x hx
      rw [List.map_append]
      exact List.mem_append_left _ hx
    apply ih _ _ _ _ hrest
    · intro wf1 hwf1 e he
      rcases List.mem_append.1 hwf1 with hwf1 | hwf1
      · exact hmono _ (hdone wf1 hwf1 e he)
      · rw [List.mem_singleton] at hwf1
        subst hwf1
        rw [hwf] at he
        simp only at he
        rcases List.mem_append.1 he with he | he
        · exact hmono _ (hwfs workflow (List.mem_cons_self _ _) e he)
        · by_cases hin : e.Rule ∈ rules.map PadRule.Name
          · exact hmono _ hin
          · rw [List.map_append]
            apply List.mem_append_right
            rw [hnew]
            exact List.mem_map.2 ⟨decodeRule e.Rule, mem_materialized.2 ⟨e, he, hin, rfl⟩, rfl⟩
    · intro wf1 hwf1 e he
      exact hmono _ (hwfs wf1 (List.mem_cons_of_mem _ hwf1) e he)

/-- Rule names stay pairwise distinct when no raw rule list names a rule twice. -/
theorem inlineWorkflowsLoop_nodup
    (decode : List (String × RawValue) → Except String PadWorkflowRule) :
    ∀ (wfs done : List PadWorkflow) (rules : List PadRule) (done1 : List PadWorkflow)
      (rules1 : List PadRule),
      inlineWorkflowsLoop decode wfs done rules = .ok (done1, rules1) →
      (rules.map PadRule.Name).Nodup →
      (∀ wf ∈ wfs, (rawRuleNames decode wf.NonNormalizedRules).Nodup) →
      (rules1.map PadRule.Name).Nodup := by
  intro wfs
  induction wfs with
  | nil =>
    intro done rules done1 rules1 h hnd _
    simp only [inlineWorkflowsLoop, Except.ok.injEq, Prod.mk.injEq] at h
    rw [← h.2]
    exact hnd
  | cons workflow rest ih =>
    intro done rules done1 rules1 h hnd hraw
    obtain ⟨wf, new, hw, hrest⟩ := inlineWorkflowsLoop_cons_ok h
    obtain ⟨em, hem, hnew, -⟩ := processInlineRulesOnWorkflow_ok hw
    apply ih _ _ _ _ hrest
    · rw [List.map_append, List.nodup_append]
      refine ⟨hnd, ?_, ?_⟩
      · have h1 := hraw workflow (List.mem_cons_self _ _)
        rw [forall₂_emits_names hem] at h1
        rw [hnew]
        exact h1.sublist (materialized_names_sublist rules em)
      · intro x hx1 hx2
        rw [hnew] at hx2
        obtain ⟨m, hm, rfl⟩ := List.mem_map.1 hx2
        obtain ⟨e, -, hn, rfl⟩ := mem_materialized.1 hm
        exact hn hx1
    · intro wf1 hwf1
      exact hraw wf1 (List.mem_cons_of_mem _ hwf1)

theorem transform_rule_names (f : String → String) (file : ReviewpadFile) :
    (transform f file).Rules.map PadRule.Name = file.Rules.map PadRule.Name := by
  simp [transform, List.map_map, Function.comp_def]

theorem demo_diamond_faithful : HashFaithful demoWorld [1] :=
  hashFaithful_of_check diamondDocs (by decide) diamond_closed (by decide)

theorem demo_diamond_acyclic : ¬ HasCycle demoWorld [1] := by
  have hp : parse demoWorld [1] =
      .ok (demoFile "a" ["https://host/b", "https://host/c"] ["ruleA"]) := rfl
  have hi : ∃ out env1, processImports demoWorld 3
      (demoFile "a" ["https://host/b", "https://host/c"] ["ruleA"])
      ⟨[hash demoWorld [1]], [hash demoWorld [1]]⟩ = some (.ok (out, env1)) := ⟨_, _, rfl⟩
  obtain ⟨out, env1, hi⟩ := hi
  obtain ⟨out0, hrun, -⟩ := processImports_ok_run hi
  exact hrun.acyclic_of_ok demo_diamond_faithful hp

/-- Witness of C3: in the diamond the rules of D, reached through B and through the mirror
URL of C, appear once in the loaded document, and the merged documents are A, B, D, C. -/
theorem dedup_by_content_hash_witness :
    ∃ res, Load demoWorld 3 [1] = some (.ok res) ∧
      res.Rules.map PadRule.Name = ["ruleA", "ruleB", "ruleD", "ruleC"] ∧
      ∃ (L : List Bytes) (file0 merged normalized : ReviewpadFile) (env1 : LoadEnv),
        parse demoWorld [1] = .ok file0 ∧
        processImports demoWorld 3 file0 ⟨[hash demoWorld [1]], [hash demoWorld [1]]⟩ =
          some (.ok (merged, env1)) ∧
        processInlineRules demoWorld.mapstructureDecode merged = .ok normalized ∧
        res = transform demoWorld.transformAladinoExpression normalized ∧
        (([1] :: L).map (hash demoWorld)).Nodup ∧
        (∀ c ∈ [1] :: L, Reach demoWorld [1] c) ∧
        (HashFaithful demoWorld [1] → ∀ c, Reach demoWorld [1] c → c ∈ [1] :: L) ∧
        merged.Rules = ([1] :: L).flatMap (docRules demoWorld) ∧
        merged.Groups = ([1] :: L).flatMap (docGroups demoWorld) ∧
        merged.Workflows = ([1] :: L).flatMap (docWorkflows demoWorld) :=
  ⟨_, rfl, by decide, dedup_by_content_hash demoWorld [1] 3 _ rfl⟩

/-- C4: a document returned by `Load` has no imports: every successful `processImports`
returns a file without imports, and `processInlineRules` and `transform` keep the import
list as it is. -/
theorem load_imports_empty (w : World) (n : Nat) (data : Bytes) (res : ReviewpadFile)
    (hload : Load w n data = some (.ok res)) :
    res.Imports = [] ∧
    (∀ m file env sub env1, processImports w m file env = some (.ok (sub, env1)) →
      sub.Imports = []) ∧
    (∀ file out, processInlineRules w.mapstructureDecode file = .ok out →
      out.Imports = file.Imports) ∧
    (∀ file, (transform w.transformAladinoExpression file).Imports = file.Imports) := by
  have h1 : ∀ m file env sub env1, processImports w m file env = some (.ok (sub, env1)) →
      sub.Imports = [] := by
    intro m file env sub env1 h
    obtain ⟨out0, -, hout⟩ := processImports_ok_run h
    rw [hout]
  have h2 : ∀ file out, processInlineRules w.mapstructureDecode file = .ok out →
      out.Imports = file.Imports := by
    intro file out h
    obtain ⟨workflows, rules, -, hout⟩ := processInlineRules_ok h
    rw [hout]
  have h3 : ∀ file, (transform w.transformAladinoExpression file).Imports = file.Imports :=
    fun _ => rfl
  refine ⟨?_, h1, h2, h3⟩
  obtain ⟨file0, file1, env1, file2, -, hi, hn, hres⟩ := Load_ok_inv hload
  rw [hres, h3, h2 _ _ hn, h1 _ _ _ _ _ hi]

/-- Witness of C4: the diamond loads and the loaded document has no imports. -/
theorem load_imports_empty_witness :
    ∃ res, Load demoWorld 3 [1] = some (.ok res) ∧ res.Imports = [] :=
  ⟨_, rfl, (load_imports_empty demoWorld 3 [1] _ rfl).1⟩

/-- Counterexample to C5 as stated: a document without imports that declares two rules of
the same name loads, and the loaded document keeps both. -/
theorem load_rule_names_unique_counterexample :
    ∃ res, Load demoWorld 1 [8] = some (.ok res) ∧ ¬ (res.Rules.map PadRule.Name).Nodup :=
  ⟨_, rfl, by decide⟩

theorem materialized_names (cur : List PadRule) (em : List PadWorkflowRule) :
    (materialized cur em).map PadRule.Name =
      (em.map PadWorkflowRule.Rule).filter (fun n => decide (n ∉ cur.map PadRule.Name)) := by
  induction em with
  | nil => rfl
  | cons e em ih =>
    rw [materialized_cons, List.map_append, ih, List.map_cons, List.filter_cons]
    by_cases h : e.Rule ∈ cur.map PadRule.Name
    · have h1 : (findRule cur e.Rule).isSome = true := findRule_isSome.2 h
      simp [h1, h]
    · have h1 : ¬ (findRule cur e.Rule).isSome = true := fun hs => h (findRule_isSome.1 hs)
      simp [h1, h, decodeRule]

theorem nodup_filter_of_count {l : List String} {p : String → Bool}
    (h : ∀ n ∈ l, p n = true → l.count n ≤ 1) : (l.filter p).Nodup := by
  rw [List.nodup_iff_count_le_one]
  intro a
  by_cases ha : a ∈ l.filter p
  · obtain ⟨hal, hpa⟩ := List.mem_filter.1 ha
    rw [List.count_filter hpa]
    exact h a hal hpa
  · rw [List.count_eq_zero_of_not_mem ha]
    exact Nat.zero_le _

theorem namesAbsentRuleTwice_congr
    (decode : List (String × RawValue) → Except String PadWorkflowRule) :
    ∀ (wfs : List PadWorkflow) (k1 k2 : List String), (∀ n, n ∈ k1 ↔ n ∈ k2) →
      namesAbsentRuleTwice decode k1 wfs = namesAbsentRuleTwice decode k2 wfs := by
  intro wfs
  induction wfs with
  | nil => intro k1 k2 _; rfl
  | cons wf rest ih =>
    intro k1 k2 h
    simp only [namesAbsentRuleTwice]
    rw [ih (k1 ++ rawRuleNames decode wf.NonNormalizedRules)
      (k2 ++ rawRuleNames decode wf.NonNormalizedRules)
      (fun n => by simp only [List.mem_append, h n])]
    congr 2
    funext name
    simp only [h name]

/-- After the normalisation of a workflow the names of the rules are those before it and
the names of its raw rule list. -/
theorem mem_names_after {cur : List PadRule} {em : List PadWorkflowRule} (n : String) :
    n ∈ (cur ++ materialized cur em).map PadRule.Name ↔
      n ∈ cur.map PadRule.Name ++ em.map PadWorkflowRule.Rule := by
  rw [List.map_append, materialized_names]
  simp only [List.mem_append, List.mem_filter, decide_eq_true_eq]
  constructor
  · rintro (h | ⟨h, -⟩)
    · exact Or.inl h
    · exact Or.inr h
  · rintro (h | h)
    · exact Or.inl h
    · by_cases hc : n ∈ cur.map PadRule.Name
      · exact Or.inl hc
      · exact Or.inr ⟨h, hc⟩

/-- Rule names stay pairwise distinct when no raw rule list names an absent rule twice. -/
theorem inlineWorkflowsLoop_nodup_absent
    (decode : List (String × RawValue) → Except String PadWorkflowRule) :
    ∀ (wfs done : List PadWorkflow) (rules : List PadRule) (done1 : List PadWorkflow)
      (rules1 : List PadRule),
      inlineWorkflowsLoop decode wfs done rules = .ok (done1, rules1) →
      (rules.map PadRule.Name).Nodup →
      namesAbsentRuleTwice decode (rules.map PadRule.Name) wfs = false →
      (rules1.map PadRule.Name).Nodup := by
  intro wfs
  induction wfs with
  | nil =>
    intro done rules done1 rules1 h hnd _
    simp only [inlineWorkflowsLoop, Except.ok.injEq, Prod.mk.injEq] at h
    rw [← h.2]
    exact hnd
  | cons workflow rest ih =>
    intro done rules done1 rules1 h hnd hraw
    obtain ⟨wf, new, hw, hrest⟩ := inlineWorkflowsLoop_cons_ok h
    obtain ⟨em, hem, hnew, -⟩ := processInlineRulesOnWorkflow_ok hw
    simp only [namesAbsentRuleTwice, Bool.or_eq_false_iff] at hraw
    obtain ⟨hany, hrec⟩ := hraw
    rw [forall₂_emits_names hem] at hany hrec
    subst hnew
    apply ih _ _ _ _ hrest
    · rw [List.map_append, List.nodup_append]
      refine ⟨hnd, ?_, ?_⟩
      · rw [materialized_names]
        apply nodup_filter_of_count
        intro n hn hp
        have := List.any_eq_false.1 hany n hn
        simp only [Bool.and_eq_true, decide_eq_true_eq, not_and, not_lt] at this
        exact this (of_decide_eq_true hp)
      · intro x hx1 hx2
        obtain ⟨m, hm, rfl⟩ := List.mem_map.1 hx2
        obtain ⟨e, -, hn, rfl⟩ := mem_materialized.1 hm
        exact hn hx1
    · rw [namesAbsentRuleTwice_congr decode rest _ _ (fun n => mem_names_after n)]
      exact hrec

/-- Conversely, pairwise distinct rule names after normalisation leave no raw rule list
that names an absent rule twice. -/
theorem inlineWorkflowsLoop_absent_of_nodup
    (decode : List (String × RawValue) → Except String PadWorkflowRule) :
    ∀ (wfs done : List PadWorkflow) (rules : List PadRule) (done1 : List PadWorkflow)
      (rules1 : List PadRule),
      inlineWorkflowsLoop decode wfs done rules = .ok (done1, rules1) →
      (rules1.map PadRule.Name).Nodup →
      namesAbsentRuleTwice decode (rules.map PadRule.Name) wfs = false := by
  intro wfs
  induction wfs with
  | nil => intro done rules done1 rules1 _ _; rfl
  | cons workflow rest ih =>
    intro done rules done1 rules1 h hnd
    obtain ⟨wf, new, hw, hrest⟩ := inlineWorkflowsLoop_cons_ok h
    obtain ⟨em, hem, hnew, -⟩ := processInlineRulesOnWorkflow_ok hw
    subst hnew
    have hrec := ih _ _ _ _ hrest hnd
    obtain ⟨M, hM, -⟩ := inlineWorkflowsLoop_rules decode _ _ _ _ _ hrest
    have hnd1 : ((rules ++ materialized rules em).map PadRule.Name).Nodup := by
      rw [hM, List.map_append] at hnd
      exact (List.nodup_append.1 hnd).1
    rw [List.map_append, List.nodup_append, materialized_names] at hnd1
    simp only [namesAbsentRuleTwice, Bool.or_eq_false_iff]
    rw [forall₂_emits_names hem]
    refine ⟨?_, ?_⟩
    · rw [List.any_eq_false]
      intro n hn
      simp only [Bool.and_eq_true, decide_eq_true_eq, not_and, not_lt]
      intro habs
      have hp : (fun n => decide (n ∉ rules.map PadRule.Name)) n = true := by
        simpa using habs
      have hc : List.count n ((em.map PadWorkflowRule.Rule).filter
          (fun n => decide (n ∉ rules.map PadRule.Name))) =
          List.count n (em.map PadWorkflowRule.Rule) := List.count_filter hp
      rw [← hc]
      exact List.nodup_iff_count_le_one.1 hnd1.2.1 n
    · rw [← namesAbsentRuleTwice_congr decode rest _ _ (fun n => mem_names_after n)]
      exact hrec

/-- Amended C5: when the rules collected from the document and its imports have pairwise
distinct names and no workflow's raw rule list names twice a rule that is absent when the
workflow is normalised, the rules of the loaded document have pairwise distinct names. -/
theorem load_rule_names_unique (w : World) (n : Nat) (data : Bytes)
    (file0 merged res : ReviewpadFile) (env1 : LoadEnv)
    (hp : parse w data = .ok file0)
    (hi : processImports w n file0 ⟨[hash w data], [hash w data]⟩ = some (.ok (merged, env1)))
    (hload : Load w n data = some (.ok res))
    (hmerged : (merged.Rules.map PadRule.Name).Nodup)
    (hraw : namesAbsentRuleTwice w.mapstructureDecode (merged.Rules.map PadRule.Name)
      merged.Workflows = false) :
    (res.Rules.map PadRule.Name).Nodup := by
  obtain ⟨file0', file1, env1', file2, hp', hi', hn, hres⟩ := Load_ok_inv hload
  rw [hp] at hp'
  cases Except.ok.inj hp'
  rw [hi] at hi'
  simp only [Option.some.injEq, Except.ok.injEq, Prod.mk.injEq] at hi'
  obtain ⟨rfl, rfl⟩ := hi'
  obtain ⟨workflows, rules, hl, hout⟩ := processInlineRules_ok hn
  rw [hres, transform_rule_names, hout]
  exact inlineWorkflowsLoop_nodup_absent _ _ _ _ _ _ hl hmerged hraw

/-- Witness of the amended C5: a document whose workflow names its declared rule `ruleE`
twice loads with that rule once; and the diamond. -/
theorem load_rule_names_unique_witness :
    (rawRuleNames demoDecode (demoWorkflow "wf-e" ["ruleE", "ruleE"]).NonNormalizedRules =
      ["ruleE", "ruleE"] ∧
     ∃ res, Load demoWorld 1 [9] = some (.ok res) ∧
      res.Rules.map PadRule.Name = ["ruleE"] ∧ (res.Rules.map PadRule.Name).Nodup) ∧
    ∃ res, Load demoWorld 3 [1] = some (.ok res) ∧ (res.Rules.map PadRule.Name).Nodup :=
  ⟨⟨rfl, _, rfl, rfl,
      load_rule_names_unique demoWorld 1 [9] _ _ _ _ rfl rfl rfl (by decide) (by decide)⟩,
    _, rfl, load_rule_names_unique demoWorld 3 [1] _ _ _ _ rfl rfl rfl (by decide) (by decide)⟩

/-- The two conditions of the amended C5 are also necessary: when the rules of the loaded
document have pairwise distinct names, so have the rules collected from the document and
its imports, and no workflow's raw rule list names an absent rule twice. -/
theorem rule_names_nodup_only_if (w : World) (n : Nat) (data : Bytes)
    (file0 merged res : ReviewpadFile) (env1 : LoadEnv)
    (hp : parse w data = .ok file0)
    (hi : processImports w n file0 ⟨[hash w data], [hash w data]⟩ = some (.ok (merged, env1)))
    (hload : Load w n data = some (.ok res))
    (hnd : (res.Rules.map PadRule.Name).Nodup) :
    (merged.Rules.map PadRule.Name).Nodup ∧
    namesAbsentRuleTwice w.mapstructureDecode (merged.Rules.map PadRule.Name)
      merged.Workflows = false := by
  obtain ⟨file0', file1, env1', file2, hp', hi', hn, hres⟩ := Load_ok_inv hload
  rw [hp] at hp'
  cases Except.ok.inj hp'
  rw [hi] at hi'
  simp only [Option.some.injEq, Except.ok.injEq, Prod.mk.injEq] at hi'
  obtain ⟨rfl, rfl⟩ := hi'
  obtain ⟨workflows, rules, hl, hout⟩ := processInlineRules_ok hn
  rw [hres, transform_rule_names, hout] at hnd
  simp only at hnd
  refine ⟨?_, inlineWorkflowsLoop_absent_of_nodup _ _ _ _ _ _ hl hnd⟩
  obtain ⟨M, hM, -⟩ := inlineWorkflowsLoop_rules _ _ _ _ _ _ hl
  rw [hM, List.map_append] at hnd
  exact (List.nodup_append.1 hnd).1

/-- Counterexample to C6 as stated: a canonical entry that was already in the workflow and
names an undeclared rule is carried over, so the normalised document has a workflow rule
without a rule. -/
theorem normalized_rules_exist_counterexample :
    ∃ out, processInlineRules demoDecode danglingFile = .ok out ∧
      ¬ ∀ wf ∈ out.Workflows, ∀ e ∈ wf.Rules, e.Rule ∈ out.Rules.map PadRule.Name :=
  ⟨_, rfl, by decide⟩

/-- Amended C6: when the canonical entries already present in the workflows name rules of
the input document, every workflow rule of the normalised document names a rule of the
normalised document. -/
theorem normalized_rules_exist
    (decode : List (String × RawValue) → Except String PadWorkflowRule)
    (file out : ReviewpadFile) (h : processInlineRules decode file = .ok out)
    (hpre : ∀ wf ∈ file.Workflows, ∀ e ∈ wf.Rules, e.Rule ∈ file.Rules.map PadRule.Name) :
    ∀ wf ∈ out.Workflows, ∀ e ∈ wf.Rules, e.Rule ∈ out.Rules.map PadRule.Name := by
  obtain ⟨workflows, rules, hl, hout⟩ := processInlineRules_ok h
  rw [hout]
  exact inlineWorkflowsLoop_refs decode _ _ _ _ _ hl (fun wf hwf => by cases hwf) hpre

/-- Witness of the amended C6. -/
theorem normalized_rules_exist_witness :
    ∃ out, processInlineRules demoDecode inlineFile = .ok out ∧
      ∀ wf ∈ out.Workflows, ∀ e ∈ wf.Rules, e.Rule ∈ out.Rules.map PadRule.Name :=
  ⟨_, rfl, normalized_rules_exist demoDecode inlineFile _ rfl (by decide)⟩

/-- C7: the rules of the normalised document are the rules of the input, unchanged and in
order, followed by materialised rules `{name = n, spec = n, kind = patch}` where `n` is named
by a raw entry of some workflow and is not the name of a rule of the input. -/
theorem no_rule_shadowed
    (decode : List (String × RawValue) → Except String PadWorkflowRule)
    (file out : ReviewpadFile) (h : processInlineRules decode file = .ok out) :
    ∃ M, out.Rules = file.Rules ++ M ∧
      ∀ m ∈ M, ∃ n, m = { Name := n, Spec := n, Kind := "patch", Description := "" } ∧
        n ∉ file.Rules.map PadRule.Name ∧
        ∃ wf ∈ file.Workflows, ∃ r ∈ wf.NonNormalizedRules, ∃ e, Emits decode r e ∧
          e.Rule = n := by
  obtain ⟨workflows, rules, hl, hout⟩ := processInlineRules_ok h
  obtain ⟨M, hM, hprop⟩ := inlineWorkflowsLoop_rules decode _ _ _ _ _ hl
  exact ⟨M, by rw [hout, hM], hprop⟩

/-- Witness of C7: the declared rule is kept and two rules are materialised. -/
theorem no_rule_shadowed_witness :
    ∃ out, processInlineRules demoDecode inlineFile = .ok out ∧
      out.Rules.map PadRule.Name = ["declared", "$size() > 10", "$isDraft()"] ∧
      ∃ M, out.Rules = inlineFile.Rules ++ M ∧
        ∀ m ∈ M, ∃ n, m = { Name := n, Spec := n, Kind := "patch", Description := "" } ∧
          n ∉ inlineFile.Rules.map PadRule.Name ∧
          ∃ wf ∈ inlineFile.Workflows, ∃ r ∈ wf.NonNormalizedRules, ∃ e,
            Emits demoDecode r e ∧ e.Rule = n :=
  ⟨_, rfl, by decide, no_rule_shadowed demoDecode inlineFile _ rfl⟩

/-- C8: the canonical rules of the returned workflow are the entries already present
followed by one workflow rule per raw entry, in order; the raw list of the returned
workflow is empty and its other fields are those of the input. -/
theorem workflow_rules_normalized
    (decode : List (String × RawValue) → Except String PadWorkflowRule)
    (workflow : PadWorkflow) (currentRules : List PadRule) (wf : PadWorkflow)
    (rules : List PadRule)
    (h : processInlineRulesOnWorkflow decode workflow currentRules = .ok (wf, rules)) :
    (∃ em, List.Forall₂ (Emits decode) workflow.NonNormalizedRules em ∧
      wf.Rules = workflow.Rules ++ em) ∧
    wf.NonNormalizedRules = [] ∧ wf.Name = workflow.Name ∧
    wf.Description = workflow.Description ∧ wf.AlwaysRun = workflow.AlwaysRun ∧
    wf.Actions = workflow.Actions ∧ wf.On = workflow.On := by
  obtain ⟨em, hem, -, hwf⟩ := processInlineRulesOnWorkflow_ok h
  rw [hwf]
  exact ⟨⟨em, hem, rfl⟩, rfl, rfl, rfl, rfl, rfl, rfl⟩

/-- Witness of C8: the canonical rules of the normalised workflow of `inlineFile`. -/
theorem workflow_rules_normalized_witness :
    ∃ wf rules,
      processInlineRulesOnWorkflow demoDecode inlineWorkflow inlineFile.Rules = .ok (wf, rules) ∧
      wf.Rules = [{ Rule := "declared", ExtraActions := ["$comment()"] },
                  { Rule := "declared", ExtraActions := [] },
                  { Rule := "$size() > 10", ExtraActions := [] },
                  { Rule := "$isDraft()", ExtraActions := ["$close()"] }] ∧
      wf.NonNormalizedRules = [] ∧ wf.Name = inlineWorkflow.Name :=
  ⟨_, _, rfl, by decide,
    (workflow_rules_normalized demoDecode inlineWorkflow inlineFile.Rules _ _ rfl).2.1,
    (workflow_rules_normalized demoDecode inlineWorkflow inlineFile.Rules _ _ rfl).2.2.1⟩

theorem inlineRulesLoop_unknown
    (decode : List (String × RawValue) → Except String PadWorkflowRule) (cur : List PadRule)
    (bad : RawValue) (post : List RawValue)
    (hbad : (∀ s, bad ≠ .str s) ∧ (∀ m, bad ≠ .map m)) :
    ∀ (pre : List RawValue) (wfRules : List PadWorkflowRule) (rules : List PadRule),
      (∀ r ∈ pre, ∃ e, Emits decode r e) →
      inlineRulesLoop decode cur (pre ++ bad :: post) wfRules rules =
        .error ("unknown rule type " ++ bad.goType) := by
  intro pre
  induction pre with
  | nil =>
    intro wfRules rules _
    cases bad with
    | str s => exact absurd rfl (hbad.1 s)
    | map m => exact absurd rfl (hbad.2 m)
    | seq xs => simp [inlineRulesLoop]
    | int n => simp [inlineRulesLoop]
    | bool b => simp [inlineRulesLoop]
    | null => simp [inlineRulesLoop]
    | other t => simp [inlineRulesLoop]
  | cons r pre ih =>
    intro wfRules rules hpre
    have hrest : ∀ x ∈ pre, ∃ e, Emits decode x e :=
      fun x hx => hpre x (List.mem_cons_of_mem _ hx)
    obtain ⟨e, he⟩ := hpre r (List.mem_cons_self _ _)
    cases he with
    | str s =>
      rw [List.cons_append, inlineRulesLoop]
      exact ih _ _ hrest
    | map m e hd =>
      rw [List.cons_append, inlineRulesLoop]
      simp only [decodeWorkflowRule, hd]
      exact ih _ _ hrest

theorem inlineRulesLoop_total
    (decode : List (String × RawValue) → Except String PadWorkflowRule) (cur : List PadRule) :
    ∀ (raw : List RawValue) (wfRules : List PadWorkflowRule) (rules : List PadRule),
      (∀ r ∈ raw, ∃ e, Emits decode r e) →
      ∃ res, inlineRulesLoop decode cur raw wfRules rules = .ok res := by
  intro raw
  induction raw with
  | nil => intro wfRules rules _; exact ⟨_, rfl⟩
  | cons r raw ih =>
    intro wfRules rules hraw
    have hrest : ∀ x ∈ raw, ∃ e, Emits decode x e :=
      fun x hx => hraw x (List.mem_cons_of_mem _ hx)
    obtain ⟨e, he⟩ := hraw r (List.mem_cons_self _ _)
    cases he with
    | str s =>
      rw [inlineRulesLoop]
      exact ih _ _ hrest
    | map m e hd =>
      rw [inlineRulesLoop]
      simp only [decodeWorkflowRule, hd]
      exact ih _ _ hrest

theorem processInlineRulesOnWorkflow_total
    (decode : List (String × RawValue) → Except String PadWorkflowRule)
    (workflow : PadWorkflow) (cur : List PadRule)
    (hraw : ∀ r ∈ workflow.NonNormalizedRules, ∃ e, Emits decode r e) :
    ∃ res, processInlineRulesOnWorkflow decode workflow cur = .ok res := by
  obtain ⟨res, hres⟩ := inlineRulesLoop_total decode cur workflow.NonNormalizedRules
    workflow.Rules [] hraw
  unfold processInlineRulesOnWorkflow
  rw [hres]
  exact ⟨_, rfl⟩

theorem inlineWorkflowsLoop_error
    (decode : List (String × RawValue) → Except String PadWorkflowRule)
    (workflow : PadWorkflow) (wpost : List PadWorkflow) (err : String)
    (herr : ∀ cur, processInlineRulesOnWorkflow decode workflow cur = .error err) :
    ∀ (wpre done : List PadWorkflow) (rules : List PadRule),
      (∀ wf ∈ wpre, ∀ r ∈ wf.NonNormalizedRules, ∃ e, Emits decode r e) →
      inlineWorkflowsLoop decode (wpre ++ workflow :: wpost) done rules = .error err := by
  intro wpre
  induction wpre with
  | nil =>
    intro done rules _
    rw [List.nil_append, inlineWorkflowsLoop, herr]
  | cons wf wpre ih =>
    intro done rules hpre
    obtain ⟨res, hres⟩ := processInlineRulesOnWorkflow_total decode wf rules
      (hpre wf (List.mem_cons_self _ _))
    rw [List.cons_append, inlineWorkflowsLoop, hres]
    exact ih _ _ (fun x hx => hpre x (List.mem_cons_of_mem _ hx))

/-- C9: a raw entry `bad` that is neither a string nor a mapping, preceded only by strings
and by mappings that decode, makes `processInlineRulesOnWorkflow` fail with the
unknown-rule-type error for the type of `bad`; `processInlineRules` returns the same error
when the workflows before this one normalise; and a raw list of bare strings never
fails. -/
theorem unknown_rule_type
    (decode : List (String × RawValue) → Except String PadWorkflowRule)
    (workflow : PadWorkflow) (pre post : List RawValue) (bad : RawValue)
    (file : ReviewpadFile) (wpre wpost : List PadWorkflow)
    (hraw : workflow.NonNormalizedRules = pre ++ bad :: post)
    (hpre : ∀ r ∈ pre, ∃ e, Emits decode r e)
    (hbad : (∀ s, bad ≠ .str s) ∧ (∀ m, bad ≠ .map m))
    (hfile : file.Workflows = wpre ++ workflow :: wpost)
    (hwpre : ∀ wf ∈ wpre, ∀ r ∈ wf.NonNormalizedRules, ∃ e, Emits decode r e) :
    (∀ currentRules, processInlineRulesOnWorkflow decode workflow currentRules =
      .error ("unknown rule type " ++ bad.goType)) ∧
    processInlineRules decode file = .error ("unknown rule type " ++ bad.goType) ∧
    (∀ (wf : PadWorkflow) (currentRules : List PadRule),
      (∀ r ∈ wf.NonNormalizedRules, ∃ s, r = .str s) →
      ∃ res, processInlineRulesOnWorkflow decode wf currentRules = .ok res) := by
  have h1 : ∀ currentRules, processInlineRulesOnWorkflow decode workflow currentRules =
      .error ("unknown rule type " ++ bad.goType) := by
    intro cur
    unfold processInlineRulesOnWorkflow
    rw [hraw, inlineRulesLoop_unknown decode cur bad post hbad pre _ _ hpre]
  refine ⟨h1, ?_, ?_⟩
  · unfold processInlineRules
    rw [hfile, inlineWorkflowsLoop_error decode workflow wpost _ h1 wpre _ _ hwpre]
  · intro wf cur hstr
    apply processInlineRulesOnWorkflow_total
    intro r hr
    obtain ⟨s, rfl⟩ := hstr r hr
    exact ⟨_, Emits.str s⟩

/-- Witness of C9: an integer entry after a bare string. -/
theorem unknown_rule_type_witness :
    processInlineRulesOnWorkflow demoDecode badWorkflow [] = .error "unknown rule type int" ∧
    processInlineRules demoDecode
        { inlineFile with Workflows := inlineFile.Workflows ++ [badWorkflow] } =
      .error "unknown rule type int" :=
  have h := unknown_rule_type demoDecode badWorkflow [.str "first"] [.str "last"] (.int 42)
    { inlineFile with Workflows := inlineFile.Workflows ++ [badWorkflow] }
    inlineFile.Workflows [] rfl
    (by
      intro r hr
      rw [List.mem_singleton.1 hr]
      exact ⟨_, Emits.str _⟩)
    ⟨fun s h => (by cases h), fun m h => (by cases h)⟩ rfl
    (by
      intro wf hwf r hr
      rw [List.mem_singleton.1 hwf] at hr
      have hr1 : r ∈ [RawValue.str "declared", RawValue.str "$size() > 10",
          RawValue.map [("rule", .str "$isDraft()"),
            ("extra-actions", .seq [.str "$close()"])]] := hr
      simp only [List.mem_cons, List.mem_singleton, List.not_mem_nil, or_false] at hr1
      rcases hr1 with rfl | rfl | rfl
      · exact ⟨_, Emits.str _⟩
      · exact ⟨_, Emits.str _⟩
      · exact ⟨_, Emits.map _ _ rfl⟩)
  ⟨h.1 [], h.2.1⟩

/-- The part of C10 the code implements: rule specs, workflow actions, extra actions and
stage actions are rewritten. -/
theorem transform_rewrites (f : String → String) (file : ReviewpadFile) :
    (transform f file).Rules.map PadRule.Spec = file.Rules.map (fun r => f r.Spec) ∧
    (transform f file).Workflows.map PadWorkflow.Actions =
      file.Workflows.map (fun wf => wf.Actions.map f) ∧
    (transform f file).Workflows.map (fun wf => wf.Rules.map PadWorkflowRule.ExtraActions) =
      file.Workflows.map (fun wf => wf.Rules.map (fun r => r.ExtraActions.map f)) ∧
    (transform f file).Pipelines.map (fun p => p.Stages.map PadStage.Actions) =
      file.Pipelines.map (fun p => p.Stages.map (fun s => s.Actions.map f)) := by
  simp [transform, List.map_map, Function.comp_def]

/-- C10 fails on the code: `transform` copies pipeline triggers and stage `until`
conditions without rewriting them, whereas the rule spec with the same text is rewritten. -/
theorem transform_skips_pipeline_conditions :
    (transform demoRewrite pipelineFile).Rules.map PadRule.Spec = ["$size([]) > 10"] ∧
    (transform demoRewrite pipelineFile).Pipelines.map PadPipeline.Trigger = ["$size() > 10"] ∧
    (transform demoRewrite pipelineFile).Pipelines.map
      (fun p => p.Stages.map PadStage.Until) = [["$size() > 10"]] ∧
    pipelineFile.Pipelines.map (fun p => demoRewrite p.Trigger) = ["$size([]) > 10"] ∧
    ∀ (f : String → String) (file : ReviewpadFile),
      (transform f file).Pipelines.map PadPipeline.Trigger =
        file.Pipelines.map PadPipeline.Trigger ∧
      (transform f file).Pipelines.map (fun p => p.Stages.map PadStage.Until) =
        file.Pipelines.map (fun p => p.Stages.map PadStage.Until) := by
  refine ⟨by decide, by decide, by decide, by decide, ?_⟩
  intro f file
  simp [transform, List.map_map, Function.comp_def]

/-- C11: `transform` is idempotent when the expression rewrite is. -/
theorem transform_idempotent (f : String → String) (hf : ∀ s, f (f s) = f s)
    (file : ReviewpadFile) : transform f (transform f file) = transform f file := by
  simp only [transform, List.map_map, Function.comp_def, hf, List.length_map]
  congr 1
  · apply List.map_congr_left
    intro r _
    by_cases h : r.Kind = "" <;> simp [h]
  · apply List.map_congr_left
    intro wf _
    by_cases h : wf.On.length > 0
    · simp [h]
    · simp [h]

theorem demoRewrite_idempotent (s : String) : demoRewrite (demoRewrite s) = demoRewrite s := by
  unfold demoRewrite
  by_cases h : s = "$size() > 10"
  · subst h
    decide
  · simp [h]

/-- Witness of C11: the pass with the rewrite `demoRewrite` on the pipeline document. -/
theorem transform_idempotent_witness :
    transform demoRewrite (transform demoRewrite pipelineFile) =
      transform demoRewrite pipelineFile :=
  transform_idempotent demoRewrite demoRewrite_idempotent pipelineFile

/-- C12: `transform` keeps the rules and the workflows in number, order and name; an empty
rule kind becomes `patch` and an empty `on` list becomes `[pull-request]`, other kinds and
lists are kept; so no output rule has an empty kind and no output workflow an empty `on`
list. -/
theorem transform_defaults (f : String → String) (file : ReviewpadFile) :
    (transform f file).Rules.length = file.Rules.length ∧
    (transform f file).Workflows.length = file.Workflows.length ∧
    (transform f file).Rules.map PadRule.Name = file.Rules.map PadRule.Name ∧
    (transform f file).Workflows.map PadWorkflow.Name = file.Workflows.map PadWorkflow.Name ∧
    (transform f file).Rules.map PadRule.Kind =
      file.Rules.map (fun r => if r.Kind = "" then "patch" else r.Kind) ∧
    (transform f file).Workflows.map PadWorkflow.On =
      file.Workflows.map
        (fun wf => if wf.On = [] then [TargetEntityKind.PullRequest] else wf.On) ∧
    (∀ r ∈ (transform f file).Rules, r.Kind ≠ "") ∧
    (∀ wf ∈ (transform f file).Workflows, wf.On ≠ []) := by
  refine ⟨by simp [transform], by simp [transform],
    by simp [transform, List.map_map, Function.comp_def],
    by simp [transform, List.map_map, Function.comp_def],
    by simp [transform, List.map_map, Function.comp_def], ?_, ?_, ?_⟩
  · simp only [transform, List.map_map, Function.comp_def]
    apply List.map_congr_left
    intro wf _
    cases h : wf.On <;> simp
  · intro r hr
    simp only [transform, List.mem_map] at hr
    obtain ⟨r0, -, rfl⟩ := hr
    by_cases h : r0.Kind = ""
    · simp [h]
    · simp [h]
  · intro wf hwf
    simp only [transform, List.mem_map] at hwf
    obtain ⟨wf0, -, rfl⟩ := hwf
    cases h : wf0.On <;> simp

theorem importsLoopTrace_fst (w : World)
    (recurT : ReviewpadFile → LoadEnv → Outcome (ReviewpadFile × LoadEnv) × EnvTrace)
    (recur : ReviewpadFile → LoadEnv → Outcome (ReviewpadFile × LoadEnv))
    (hrec : ∀ f e, (recurT f e).1 = recur f e) :
    ∀ (imports : List PadImport) (file : ReviewpadFile) (env : LoadEnv),
      (importsLoopTrace w recurT imports file env).1 = importsLoop w recur imports file env := by
  intro imports
  induction imports with
  | nil => intro file env; rfl
  | cons imp rest ih =>
    intro file env
    rw [importsLoopTrace, importsLoop]
    cases hl : loadImport w imp with
    | error e => rfl
    | ok p =>
      obtain ⟨iFile, idHash⟩ := p
      simp only []
      by_cases hs : idHash ∈ env.Stack
      · simp only [hs, if_true]
      · simp only [hs, if_false]
        by_cases hv : idHash ∈ env.Visited
        · simp only [hv, if_true]
          exact ih file env
        · simp only [hv, if_false]
          have h1 := hrec iFile ⟨setKey env.Visited idHash, setKey env.Stack idHash⟩
          cases hr : recurT iFile ⟨setKey env.Visited idHash, setKey env.Stack idHash⟩ with
          | mk o tr =>
            rw [hr] at h1
            simp only at h1
            rw [← h1]
            cases o with
            | none => rfl
            | some r =>
              cases r with
              | error e => rfl
              | ok q =>
                obtain ⟨sub, env2⟩ := q
                exact ih _ _

theorem processImportsTrace_fst (w : World) :
    ∀ (n : Nat) (file : ReviewpadFile) (env : LoadEnv),
      (processImportsTrace w n file env).1 = processImports w n file env := by
  intro n
  induction n with
  | zero => intro file env; rfl
  | succ n ih =>
    intro file env
    rw [processImportsTrace, processImports]
    have h := importsLoopTrace_fst w (processImportsTrace w n) (processImports w n) ih
      file.Imports file env
    cases hr : importsLoopTrace w (processImportsTrace w n) file.Imports file env with
    | mk o tr =>
      rw [hr] at h
      simp only at h
      rw [← h]
      cases o with
      | none => rfl
      | some r =>
        cases r with
        | error e => rfl
        | ok q => cases q; rfl

theorem lastEnv_append (env : LoadEnv) (a b : EnvTrace) :
    lastEnv env (a ++ b) = lastEnv (lastEnv env a) b := by
  induction a generalizing env with
  | nil => rfl
  | cons p a ih => exact ih p.2

theorem isTrace_append (env : LoadEnv) (a b : EnvTrace) :
    IsTrace env (a ++ b) ↔ IsTrace env a ∧ IsTrace (lastEnv env a) b := by
  induction a generalizing env with
  | nil => simp [IsTrace, lastEnv]
  | cons p a ih =>
    show p.1.relates env p.2 ∧ IsTrace p.2 (a ++ b) ↔
      (p.1.relates env p.2 ∧ IsTrace p.2 a) ∧ IsTrace (lastEnv p.2 a) b
    rw [ih p.2, and_assoc]

/-- The parts of a result of the instrumented loop, by the path taken through its body. -/
theorem importsLoopTrace_cons (w : World)
    (recurT : ReviewpadFile → LoadEnv → Outcome (ReviewpadFile × LoadEnv) × EnvTrace)
    (imp : PadImport) (rest : List PadImport) (file : ReviewpadFile) (env : LoadEnv) :
    (∃ err, loadImport w imp = .error err ∧
      importsLoopTrace w recurT (imp :: rest) file env = (some (.error err), [])) ∨
    (∃ iFile h, loadImport w imp = .ok (iFile, h) ∧ h ∈ env.Stack ∧
      importsLoopTrace w recurT (imp :: rest) file env =
        (some (.error "loader: cyclic dependency"), [])) ∨
    (∃ iFile h, loadImport w imp = .ok (iFile, h) ∧ h ∉ env.Stack ∧ h ∈ env.Visited ∧
      importsLoopTrace w recurT (imp :: rest) file env =
        importsLoopTrace w recurT rest file env) ∨
    (∃ iFile h, loadImport w imp = .ok (iFile, h) ∧ h ∉ env.Stack ∧ h ∉ env.Visited ∧
      ((∃ o tr, recurT iFile ⟨setKey env.Visited h, setKey env.Stack h⟩ = (o, tr) ∧
          (∀ q, o ≠ some (.ok q)) ∧
          importsLoopTrace w recurT (imp :: rest) file env =
            (o, [(EnvWrite.stackSet, ⟨env.Visited, setKey env.Stack h⟩),
                 (EnvWrite.visitedSet, ⟨setKey env.Visited h, setKey env.Stack h⟩)] ++ tr)) ∨
       (∃ sub env2 tr, recurT iFile ⟨setKey env.Visited h, setKey env.Stack h⟩ =
            (some (.ok (sub, env2)), tr) ∧
          importsLoopTrace w recurT (imp :: rest) file env =
            ((importsLoopTrace w recurT rest (mergeSub file sub)
                ⟨env2.Visited, deleteKey env2.Stack h⟩).1,
              [(EnvWrite.stackSet, ⟨env.Visited, setKey env.Stack h⟩),
               (EnvWrite.visitedSet, ⟨setKey env.Visited h, setKey env.Stack h⟩)] ++ tr ++
              (EnvWrite.stackDelete, ⟨env2.Visited, deleteKey env2.Stack h⟩) ::
                (importsLoopTrace w recurT rest (mergeSub file sub)
                  ⟨env2.Visited, deleteKey env2.Stack h⟩).2)))) := by
  generalize hX : importsLoopTrace w recurT (imp :: rest) file env = X
  rw [importsLoopTrace] at hX
  cases hl : loadImport w imp with
  | error e =>
    rw [hl] at hX
    exact Or.inl ⟨e, rfl, hX.symm⟩
  | ok p =>
    obtain ⟨iFile, idHash⟩ := p
    rw [hl] at hX
    simp only [] at hX
    by_cases hs : idHash ∈ env.Stack
    · rw [if_pos hs] at hX
      exact Or.inr (Or.inl ⟨iFile, idHash, rfl, hs, hX.symm⟩)
    · rw [if_neg hs] at hX
      by_cases hv : idHash ∈ env.Visited
      · rw [if_pos hv] at hX
        exact Or.inr (Or.inr (Or.inl ⟨iFile, idHash, rfl, hs, hv, hX.symm⟩))
      · rw [if_neg hv] at hX
        refine Or.inr (Or.inr (Or.inr ⟨iFile, idHash, rfl, hs, hv, ?_⟩))
        cases hr : recurT iFile ⟨setKey env.Visited idHash, setKey env.Stack idHash⟩ with
        | mk o tr =>
          rw [hr] at hX
          cases o with
          | none => exact Or.inl ⟨none, tr, rfl, (fun q hq => by cases hq), hX.symm⟩
          | some r =>
            cases r with
            | error e =>
              exact Or.inl ⟨some (.error e), tr, rfl, (fun q hq => by cases hq), hX.symm⟩
            | ok q =>
              obtain ⟨sub, env2⟩ := q
              exact Or.inr ⟨sub, env2, tr, rfl, hX.symm⟩

theorem pointOk_stackSet {env : LoadEnv} {h : String} (hv : h ∉ env.Visited)
    (hinv : StackVisited env) :
    PointOk (EnvWrite.stackSet, ⟨env.Visited, setKey env.Stack h⟩) := by
  refine ⟨fun hne => absurd rfl hne, fun _ => ⟨h, mem_setKey.2 (Or.inl rfl), hv, ?_⟩⟩
  intro x hx hne
  rcases mem_setKey.1 hx with e | hx
  · exact absurd e hne
  · exact hinv x hx

theorem stackVisited_push {env : LoadEnv} {h : String} (hinv : StackVisited env) :
    StackVisited ⟨setKey env.Visited h, setKey env.Stack h⟩ := by
  intro x hx
  rcases mem_setKey.1 hx with e | hx
  · exact mem_setKey.2 (Or.inl e)
  · exact mem_setKey.2 (Or.inr (hinv x hx))

theorem stackVisited_pop {env : LoadEnv} {h : String} (hinv : StackVisited env) :
    StackVisited ⟨env.Visited, deleteKey env.Stack h⟩ :=
  fun x hx => hinv x (mem_deleteKey.1 hx).1

theorem importsLoopTrace_inv (w : World)
    (recurT : ReviewpadFile → LoadEnv → Outcome (ReviewpadFile × LoadEnv) × EnvTrace)
    (hrec : ∀ f e, TraceInv e (recurT f e)) :
    ∀ (imports : List PadImport) (file : ReviewpadFile) (env : LoadEnv),
      TraceInv env (importsLoopTrace w recurT imports file env) := by
  intro imports
  induction imports with
  | nil =>
    intro file env
    refine ⟨trivial, ?_, fun p hp => by cases hp⟩
    intro out env1 h
    simp only [importsLoopTrace, Option.some.injEq, Except.ok.injEq, Prod.mk.injEq] at h
    obtain ⟨-, rfl⟩ := h
    exact ⟨rfl, fun x hx => hx, fun hinv => hinv⟩
  | cons imp rest ih =>
    intro file env
    rcases importsLoopTrace_cons w recurT imp rest file env with
      ⟨err, -, hX⟩ | ⟨iFile, h, -, -, hX⟩ | ⟨iFile, h, -, -, -, hX⟩ |
      ⟨iFile, h, -, hs, hv, ⟨o, tr, hr, ho, hX⟩ | ⟨sub, env2, tr, hr, hX⟩⟩
    · rw [hX]
      exact ⟨trivial, fun out env1 h => (by cases h), fun p hp => (by cases hp)⟩
    · rw [hX]
      exact ⟨trivial, fun out env1 h => (by cases h), fun p hp => (by cases hp)⟩
    · rw [hX]
      exact ih file env
    · rw [hX]
      have hsub := hrec iFile ⟨setKey env.Visited h, setKey env.Stack h⟩
      rw [hr] at hsub
      refine ⟨⟨⟨h, rfl⟩, ⟨h, rfl⟩, hsub.1⟩,
        fun out env1 h1 => absurd h1 (ho (out, env1)), ?_⟩
      intro p hp
      simp only [List.cons_append, List.nil_append, List.mem_cons] at hp
      rcases hp with rfl | rfl | hp
      · exact ⟨fun x hx => hx, fun hinv => pointOk_stackSet hv hinv⟩
      · exact ⟨fun x hx => mem_setKey.2 (Or.inr hx),
          fun hinv => ⟨fun _ => stackVisited_push hinv, fun e => by cases e⟩⟩
      · obtain ⟨h1, h2⟩ := hsub.2.2 p hp
        exact ⟨fun x hx => h1 x (mem_setKey.2 (Or.inr hx)),
          fun hinv => h2 (stackVisited_push hinv)⟩
    · rw [hX]
      have hsub := hrec iFile ⟨setKey env.Visited h, setKey env.Stack h⟩
      rw [hr] at hsub
      obtain ⟨hlast, hvis, hstk⟩ := hsub.2.1 sub env2 rfl
      have hrest := ih (mergeSub file sub) ⟨env2.Visited, deleteKey env2.Stack h⟩
      have hvis0 : ∀ x ∈ env.Visited, x ∈ env2.Visited :=
        fun x hx => hvis x (mem_setKey.2 (Or.inr hx))
      refine ⟨?_, ?_, ?_⟩
      · rw [isTrace_append]
        refine ⟨⟨⟨h, rfl⟩, ⟨h, rfl⟩, hsub.1⟩, ?_, hrest.1⟩
        rw [lastEnv_append]
        show EnvWrite.relates EnvWrite.stackDelete
          (lastEnv ⟨setKey env.Visited h, setKey env.Stack h⟩ tr) _
        rw [← hlast]
        exact ⟨h, rfl⟩
      · intro out env1 h1
        obtain ⟨e1, e2, e3⟩ := hrest.2.1 out env1 h1
        refine ⟨?_, fun x hx => e2 x (hvis0 x hx),
          fun hinv => e3 (stackVisited_pop (hstk (stackVisited_push hinv)))⟩
        rw [lastEnv_append]
        exact e1
      · intro p hp
        simp only [List.cons_append, List.nil_append, List.mem_cons, List.mem_append] at hp
        rcases hp with rfl | rfl | hp | rfl | hp
        · exact ⟨fun x hx => hx, fun hinv => pointOk_stackSet hv hinv⟩
        · exact ⟨fun x hx => mem_setKey.2 (Or.inr hx),
            fun hinv => ⟨fun _ => stackVisited_push hinv, fun e => by cases e⟩⟩
        · obtain ⟨h1, h2⟩ := hsub.2.2 p hp
          exact ⟨fun x hx => h1 x (mem_setKey.2 (Or.inr hx)),
            fun hinv => h2 (stackVisited_push hinv)⟩
        · exact ⟨hvis0, fun hinv =>
            ⟨fun _ => stackVisited_pop (hstk (stackVisited_push hinv)), fun e => by cases e⟩⟩
        · obtain ⟨h1, h2⟩ := hrest.2.2 p hp
          exact ⟨fun x hx => h1 x (hvis0 x hx),
            fun hinv => h2 (stackVisited_pop (hstk (stackVisited_push hinv)))⟩

theorem processImportsTrace_inv (w : World) :
    ∀ (n : Nat) (file : ReviewpadFile) (env : LoadEnv),
      TraceInv env (processImportsTrace w n file env) := by
  intro n
  induction n with
  | zero =>
    intro file env
    exact ⟨trivial, fun out env1 h => (by cases h), fun p hp => (by cases hp)⟩
  | succ n ih =>
    intro file env
    have h := importsLoopTrace_inv w (processImportsTrace w n) ih file.Imports file env
    rw [processImportsTrace]
    cases hr : importsLoopTrace w (processImportsTrace w n) file.Imports file env with
    | mk o tr =>
      rw [hr] at h
      cases o with
      | none => exact ⟨h.1, fun out env1 h1 => (by cases h1), h.2.2⟩
      | some r =>
        cases r with
        | error e => exact ⟨h.1, fun out env1 h1 => (by cases h1), h.2.2⟩
        | ok q =>
          obtain ⟨file1, env1⟩ := q
          refine ⟨h.1, ?_, h.2.2⟩
          intro out env1' h1
          simp only [Option.some.injEq, Except.ok.injEq, Prod.mk.injEq] at h1
          obtain ⟨-, rfl⟩ := h1
          exact h.2.1 file1 env1 rfl

/-- Counterexample to C13 as stated: import resolution of the diamond, started as `Load`
starts it, succeeds; its first write is the assignment to `Stack` of the push of B, and in
the environment after it the stack, which holds B and the root, is not part of the visited
set, which still holds the root alone. -/
theorem loadEnv_invariant_counterexample :
    (∃ out env1,
      processImports demoWorld 3 (demoFile "a" ["https://host/b", "https://host/c"] ["ruleA"])
        ⟨[hash demoWorld [1]], [hash demoWorld [1]]⟩ = some (.ok (out, env1))) ∧
    ∃ p ∈ (processImportsTrace demoWorld 3
        (demoFile "a" ["https://host/b", "https://host/c"] ["ruleA"])
        ⟨[hash demoWorld [1]], [hash demoWorld [1]]⟩).2,
      p = (EnvWrite.stackSet,
        ⟨[hash demoWorld [1]], [hash demoWorld [2], hash demoWorld [1]]⟩) ∧
      ¬ ∀ x ∈ p.2.Stack, x ∈ p.2.Visited :=
  ⟨⟨_, _, rfl⟩, _, List.mem_of_mem_head? rfl, rfl, by decide⟩

/-- Amended C13: a call of `processImports` that returns successfully leaves the stack as
it found it and only adds to the visited set, which holds the hashes visited at the start
after every write of the run; the instrumented function returns the same result, its
trace is a sequence of single writes that starts in the environment of the call, and the
environment returned is the one after the last write. When the stack is part of the
visited set at the start of the call, it is so at its end and after every write of the run
other than the assignment to `Stack` of a push: after that assignment, and until the
assignment to `Visited` that follows it, the pushed hash is on the stack without being
visited, the rest of the stack being part of the visited set. So it is in the run started
by `Load`, where both sets hold the root hash at the start. -/
theorem loadEnv_invariant (w : World) (n : Nat) (file : ReviewpadFile) (env : LoadEnv)
    (out : ReviewpadFile) (env1 : LoadEnv)
    (h : processImports w n file env = some (.ok (out, env1))) :
    (processImportsTrace w n file env).1 = some (.ok (out, env1)) ∧
    IsTrace env (processImportsTrace w n file env).2 ∧
    env1 = lastEnv env (processImportsTrace w n file env).2 ∧
    env1.Stack = env.Stack ∧
    (∀ x ∈ env.Visited, x ∈ env1.Visited) ∧
    (∀ p ∈ (processImportsTrace w n file env).2, ∀ x ∈ env.Visited, x ∈ p.2.Visited) ∧
    ((∀ x ∈ env.Stack, x ∈ env.Visited) →
      (∀ x ∈ env1.Stack, x ∈ env1.Visited) ∧
      ∀ p ∈ (processImportsTrace w n file env).2,
        (p.1 ≠ EnvWrite.stackSet → ∀ x ∈ p.2.Stack, x ∈ p.2.Visited) ∧
        (p.1 = EnvWrite.stackSet → ∃ h, h ∈ p.2.Stack ∧ h ∉ p.2.Visited ∧
          ∀ x ∈ p.2.Stack, x ≠ h → x ∈ p.2.Visited)) ∧
    (∀ (data : Bytes) (file0 : ReviewpadFile) (m : Nat),
      ∀ p ∈ (processImportsTrace w m file0
          ⟨setKey [] (hash w data), setKey [] (hash w data)⟩).2,
        p.1 ≠ EnvWrite.stackSet → ∀ x ∈ p.2.Stack, x ∈ p.2.Visited) := by
  have ht : (processImportsTrace w n file env).1 = some (.ok (out, env1)) := by
    rw [processImportsTrace_fst, h]
  obtain ⟨out0, hrun, -⟩ := processImports_ok_run h
  obtain ⟨hstk, hvis⟩ := hrun.env_ok _ _ rfl
  have hinv := processImportsTrace_inv w n file env
  obtain ⟨hlast, -, hsv⟩ := hinv.2.1 out env1 ht
  exact ⟨ht, hinv.1, hlast, hstk, hvis, fun p hp => (hinv.2.2 p hp).1,
    fun h0 => ⟨hsv h0, fun p hp => (hinv.2.2 p hp).2 h0⟩,
    fun data file0 m p hp =>
      (((processImportsTrace_inv w m file0 _).2.2 p hp).2 (fun _ hx => hx)).1⟩

/-- Witness of the amended C13: import resolution of the diamond makes nine writes, the
pushes of B, D and C, of two writes each, and their pops; D, visited when C imports it, is
not pushed again. -/
theorem loadEnv_invariant_witness :
    ∃ out env1,
      processImports demoWorld 3 (demoFile "a" ["https://host/b", "https://host/c"] ["ruleA"])
        ⟨[hash demoWorld [1]], [hash demoWorld [1]]⟩ = some (.ok (out, env1)) ∧
      env1.Stack = [hash demoWorld [1]] ∧
      env1.Visited =
        [hash demoWorld [3], hash demoWorld [4], hash demoWorld [2], hash demoWorld [1]] ∧
      (processImportsTrace demoWorld 3
        (demoFile "a" ["https://host/b", "https://host/c"] ["ruleA"])
        ⟨[hash demoWorld [1]], [hash demoWorld [1]]⟩).2.map Prod.fst =
        [EnvWrite.stackSet, EnvWrite.visitedSet, EnvWrite.stackSet, EnvWrite.visitedSet,
         EnvWrite.stackDelete, EnvWrite.stackDelete, EnvWrite.stackSet, EnvWrite.visitedSet,
         EnvWrite.stackDelete] ∧
      ∀ p ∈ (processImportsTrace demoWorld 3
          (demoFile "a" ["https://host/b", "https://host/c"] ["ruleA"])
          ⟨[hash demoWorld [1]], [hash demoWorld [1]]⟩).2,
        p.1 ≠ EnvWrite.stackSet → ∀ x ∈ p.2.Stack, x ∈ p.2.Visited :=
  ⟨_, _, rfl, rfl, rfl, rfl, fun p hp =>
    (((loadEnv_invariant demoWorld 3
      (demoFile "a" ["https://host/b", "https://host/c"] ["ruleA"])
      ⟨[hash demoWorld [1]], [hash demoWorld [1]]⟩ _ _ rfl).2.2.2.2.2.2.1
      (fun _ hx => hx)).2 p hp).1⟩

theorem importsLoopTrace_error (w : World) (root : Bytes) (hall : AllLoadsSucceed w root)
    (recurT : ReviewpadFile → LoadEnv → Outcome (ReviewpadFile × LoadEnv) × EnvTrace)
    (hrec : ∀ d f e err, Reach w root d → parse w d = .ok f →
      (recurT f e).1 = some (.error err) → CycleOnStack w root e (recurT f e).2 err) :
    ∀ (imports : List PadImport) (file : ReviewpadFile) (env : LoadEnv) (d : Bytes)
      (f : ReviewpadFile), Reach w root d → parse w d = .ok f →
      (∀ imp ∈ imports, imp ∈ f.Imports) →
      ∀ err, (importsLoopTrace w recurT imports file env).1 = some (.error err) →
        CycleOnStack w root env (importsLoopTrace w recurT imports file env).2 err := by
  intro imports
  induction imports with
  | nil =>
    intro file env d f _ _ _ err h
    simp [importsLoopTrace] at h
  | cons imp rest ih =>
    intro file env d f hd hpf hsub err herr
    have himp : imp ∈ f.Imports := hsub imp (List.mem_cons_self _ _)
    have hrest : ∀ i ∈ rest, i ∈ f.Imports := fun i hi => hsub i (List.mem_cons_of_mem _ hi)
    rcases importsLoopTrace_cons w recurT imp rest file env with
      ⟨e, hl, hX⟩ | ⟨iFile, h, hl, hs, hX⟩ | ⟨iFile, h, -, -, -, hX⟩ |
      ⟨iFile, h, hl, hs, hv, ⟨o, tr, hr, ho, hX⟩ | ⟨sub, env2, tr, hr, hX⟩⟩
    · exfalso
      obtain ⟨f1, hpf1, hfetch⟩ := hall d hd
      have ef : f1 = f := by
        rw [hpf] at hpf1
        exact (Except.ok.inj hpf1).symm
      subst ef
      obtain ⟨c, hg⟩ := hfetch imp himp
      have hc : Reach w root c := Relation.ReflTransGen.tail hd ⟨f1, hpf, imp, himp, hg⟩
      obtain ⟨fc, hpc, -⟩ := hall c hc
      simp [loadImport, hg, hpc] at hl
    · rw [hX] at herr ⊢
      simp only [Option.some.injEq, Except.error.injEq] at herr
      exact ⟨herr.symm, d, f, imp, iFile, h, hd, hpf, himp, hl, hs⟩
    · rw [hX] at herr ⊢
      exact ih file env d f hd hpf hrest err herr
    · rw [hX] at herr ⊢
      simp only at herr
      subst herr
      obtain ⟨c, hg, hp, rfl⟩ := loadImport_ok hl
      have hc : Reach w root c := Relation.ReflTransGen.tail hd ⟨f, hpf, imp, himp, hg⟩
      have hsubr := hrec c iFile ⟨setKey env.Visited (hash w c), setKey env.Stack (hash w c)⟩
        err hc hp (by rw [hr])
      rw [hr] at hsubr
      obtain ⟨he, d1, f1, imp1, iFile1, h1, hd1, hp1, hi1, hl1, hs1⟩ := hsubr
      refine ⟨he, d1, f1, imp1, iFile1, h1, hd1, hp1, hi1, hl1, ?_⟩
      rw [lastEnv_append]
      exact hs1
    · rw [hX] at herr ⊢
      simp only at herr
      obtain ⟨he, d1, f1, imp1, iFile1, h1, hd1, hp1, hi1, hl1, hs1⟩ :=
        ih (mergeSub file sub) ⟨env2.Visited, deleteKey env2.Stack h⟩ d f hd hpf hrest err herr
      refine ⟨he, d1, f1, imp1, iFile1, h1, hd1, hp1, hi1, hl1, ?_⟩
      rw [lastEnv_append]
      exact hs1

theorem processImportsTrace_error (w : World) (root : Bytes) (hall : AllLoadsSucceed w root) :
    ∀ (n : Nat) (d : Bytes) (f : ReviewpadFile) (env : LoadEnv) (err : String),
      Reach w root d → parse w d = .ok f →
      (processImportsTrace w n f env).1 = some (.error err) →
      CycleOnStack w root env (processImportsTrace w n f env).2 err := by
  intro n
  induction n with
  | zero => intro d f env err _ _ h; cases h
  | succ n ih =>
    intro d f env err hd hpf herr
    have h := importsLoopTrace_error w root hall (processImportsTrace w n) ih
      f.Imports f env d f hd hpf (fun _ hi => hi) err
    have key : (processImportsTrace w (n + 1) f env).2 =
          (importsLoopTrace w (processImportsTrace w n) f.Imports f env).2 ∧
        ((processImportsTrace w (n + 1) f env).1 = some (.error err) →
          (importsLoopTrace w (processImportsTrace w n) f.Imports f env).1 =
            some (.error err)) := by
      rw [processImportsTrace]
      cases importsLoopTrace w (processImportsTrace w n) f.Imports f env with
      | mk o tr =>
        cases o with
        | none => exact ⟨rfl, fun h1 => h1⟩
        | some r =>
          cases r with
          | error e => exact ⟨rfl, fun h1 => h1⟩
          | ok q => exact ⟨rfl, fun h1 => (by cases h1)⟩
    rw [key.1]
    exact h (key.2 herr)

/-- C2: when all loads succeed and the import graph reachable from the root is acyclic,
`processImports` started as in `Load` succeeds, for every fuel of at least `256 ^ 32`, the
number of digests, and already for every fuel of at least the length of any list `U` that
holds the hashes of the reachable documents; and whenever it fails, whatever the graph, it
fails with the cyclic-dependency error, the graph has a cycle, and the error is raised for
an import of a reachable document whose fetched content has its hash on the stack of the
environment in which the run ends. -/
theorem cycle_detection_no_false_alarm (w : World) (data : Bytes)
    (file0 : ReviewpadFile) (hp : parse w data = .ok file0) (hall : AllLoadsSucceed w data) :
    (¬ HasCycle w data →
      (∀ n, 256 ^ 32 ≤ n → ∃ out env1,
        processImports w n file0 ⟨[hash w data], [hash w data]⟩ = some (.ok (out, env1))) ∧
      (∀ U : List String, (∀ c, Reach w data c → hash w c ∈ U) →
        ∀ n, U.length ≤ n → ∃ out env1,
          processImports w n file0 ⟨[hash w data], [hash w data]⟩ = some (.ok (out, env1)))) ∧
    (∀ n err, processImports w n file0 ⟨[hash w data], [hash w data]⟩ = some (.error err) →
        err = "loader: cyclic dependency" ∧ HasCycle w data ∧
        ∃ d f imp iFile h, Reach w data d ∧ parse w d = .ok f ∧ imp ∈ f.Imports ∧
          loadImport w imp = .ok (iFile, h) ∧
          h ∈ (lastEnv ⟨[hash w data], [hash w data]⟩
            (processImportsTrace w n file0 ⟨[hash w data], [hash w data]⟩).2).Stack) := by
  refine ⟨fun hac => ⟨?_, fun U hfin => processImports_ok_of_bound hp hall hfin hac⟩, ?_⟩
  · obtain ⟨U, hlen, hU⟩ := hash_finite w
    intro n hn
    exact processImports_ok_of_bound hp hall (fun c _ => hU c) hac n (hlen ▸ hn)
  · intro n err h
    obtain ⟨he, hcyc⟩ := processImports_error_cycle hp hall h
    refine ⟨he, hcyc, ?_⟩
    exact (processImportsTrace_error w data hall n data file0 _ err Relation.ReflTransGen.refl
      hp (by rw [processImportsTrace_fst, h])).2

/-- Witness of C2: the diamond is acyclic and its imports resolve; in the cycle X→Y→X the
resolution of the imports fails when Y imports X, whose hash is on the stack. -/
theorem cycle_detection_no_false_alarm_witness :
    (¬ HasCycle demoWorld [1] ∧ ∀ n, 4 ≤ n → ∃ out env1,
      processImports demoWorld n (demoFile "a" ["https://host/b", "https://host/c"] ["ruleA"])
        ⟨[hash demoWorld [1]], [hash demoWorld [1]]⟩ = some (.ok (out, env1))) ∧
    (processImports demoWorld 2 (demoFile "x" ["https://host/y"] ["ruleX"])
        ⟨[hash demoWorld [5]], [hash demoWorld [5]]⟩ =
        some (.error "loader: cyclic dependency") ∧
      (lastEnv ⟨[hash demoWorld [5]], [hash demoWorld [5]]⟩
        (processImportsTrace demoWorld 2 (demoFile "x" ["https://host/y"] ["ruleX"])
          ⟨[hash demoWorld [5]], [hash demoWorld [5]]⟩).2).Stack =
        [hash demoWorld [6], hash demoWorld [5]] ∧
      HasCycle demoWorld [5]) :=
  ⟨⟨demo_diamond_acyclic,
    ((cycle_detection_no_false_alarm demoWorld [1] _ rfl
      (allLoadsSucceed_of_check diamondDocs (by decide) diamond_closed (by decide))).1
      demo_diamond_acyclic).2 (diamondDocs.map (hash demoWorld))
      (finiteHashes_of_check diamondDocs (by decide) diamond_closed)⟩,
    rfl, rfl,
    ((cycle_detection_no_false_alarm demoWorld [5] _ rfl
      (allLoadsSucceed_of_check cycleDocs (by decide) cycle_closed (by decide))).2
      2 _ rfl).2.1⟩

/-- C18 fails on the code: a raw list that names the same absent rule twice materialises
the rule twice, because `processInlineRulesOnWorkflow` looks the name up among the rules
of the document only, not among the rules it has materialised so far. -/
theorem inline_rule_materialized_twice :
    (twiceFile.Rules.map PadRule.Name).Nodup ∧
    ∃ out, processInlineRules demoDecode twiceFile = .ok out ∧
      out.Rules.map PadRule.Name = ["$isDraft()", "$isDraft()"] ∧
      ¬ (out.Rules.map PadRule.Name).Nodup :=
  ⟨by decide, _, rfl, by decide, by decide⟩

/-- C19 fails on the code for pipelines: `processInlineRules` returns a document without
pipelines, whatever the input; the version, edition, mode, ignore-errors flag, imports,
groups and labels are those of the input. -/
theorem normalization_drops_pipelines :
    (∃ out, processInlineRules demoDecode pipelineFile = .ok out ∧
      pipelineFile.Pipelines.length = 1 ∧ out.Pipelines = []) ∧
    ∀ (decode : List (String × RawValue) → Except String PadWorkflowRule)
      (file out : ReviewpadFile), processInlineRules decode file = .ok out →
      out.Pipelines = [] ∧ out.Version = file.Version ∧ out.Edition = file.Edition ∧
      out.Mode = file.Mode ∧ out.IgnoreErrors = file.IgnoreErrors ∧
      out.Imports = file.Imports ∧ out.Groups = file.Groups ∧ out.Labels = file.Labels := by
  refine ⟨⟨_, rfl, rfl, rfl⟩, ?_⟩
  intro decode file out h
  obtain ⟨workflows, rules, -, hout⟩ := processInlineRules_ok h
  rw [hout]
  exact ⟨rfl, rfl, rfl, rfl, rfl, rfl, rfl, rfl⟩

/-- C20: when the hashes of the reachable documents all lie in the finite list `U`,
`processImports` started as in `Load` returns for every fuel of at least `U.length`, so
its recursion is at most `U.length` deep; from any environment it returns once the fuel
exceeds the number of hashes of `U` not yet visited; and every descent, which pushes a
hash that was not visited, makes that number strictly smaller. -/
theorem import_resolution_terminates (w : World) (data : Bytes) (U : List String)
    (file0 : ReviewpadFile) (hp : parse w data = .ok file0)
    (hfin : ∀ c, Reach w data c → hash w c ∈ U) :
    (∀ n, U.length ≤ n →
      ∃ r, processImports w n file0 ⟨[hash w data], [hash w data]⟩ = some r) ∧
    (∀ (n : Nat) (file : ReviewpadFile) (env : LoadEnv),
      (∀ imp ∈ file.Imports, ∀ c, w.httpGet imp.Url = .ok c → Reach w data c) →
      unvisited U env < n → ∃ r, processImports w n file env = some r) ∧
    (∀ (env : LoadEnv) (c : Bytes), Reach w data c → hash w c ∉ env.Visited →
      unvisited U (pushEnv env (hash w c)) < unvisited U env) := by
  refine ⟨?_, processImports_returns w data U hfin, ?_⟩
  · intro n hn
    exact processImports_returns w data U hfin n file0 _ (root_imports_reach hp)
      (lt_of_lt_of_le (unvisited_init (hfin data Relation.ReflTransGen.refl)) hn)
  · intro env c hc hv
    exact unvisited_push (hfin c hc) hv

/-- Witness of C20: the four documents of the diamond; fuel 4 suffices. -/
theorem import_resolution_terminates_witness :
    ∃ r,
      processImports demoWorld 4 (demoFile "a" ["https://host/b", "https://host/c"] ["ruleA"])
        ⟨[hash demoWorld [1]], [hash demoWorld [1]]⟩ = some r :=
  (import_resolution_terminates demoWorld [1] (diamondDocs.map (hash demoWorld)) _ rfl
    (finiteHashes_of_check diamondDocs (by decide) diamond_closed)).1 4 (by decide)

namespace Aladino

/-- C14: `descriptionCode` returns the string value of the description when the host call
succeeds, and exactly the host error, without a value, when it fails. -/
theorem description_propagates_host_error (e : Env) (args : List Value) :
    (∀ d, e.Target.GetDescription = .ok d →
      descriptionCode e args = .ok (BuildStringValue d)) ∧
    (∀ err, e.Target.GetDescription = .error err → descriptionCode e args = .error err) := by
  constructor
  · intro d h
    simp [descriptionCode, h]
  · intro err h
    simp [descriptionCode, h]

/-- Witness of C14: a target with a description and a target whose host call fails. -/
theorem description_propagates_host_error_witness :
    descriptionCode (demoEnv (.ok "Fixes the loader")) [] =
      .ok (BuildStringValue "Fixes the loader") ∧
    descriptionCode (demoEnv (.error "401 Bad credentials")) [] =
      .error "401 Bad credentials" :=
  ⟨(description_propagates_host_error (demoEnv (.ok "Fixes the loader")) []).1 _ rfl,
    (description_propagates_host_error (demoEnv (.error "401 Bad credentials")) []).2 _ rfl⟩

theorem lookup_append_of_none {α : Type} (m : List (String × α)) (k : String) (v : α)
    (h : m.lookup k = none) : (m ++ [(k, v)]).lookup k = some v := by
  induction m with
  | nil => simp [List.lookup]
  | cons e m ih =>
    obtain ⟨k1, v1⟩ := e
    rw [List.cons_append]
    by_cases hk : k = k1
    · subst hk
      simp [List.lookup] at h
    · have hb : (k == k1) = false := by simpa using hk
      simp only [List.lookup, hb] at h ⊢
      exact ih h

theorem lookup_append_other {α : Type} (m : List (String × α)) (k k1 : String) (v : α)
    (hk : k1 ≠ k) : (m ++ [(k, v)]).lookup k1 = m.lookup k1 := by
  induction m with
  | nil =>
    have hb : (k1 == k) = false := by simpa using hk
    simp [List.lookup, hb]
  | cons e m ih =>
    obtain ⟨k2, v2⟩ := e
    rw [List.cons_append]
    by_cases h2 : k1 = k2
    · subst h2
      simp [List.lookup]
    · have hb : (k1 == k2) = false := by simpa using h2
      simp only [List.lookup, hb]
      exact ih

theorem lookup_replace {α : Type} (m : List (String × α)) (k : String) (v : α)
    (h : (m.lookup k).isSome) :
    (m.map (fun e => if e.1 = k then (k, v) else e)).lookup k = some v := by
  induction m with
  | nil => simp [List.lookup] at h
  | cons e m ih =>
    obtain ⟨k1, v1⟩ := e
    by_cases hk : k1 = k
    · subst hk
      rw [List.map_cons]
      have e1 : (if (k1, v1).1 = k1 then (k1, v) else (k1, v1)) = (k1, v) := if_pos rfl
      rw [e1]
      simp [List.lookup]
    · have hb : (k == k1) = false := by simpa using fun e => hk e.symm
      simp only [List.lookup, hb] at h
      rw [List.map_cons]
      have e1 : (if (k1, v1).1 = k then (k, v) else (k1, v1)) = (k1, v1) := if_neg hk
      rw [e1]
      simp only [List.lookup, hb]
      exact ih h

theorem lookup_replace_other {α : Type} (m : List (String × α)) (k k1 : String) (v : α)
    (hk : k1 ≠ k) :
    (m.map (fun e => if e.1 = k then (k, v) else e)).lookup k1 = m.lookup k1 := by
  induction m with
  | nil => rfl
  | cons e m ih =>
    obtain ⟨k2, v2⟩ := e
    rw [List.map_cons]
    by_cases h2 : k2 = k
    · subst h2
      have hb : (k1 == k2) = false := by simpa using hk
      have e1 : (if (k2, v2).1 = k2 then (k2, v) else (k2, v2)) = (k2, v) := if_pos rfl
      rw [e1]
      simp only [List.lookup, hb]
      exact ih
    · have e1 : (if (k2, v2).1 = k then (k, v) else (k2, v2)) = (k2, v2) := if_neg h2
      rw [e1]
      by_cases h3 : k1 = k2
      · subst h3
        simp [List.lookup]
      · have hb : (k1 == k2) = false := by simpa using h3
        simp only [List.lookup, hb]
        exact ih

theorem lookup_mapPut {α : Type} (m : List (String × α)) (k : String) (v : α) :
    (mapPut m k v).lookup k = some v := by
  unfold mapPut
  by_cases h : (m.lookup k).isSome
  · simp only [h, if_true]
    exact lookup_replace m k v h
  · simp only [h]
    apply lookup_append_of_none
    cases hl : m.lookup k with
    | none => rfl
    | some x => simp [hl] at h

theorem lookup_mapPut_other {α : Type} (m : List (String × α)) (k k1 : String) (v : α)
    (hk : k1 ≠ k) : (mapPut m k v).lookup k1 = m.lookup k1 := by
  unfold mapPut
  by_cases h : (m.lookup k).isSome
  · simp only [h, if_true]
    exact lookup_replace_other m k k1 v hk
  · simp only [h]
    exact lookup_append_other m k k1 v hk

theorem lookup_foldl_mapPut_keep (rs : List PadWorkflowRule) :
    ∀ (m : List (String × Bool)) (k : String), m.lookup k = some true →
      (rs.foldl (fun m r => mapPut m r.Rule true) m).lookup k = some true := by
  induction rs with
  | nil => intro m k h; exact h
  | cons r rs ih =>
    intro m k h
    rw [List.foldl_cons]
    apply ih
    by_cases hk : k = r.Rule
    · rw [hk]
      exact lookup_mapPut _ _ _
    · rw [lookup_mapPut_other _ _ _ _ hk]
      exact h

theorem lookup_foldl_mapPut (rs : List PadWorkflowRule) :
    ∀ (m : List (String × Bool)), ∀ r ∈ rs,
      (rs.foldl (fun m r => mapPut m r.Rule true) m).lookup r.Rule = some true := by
  induction rs with
  | nil => intro m r hr; cases hr
  | cons r0 rs ih =>
    intro m r hr
    rw [List.foldl_cons]
    rcases List.mem_cons.1 hr with rfl | hr
    · exact lookup_foldl_mapPut_keep rs _ _ (lookup_mapPut _ _ _)
    · exact ih _ r hr

/-- The entry of the statement's workflow after the report update. -/
theorem addToReport_lookup (report : Report) (statement : Statement) :
    ∃ d, (addToReport report statement).WorkflowDetails.lookup statement.Metadata.Workflow.Name
        = some d ∧
      d.Name = statement.Metadata.Workflow.Name ∧
      (∀ r ∈ statement.Metadata.TriggeredBy, d.Rules.lookup r.Rule = some true) ∧
      d.Actions =
        (match report.WorkflowDetails.lookup statement.Metadata.Workflow.Name with
          | some d0 => d0.Actions
          | none => []) ++ [statement.Code] := by
  refine ⟨_, lookup_mapPut _ _ _, rfl, ?_, ?_⟩
  · intro r hr
    exact lookup_foldl_mapPut _ _ r hr
  · cases report.WorkflowDetails.lookup statement.Metadata.Workflow.Name <;> rfl

theorem addToReport_ne (report : Report) (statement : Statement) :
    addToReport report statement ≠ report := by
  intro h
  obtain ⟨d, hd, -, -, ha⟩ := addToReport_lookup report statement
  rw [h] at hd
  rw [hd] at ha
  have := congrArg List.length ha
  simp at this


theorem execStatements_single_ok {g : Grammar} {b : BuiltIns} {host : Host} {env env1 : Env}
    {statement : Statement} {k : Nat} (ig : Bool)
    (h : (ExecStatement g b host env statement k).1 = .ok env1) :
    ExecProgram g b host ig env ⟨[statement]⟩ k = (env1, []) := by
  simp [ExecProgram, execStatements, h]

theorem execStatements_single_error {g : Grammar} {b : BuiltIns} {host : Host} {env : Env}
    {statement : Statement} {err : String} {k : Nat} (ig : Bool)
    (h : (ExecStatement g b host env statement k).1 = .error err) :
    ExecProgram g b host ig env ⟨[statement]⟩ k = (env, [err]) := by
  cases ig <;> simp [ExecProgram, execStatements, h]

theorem ExecStatement_report {g : Grammar} {b : BuiltIns} {host : Host} {env env1 : Env}
    {statement : Statement} {k : Nat}
    (h : (ExecStatement g b host env statement k).1 = .ok env1) :
    env1.Report = addToReport env.Report statement := by
  unfold ExecStatement at h
  cases hp : Parse g statement.Code with
  | error e => simp [hp] at h
  | ok ast =>
    simp only [hp] at h
    cases ht : typeCheckExec (typeEnv b) ast with
    | error e => simp [ht] at h
    | ok u =>
      simp only [ht] at h
      cases he : (execAction b host env ast k).1 with
      | error e => simp [he] at h
      | ok u1 =>
        simp only [he, Except.ok.injEq] at h
        rw [← h]

/-- C15: when a statement succeeds, the report afterwards has an entry under the name of
the statement's workflow, with that name, with every triggering rule mapped to `true`, and
with the statement's code appended to the actions; when it fails, the program returns the
error and the report is left as it was; so a program of one statement succeeds exactly
when the report has been updated for it. This holds whatever the host answers and
wherever in a run the statement is executed. -/
theorem exec_statement_report (g : Grammar) (b : BuiltIns) (host : Host) (ignoreErrors : Bool)
    (env : Env) (statement : Statement) (k : Nat) :
    (∀ env1, (ExecStatement g b host env statement k).1 = .ok env1 →
      ExecProgram g b host ignoreErrors env ⟨[statement]⟩ k = (env1, []) ∧
      ∃ d, env1.Report.WorkflowDetails.lookup statement.Metadata.Workflow.Name = some d ∧
        d.Name = statement.Metadata.Workflow.Name ∧
        (∀ r ∈ statement.Metadata.TriggeredBy, d.Rules.lookup r.Rule = some true) ∧
        d.Actions =
          (match env.Report.WorkflowDetails.lookup statement.Metadata.Workflow.Name with
            | some d0 => d0.Actions
            | none => []) ++ [statement.Code]) ∧
    (∀ err, (ExecStatement g b host env statement k).1 = .error err →
      (ExecProgram g b host ignoreErrors env ⟨[statement]⟩ k).2 = [err] ∧
      (ExecProgram g b host ignoreErrors env ⟨[statement]⟩ k).1.Report = env.Report) ∧
    ((ExecProgram g b host ignoreErrors env ⟨[statement]⟩ k).2 = [] ↔
      (ExecProgram g b host ignoreErrors env ⟨[statement]⟩ k).1.Report =
        addToReport env.Report statement) := by
  refine ⟨?_, ?_, ?_⟩
  · intro env1 h
    refine ⟨execStatements_single_ok ignoreErrors h, ?_⟩
    rw [ExecStatement_report h]
    exact addToReport_lookup env.Report statement
  · intro err h
    rw [execStatements_single_error ignoreErrors h]
    exact ⟨rfl, rfl⟩
  · cases h : (ExecStatement g b host env statement k).1 with
    | ok env1 =>
      rw [execStatements_single_ok ignoreErrors h]
      simp [ExecStatement_report h]
    | error err =>
      rw [execStatements_single_error ignoreErrors h]
      simp only [List.cons_ne_nil, false_iff]
      exact fun e => addToReport_ne _ _ e.symm

/-- Witness of C15: the statement of `TestExecProgram` is recorded, and the statement
`$action()`, for which there is no built-in, fails and leaves the report empty. -/
theorem exec_statement_report_witness :
    (ExecProgram demoGrammar demoBuiltIns (demoHost []) false (demoEnv (.ok ""))
        ⟨[demoStatement]⟩ 0).1.Report =
      ⟨[("test", { Name := "test", Rules := [("testRule", true)],
                   Actions := ["$addLabel(\"test\")"] })]⟩ ∧
    (ExecProgram demoGrammar demoBuiltIns (demoHost []) false (demoEnv (.ok ""))
        ⟨[{ demoStatement with Code := "$action()" }]⟩ 0).2 =
      ["no type for built-in action. Please check if the mode in the reviewpad.yml file supports it."] ∧
    (ExecProgram demoGrammar demoBuiltIns (demoHost []) false (demoEnv (.ok ""))
        ⟨[{ demoStatement with Code := "$action()" }]⟩ 0).1.Report = ⟨[]⟩ :=
  ⟨by decide,
    ((exec_statement_report demoGrammar demoBuiltIns (demoHost []) false (demoEnv (.ok ""))
      { demoStatement with Code := "$action()" } 0).2.1 _ rfl).1,
    ((exec_statement_report demoGrammar demoBuiltIns (demoHost []) false (demoEnv (.ok ""))
      { demoStatement with Code := "$action()" } 0).2.1 _ rfl).2⟩

mutual
theorem AType.typeEquals_refl : ∀ t : AType, t.equals t = true
  | .StringType => by simp [AType.equals]
  | .IntType => by simp [AType.equals]
  | .BoolType => by simp [AType.equals]
  | .DynamicType => by simp [AType.equals]
  | .ArrayOfType a => by simp [AType.equals, AType.typeEquals_refl a]
  | .DictionaryType k v => by simp [AType.equals, AType.typeEquals_refl k, AType.typeEquals_refl v]
  | .FunctionType ps (some r) => by
    simp [AType.equals, AType.typeEqualsList_refl ps, AType.typeEquals_refl r]
  | .FunctionType ps none => by simp [AType.equals, AType.typeEqualsList_refl ps]
  | .LambdaType ps r => by simp [AType.equals, AType.typeEqualsList_refl ps, AType.typeEquals_refl r]
theorem AType.typeEqualsList_refl : ∀ ts : List AType, AType.equalsList ts ts = true
  | [] => by simp [AType.equalsList]
  | t :: ts => by simp [AType.equalsList, AType.typeEquals_refl t, AType.typeEqualsList_refl ts]
end

theorem unify_refl (t : AType) : unify t t = true := by
  simp [unify, AType.typeEquals_refl t]

mutual
theorem Value.equals_refl : ∀ v : Value, v.equals v = true
  | .IntValue a => by simp [Value.equals]
  | .StringValue a => by simp [Value.equals]
  | .BoolValue a => by simp [Value.equals]
  | .ArrayValue xs => by simp [Value.equals, Value.equalsList_refl xs]
  | .DictionaryValue xs => by
    simp [Value.equals, Value.subEntries_refl xs xs (fun e he => he)]
theorem Value.equalsList_refl : ∀ xs : List Value, Value.equalsList xs xs = true
  | [] => by simp [Value.equalsList]
  | x :: xs => by simp [Value.equalsList, Value.equals_refl x, Value.equalsList_refl xs]
theorem Value.subEntries_refl : ∀ (xs ys : List (String × Value)), (∀ e ∈ xs, e ∈ ys) →
    Value.subEntries xs ys = true
  | [], _, _ => by simp [Value.subEntries]
  | (k, v) :: xs, ys, h => by
    simp only [Value.subEntries, Bool.and_eq_true, List.any_eq_true]
    refine ⟨⟨(k, v), h _ (List.mem_cons_self _ _), ?_⟩,
      Value.subEntries_refl xs ys (fun e he => h e (List.mem_cons_of_mem _ he))⟩
    simp [Value.equals_refl v]
end

/-- The operands of a binary operation that contains no call contain none. -/
theorem callFree_binaryOp {lhs rhs : Expr} {op : BinaryOperator}
    (h : (Expr.BinaryOp lhs op rhs).callFree = true) :
    lhs.callFree = true ∧ rhs.callFree = true := by
  simpa [Expr.callFree] using h

mutual
/-- The value of an expression that invokes no host code, or that is evaluated against a
host that answers every call alike, does not depend on the number of calls made before. -/
theorem eval_stable (fs : List (String × BuiltInFunction)) (host : Host) (env : Env) :
    ∀ (x : Expr), (x.callFree = true ∨ ∀ i j, host i = host j) →
      ∀ k j, (eval fs host env x k).1 = (eval fs host env x j).1
  | .Variable x, _, k, j => by
    simp only [eval]
    cases env.RegisterMap.lookup x <;> rfl
  | .StringConst _, _, _, _ => rfl
  | .IntConst _, _, _, _ => rfl
  | .BoolConst _, _, _, _ => rfl
  | .Array elems, h, k, j => by
    have ih := evalList_stable fs host env elems
      (h.imp (fun hc => by simpa [Expr.callFree] using hc) id) k j
    simp only [eval]
    rw [ih]
    cases (evalList fs host env elems j).1 <;> rfl
  | .Dictionary entries, h, k, j => by
    have ih := evalEntries_stable fs host env entries
      (h.imp (fun hc => by simpa [Expr.callFree] using hc) id) k j
    simp only [eval]
    rw [ih]
    cases (evalEntries fs host env entries j).1 <;> rfl
  | .FunctionCall name arguments, h, k, j => by
    have hconst : ∀ i j, host i = host j := by
      rcases h with hc | hc
      · simp [Expr.callFree] at hc
      · exact hc
    have ih := evalList_stable fs host env arguments (Or.inr hconst) k j
    have hat : env.atCall host (evalList fs host env arguments k).2 =
        env.atCall host (evalList fs host env arguments j).2 := by
      simp only [Env.atCall, hconst (evalList fs host env arguments k).2
        (evalList fs host env arguments j).2]
    simp only [eval]
    rw [ih, hat]
    cases (evalList fs host env arguments j).1 with
    | error e => rfl
    | ok args =>
      cases name <;> try rfl
      simp only []
      split <;> rfl
  | .Lambda _ _, _, _, _ => rfl
  | .TypedExpr _ _, _, _, _ => rfl
  | .BinaryOp lhs op rhs, h, k, j => by
    have hl : lhs.callFree = true ∨ ∀ i j, host i = host j :=
      h.imp (fun hc => (callFree_binaryOp hc).1) id
    have hr : rhs.callFree = true ∨ ∀ i j, host i = host j :=
      h.imp (fun hc => (callFree_binaryOp hc).2) id
    have ihl := eval_stable fs host env lhs hl k j
    have ihr := eval_stable fs host env rhs hr (eval fs host env lhs k).2
      (eval fs host env lhs j).2
    simp only [eval]
    rw [ihl, ihr]
    cases (eval fs host env lhs j).1 with
    | error e => rfl
    | ok l =>
      cases op <;> simp only [] <;>
        first
        | (cases (eval fs host env rhs (eval fs host env lhs j).2).1 <;> rfl)
        | (cases l with
            | BoolValue bv =>
              cases bv <;> (simp only []; try rfl)
              all_goals
                cases (eval fs host env rhs (eval fs host env lhs j).2).1 with
                | error e => rfl
                | ok r => cases r <;> rfl
            | _ => rfl)
  | .UnaryOp e, h, k, j => by
    have ih := eval_stable fs host env e
      (h.imp (fun hc => by simpa [Expr.callFree] using hc) id) k j
    simp only [eval]
    rw [ih]
    cases (eval fs host env e j).1 with
    | error e => rfl
    | ok v => cases v <;> rfl
theorem evalList_stable (fs : List (String × BuiltInFunction)) (host : Host) (env : Env) :
    ∀ (xs : List Expr), (Expr.callFreeList xs = true ∨ ∀ i j, host i = host j) →
      ∀ k j, (evalList fs host env xs k).1 = (evalList fs host env xs j).1
  | [], _, _, _ => rfl
  | x :: rest, h, k, j => by
    have hx : x.callFree = true ∨ ∀ i j, host i = host j :=
      h.imp (fun hc => by
        simp only [Expr.callFreeList, Bool.and_eq_true] at hc
        exact hc.1) id
    have hrest : Expr.callFreeList rest = true ∨ ∀ i j, host i = host j :=
      h.imp (fun hc => by
        simp only [Expr.callFreeList, Bool.and_eq_true] at hc
        exact hc.2) id
    have ih1 := eval_stable fs host env x hx k j
    have ih2 := evalList_stable fs host env rest hrest (eval fs host env x k).2
      (eval fs host env x j).2
    simp only [evalList]
    rw [ih1, ih2]
    cases (eval fs host env x j).1 with
    | error e => rfl
    | ok v => cases (evalList fs host env rest (eval fs host env x j).2).1 <;> rfl
theorem evalEntries_stable (fs : List (String × BuiltInFunction)) (host : Host) (env : Env) :
    ∀ (xs : List (String × Expr)),
      (Expr.callFreeEntries xs = true ∨ ∀ i j, host i = host j) →
      ∀ k j, (evalEntries fs host env xs k).1 = (evalEntries fs host env xs j).1
  | [], _, _, _ => rfl
  | (key, x) :: rest, h, k, j => by
    have hx : x.callFree = true ∨ ∀ i j, host i = host j :=
      h.imp (fun hc => by
        simp only [Expr.callFreeEntries, Bool.and_eq_true] at hc
        exact hc.1) id
    have hrest : Expr.callFreeEntries rest = true ∨ ∀ i j, host i = host j :=
      h.imp (fun hc => by
        simp only [Expr.callFreeEntries, Bool.and_eq_true] at hc
        exact hc.2) id
    have ih1 := eval_stable fs host env x hx k j
    have ih2 := evalEntries_stable fs host env rest hrest (eval fs host env x k).2
      (eval fs host env x j).2
    simp only [evalEntries]
    rw [ih1, ih2]
    cases (eval fs host env x j).1 with
    | error e => rfl
    | ok v => cases (evalEntries fs host env rest (eval fs host env x j).2).1 <;> rfl
end

/-- The outcome of `EvalExpr` on a source that parses to the equality of a well-typed `x`
with itself: `x` is evaluated twice, the second time after the host calls of the first. -/
theorem EvalExpr_self_equality (g : Grammar) (b : BuiltIns) (host : Host) (env : Env)
    (kind src : String) (x : Expr) (t : AType) (k : Nat)
    (hparse : g src = some (.BinaryOp x .Eq x))
    (htype : typeinfer (typeEnv b) x = .ok t) :
    (EvalExpr g b host env kind src k).1 =
      match (eval b.Functions host env x k).1 with
      | .error err => .error err
      | .ok v =>
        match (eval b.Functions host env x (eval b.Functions host env x k).2).1 with
        | .error err => .error err
        | .ok v1 => .ok (v.equals v1) := by
  simp only [EvalExpr, Parse, hparse, typeinfer, htype, typeinferBinaryOp, unify_refl,
    AType.isBool, if_true, eval]
  cases (eval b.Functions host env x k).1 with
  | error e => rfl
  | ok v =>
    simp only []
    cases (eval b.Functions host env x (eval b.Functions host env x k).2).1 <;> rfl

/-- Counterexample to C16 as stated: `$description()` is well typed, yet `EvalExpr` on
`$description() == $description()` returns the host error and no boolean on a target whose
host call fails; returns false when the description has changed between the two calls; and
returns the error of the second call when the run is cancelled after the first. -/
theorem equality_reflexive_counterexample :
    demoGrammar "$description()" = some (.FunctionCall (.Variable "description") []) ∧
    typeinfer (typeEnv demoBuiltIns) (.FunctionCall (.Variable "description") []) =
      .ok .StringType ∧
    (EvalExpr demoGrammar demoBuiltIns (demoHost [.error "401 Bad credentials"])
      (demoEnv (.ok "")) "" "$description() == $description()" 0).1 =
        .error "401 Bad credentials" ∧
    (EvalExpr demoGrammar demoBuiltIns (demoHost [.ok "draft", .ok "ready"])
      (demoEnv (.ok "")) "" "$description() == $description()" 0).1 = .ok false ∧
    (EvalExpr demoGrammar demoBuiltIns (demoHost [.ok "draft"])
      (demoEnv (.ok "")) "" "$description() == $description()" 0).1 =
        .error "context canceled" :=
  ⟨rfl, rfl, rfl, rfl, rfl⟩

/-- Amended C16: for a well-typed `x`, `EvalExpr` on a source that parses to the equality
of `x` with itself succeeds and returns true exactly when the two evaluations of `x` in it
succeed with equal values; they do whenever the evaluation of `x` succeeds and `x` invokes
no host code or the host answers every call alike. -/
theorem equality_reflexive (g : Grammar) (b : BuiltIns) (host : Host) (env : Env)
    (kind src : String) (x : Expr) (t : AType) (k : Nat)
    (hparse : g src = some (.BinaryOp x .Eq x))
    (htype : typeinfer (typeEnv b) x = .ok t) :
    (∀ v, (eval b.Functions host env x k).1 = .ok v →
      (x.callFree = true ∨ ∀ i j, host i = host j) →
      (EvalExpr g b host env kind src k).1 = .ok true) ∧
    ((EvalExpr g b host env kind src k).1 = .ok true ↔
      ∃ v v1, (eval b.Functions host env x k).1 = .ok v ∧
        (eval b.Functions host env x (eval b.Functions host env x k).2).1 = .ok v1 ∧
        v.equals v1 = true) := by
  have hself := EvalExpr_self_equality g b host env kind src x t k hparse htype
  refine ⟨?_, ?_⟩
  · intro v heval hstable
    rw [hself, eval_stable b.Functions host env x hstable (eval b.Functions host env x k).2 k,
      heval]
    simp only [Value.equals_refl]
  · rw [hself]
    cases h1 : (eval b.Functions host env x k).1 with
    | error e => simp
    | ok v =>
      cases h2 : (eval b.Functions host env x (eval b.Functions host env x k).2).1 with
      | error e => simp
      | ok v1 => simp

/-- Witness of the amended C16: `1 == 1`, which invokes no host code, and
`$description() == $description()` against a host that answers every call alike. -/
theorem equality_reflexive_witness :
    (EvalExpr demoGrammar demoBuiltIns (demoHost []) (demoEnv (.ok "")) "" "1 == 1" 0).1 =
      .ok true ∧
    (EvalExpr demoGrammar demoBuiltIns (constHost (demoEnv (.ok "draft")).Target)
      (demoEnv (.ok "draft")) "" "$description() == $description()" 0).1 = .ok true :=
  ⟨(equality_reflexive demoGrammar demoBuiltIns (demoHost []) (demoEnv (.ok "")) "" "1 == 1"
      (.IntConst 1) .IntType 0 rfl rfl).1 (.IntValue 1) rfl (Or.inl rfl),
    (equality_reflexive demoGrammar demoBuiltIns (constHost (demoEnv (.ok "draft")).Target)
      (demoEnv (.ok "draft")) "" "$description() == $description()"
      (.FunctionCall (.Variable "description") []) .StringType 0 rfl rfl).1
      (.StringValue "draft") rfl (Or.inr (fun _ _ => rfl))⟩

/-- C17: with type `filter`, when the spec and `where` parse, `buildGroupAST` returns the
call of `filter` on the parsed spec and the one-parameter lambda, of a parameter of type
`String`, over the parsed `where`; when `where` does not parse it returns the error
`parse error: failed to build AST on input <where>`, whatever the spec; with type `static`
it returns the parse of the spec. -/
theorem filter_group_desugaring (g : Grammar) (spec param whereExpr : String) :
    (∀ specAST whereAST, g spec = some specAST → g whereExpr = some whereAST →
      buildGroupAST g GroupTypeFilter spec param whereExpr =
        .ok (BuildFunctionCall (BuildVariable "filter")
          [specAST,
           BuildLambda [BuildTypedExpr (BuildVariable param) BuildStringType] whereAST])) ∧
    (g whereExpr = none →
      buildGroupAST g GroupTypeFilter spec param whereExpr =
        .error ("parse error: failed to build AST on input " ++ whereExpr)) ∧
    buildGroupAST g GroupTypeStatic spec param whereExpr = Parse g spec := by
  refine ⟨?_, ?_, ?_⟩
  · intro specAST whereAST hs hw
    simp [buildGroupAST, Parse, hs, hw]
  · intro h
    simp [buildGroupAST, Parse, h]
  · have hne : GroupTypeStatic ≠ GroupTypeFilter := by decide
    simp [buildGroupAST, hne]

/-- Witness of C17: the scenarios S1, S2 and S3 of the spec. -/
theorem filter_group_desugaring_witness :
    buildGroupAST demoGrammar GroupTypeFilter "$group(\"seniors\")" "dev"
        "$hasFileExtensions([\".ts\"])" =
      .ok (BuildFunctionCall (BuildVariable "filter")
        [BuildFunctionCall (BuildVariable "group") [BuildStringConst "seniors"],
         BuildLambda [BuildTypedExpr (BuildVariable "dev") BuildStringType]
           (.FunctionCall (.Variable "hasFileExtensions") [.Array [.StringConst ".ts"]])]) ∧
    buildGroupAST demoGrammar GroupTypeFilter "$group(\"seniors\")" "dev"
        "$hasFileExtensions(" =
      .error "parse error: failed to build AST on input $hasFileExtensions(" ∧
    buildGroupAST demoGrammar GroupTypeStatic "[\"jane\"]" "" "" =
      .ok (BuildArray [BuildStringConst "jane"]) :=
  ⟨(filter_group_desugaring demoGrammar "$group(\"seniors\")" "dev"
      "$hasFileExtensions([\".ts\"])").1 _ _ rfl rfl,
    (filter_group_desugaring demoGrammar "$group(\"seniors\")" "dev"
      "$hasFileExtensions(").2.1 rfl,
    (filter_group_desugaring demoGrammar "[\"jane\"]" "" "").2.2.trans rfl⟩

/-- On the input of `TestBuildGroupAST_WhenGroupTypeFilterIsSet` the desugaring described
by the spec gives the parsed spec `$group("senior-developers")` as the first argument of
`filter`, where the test expects the call `organization()`. -/
theorem buildGroupAST_differs_from_test :
    buildGroupAST demoGrammar GroupTypeFilter "$group(\"senior-developers\")" "dev"
        "$hasFileExtensions([\".ts\"])" =
      .ok (BuildFunctionCall (BuildVariable "filter")
        [BuildFunctionCall (BuildVariable "group") [BuildStringConst "senior-developers"],
         BuildLambda [BuildTypedExpr (BuildVariable "dev") BuildStringType]
           (BuildFunctionCall (BuildVariable "hasFileExtensions")
             [BuildArray [BuildStringConst ".ts"]])]) ∧
    BuildFunctionCall (BuildVariable "group") [BuildStringConst "senior-developers"] ≠
      BuildFunctionCall (BuildVariable "organization") [] := by
  refine ⟨rfl, ?_⟩
  simp [BuildFunctionCall, BuildVariable]

end Aladino

namespace Aladino

theorem set_append_length {α : Type} (pre : List α) (a b : α) (t : List α) :
    (pre ++ a :: t).set pre.length b = pre ++ b :: t := by
  induction pre with
  | nil => rfl
  | cons x pre ih =>
    simp only [List.cons_append, List.length_cons, List.set_cons_succ, ih]

theorem applyWrites_append (a b : List (Nat × Value)) :
    ∀ s : List (Option Value), applyWrites (a ++ b) s = (applyWrites a s).bind (applyWrites b) := by
  induction a with
  | nil => intro s; rfl
  | cons w a ih =>
    intro s
    obtain ⟨i, v⟩ := w
    simp only [List.cons_append, applyWrites]
    cases sliceSet s i v with
    | none => rfl
    | some s1 => exact ih s1

/-- A loop that writes the slots from `pre.length` on fills them in order. -/
theorem applyWrites_rangeWrites {α : Type} (f : α → Value) (offset : Nat) :
    ∀ (xs : List α) (i : Nat) (pre : List (Option Value)) (k : Nat),
      i + offset = pre.length → xs.length ≤ k →
      applyWrites (rangeWrites f (fun j => j + offset) xs i) (pre ++ List.replicate k none) =
        some (pre ++ xs.map (fun x => some (f x)) ++ List.replicate (k - xs.length) none) := by
  intro xs
  induction xs with
  | nil =>
    intro i pre k _ _
    simp [rangeWrites, applyWrites]
  | cons x xs ih =>
    intro i pre k hi hk
    obtain ⟨k1, rfl⟩ : ∃ k1, k = k1 + 1 := ⟨k - 1, by simp at hk; omega⟩
    have hlen : i + offset < (pre ++ List.replicate (k1 + 1) (none : Option Value)).length := by
      simp
      omega
    simp only [rangeWrites, applyWrites, sliceSet, hlen, if_true]
    rw [hi, List.replicate_succ, set_append_length]
    have e1 : pre ++ some (f x) :: List.replicate k1 none =
        (pre ++ [some (f x)]) ++ List.replicate k1 none := by simp
    rw [e1, ih (i + 1) (pre ++ [some (f x)]) k1 (by simp; omega) (by simp at hk; omega)]
    simp

theorem writtenValues_map_some (vs : List Value) :
    writtenValues (vs.map some) = some vs := by
  induction vs with
  | nil => rfl
  | cons v vs ih => simp [writtenValues, ih]

theorem rangeWrites_indices {α : Type} (f : α → Value) (index : Nat → Nat) :
    ∀ (xs : List α) (i : Nat),
      (rangeWrites f index xs i).map Prod.fst = (List.range' i xs.length).map index := by
  intro xs
  induction xs with
  | nil => intro i; rfl
  | cons x xs ih =>
    intro i
    simp [rangeWrites, ih, List.range'_succ]

theorem reviewersWrites_indices (pr : PullRequest) :
    (reviewersWrites pr).map Prod.fst =
      List.range (pr.RequestedReviewers.length + pr.RequestedTeams.length) := by
  unfold reviewersWrites
  rw [List.map_append, rangeWrites_indices, rangeWrites_indices, List.range_eq_range']
  have e1 : (List.range' 0 pr.RequestedReviewers.length).map (fun i => i) =
      List.range' 0 pr.RequestedReviewers.length := by simp
  have e2 : (List.range' 0 pr.RequestedTeams.length).map
      (fun i => i + pr.RequestedReviewers.length) =
      List.range' pr.RequestedReviewers.length pr.RequestedTeams.length := by
    rw [List.range'_eq_map_range]
    apply List.ext_getElem
    · simp
    · intro n h1 h2
      simp [List.getElem_range']
      omega
  rw [e1, e2]
  apply List.ext_getElem
  · simp
  · intro n h1 h2
    simp only [List.length_append, List.length_range'] at h1
    simp only [List.getElem_range']
    by_cases hn : n < pr.RequestedReviewers.length
    · rw [List.getElem_append_left (by simpa using hn)]
      simp [List.getElem_range']
    · rw [List.getElem_append_right (by simpa using Nat.le_of_not_lt hn)]
      simp [List.getElem_range']
      omega

/-- C21: on a pull-request target `reviewersCode` returns no error and the array of the
string values of the logins of the requested reviewers followed by the slugs of the
requested teams, in order; the slots written by the two loops are `0, 1, ..., m + n - 1`
in that order, so every written index is within the allocated slice and every slot is
written exactly once. -/
theorem reviewers_in_order (e : Env) (args : List Value) (pullRequest : PullRequest)
    (h : e.Target.PullRequest = some pullRequest) :
    reviewersCode e args =
      .ok (BuildArrayValue
        (pullRequest.RequestedReviewers.map (fun u => BuildStringValue u.GetLogin) ++
          pullRequest.RequestedTeams.map (fun t => BuildStringValue t.GetSlug))) ∧
    (reviewersWrites pullRequest).map Prod.fst =
      List.range (pullRequest.RequestedReviewers.length + pullRequest.RequestedTeams.length) ∧
    (∀ w ∈ reviewersWrites pullRequest,
      w.1 < pullRequest.RequestedReviewers.length + pullRequest.RequestedTeams.length) ∧
    ((reviewersWrites pullRequest).map Prod.fst).Nodup ∧
    (∀ i, i < pullRequest.RequestedReviewers.length + pullRequest.RequestedTeams.length →
      ((reviewersWrites pullRequest).map Prod.fst).count i = 1) := by
  have hidx := reviewersWrites_indices pullRequest
  refine ⟨?_, hidx, ?_, ?_, ?_⟩
  · have h1 := applyWrites_rangeWrites (fun u : User => BuildStringValue u.GetLogin) 0
      pullRequest.RequestedReviewers 0 []
      (pullRequest.RequestedReviewers.length + pullRequest.RequestedTeams.length) rfl
      (Nat.le_add_right _ _)
    have h2 := applyWrites_rangeWrites (fun t : Team => BuildStringValue t.GetSlug)
      pullRequest.RequestedReviewers.length pullRequest.RequestedTeams 0
      (pullRequest.RequestedReviewers.map (fun u => some (BuildStringValue u.GetLogin)))
      pullRequest.RequestedTeams.length (by simp) (Nat.le_refl _)
    simp only [Nat.add_zero, List.nil_append, Nat.add_sub_cancel_left] at h1
    simp only [Nat.sub_self, List.replicate_zero, List.append_nil] at h2
    have h3 : applyWrites (reviewersWrites pullRequest)
        (List.replicate
          (pullRequest.RequestedReviewers.length + pullRequest.RequestedTeams.length) none) =
        some ((pullRequest.RequestedReviewers.map (fun u => BuildStringValue u.GetLogin) ++
          pullRequest.RequestedTeams.map (fun t => BuildStringValue t.GetSlug)).map some) := by
      unfold reviewersWrites
      rw [applyWrites_append, h1]
      simp only [Option.some_bind, h2]
      simp [List.map_append, List.map_map, Function.comp_def]
    simp only [reviewersCode, h, h3, writtenValues_map_some]
  · intro w hw
    have : w.1 ∈ (reviewersWrites pullRequest).map Prod.fst := List.mem_map_of_mem _ hw
    rw [hidx] at this
    exact List.mem_range.1 this
  · rw [hidx]
    exact List.nodup_range _
  · intro i hi
    rw [hidx]
    exact List.count_eq_one_of_mem (List.nodup_range _) (List.mem_range.2 hi)

/-- Witness of C21: two requested reviewers, the second without login, and one team. -/
theorem reviewers_in_order_witness :
    reviewersCode demoPullRequestEnv [] =
      .ok (.ArrayValue [.StringValue "jane", .StringValue "", .StringValue "security"]) ∧
    (reviewersWrites
        { RequestedReviewers := [{ Login := some "jane" }, { Login := none }]
          RequestedTeams := [{ Slug := some "security" }] }).map Prod.fst = [0, 1, 2] :=
  ⟨(reviewers_in_order demoPullRequestEnv [] _ rfl).1,
    (reviewers_in_order demoPullRequestEnv [] _ rfl).2.1⟩

end Aladino

end Reviewpad
